import Mathlib

/-!
# AES-ZKN driver (RISC-V 32-bit scalar crypto) : shallow embedding

Source: tf-psa-crypto/drivers/builtin/src/aeszkn.c and aeszkn.h.

The driver is written as inline RV32 assembly. Each assembly routine is embedded as a Lean
function that threads the registers it uses and the memory buffers it touches, one
let-binding per instruction, in program order. Loops are recursive functions with a fuel
argument; running out of fuel yields none.

* Data registers hold natural numbers below 2^32.
* Pointer registers hold byte offsets (integers) into the buffer they point into.
* A buffer is a byte-addressed memory Int → Nat; a cell is read modulo 256.
* The semantics of aes32esi, aes32esmi, aes32dsi and aes32dsmi is the one of the RISC-V
  scalar cryptography specification v1.0.1 that aeszkn.c cites at its top.
-/

namespace AesZkn

/-! ## Memory and base instructions -/

/-- Byte-addressed memory buffer; addresses are byte offsets from the start of the buffer. -/
abbrev Mem := Int → Nat

/-- Instruction lbu: load one byte, zero-extended. -/
def lbu (m : Mem) (a : Int) : Nat := m a % 256

/-- Instruction lw: load a 32-bit little-endian word. -/
def lw (m : Mem) (a : Int) : Nat :=
  lbu m a + 2 ^ 8 * lbu m (a + 1) + 2 ^ 16 * lbu m (a + 2) + 2 ^ 24 * lbu m (a + 3)

/-- Instruction sw: store the low 32 bits of a register as four little-endian bytes. -/
def sw (m : Mem) (a : Int) (v : Nat) : Mem := fun j =>
  if j = a then v % 256
  else if j = a + 1 then v / 2 ^ 8 % 256
  else if j = a + 2 then v / 2 ^ 16 % 256
  else if j = a + 3 then v / 2 ^ 24 % 256
  else m j

/-- Instruction srli on a 32-bit register. -/
def srli (x n : Nat) : Nat := x >>> n

/-- Instruction slli on a 32-bit register: bits shifted past bit 31 are lost. -/
def slli (x n : Nat) : Nat := (x <<< n) % 2 ^ 32

/-! ## Scalar-crypto helper functions (RISC-V scalar cryptography spec, v1.0.1) -/

/-- Forward AES S-box, the table behind the aes_sbox_fwd helper of the RISC-V scalar
cryptography specification (FIPS-197 figure 7). -/
def sbox_fwd_table : List Nat :=
  [
   0x63, 0x7c, 0x77, 0x7b, 0xf2, 0x6b, 0x6f, 0xc5, 0x30, 0x01, 0x67, 0x2b, 0xfe, 0xd7, 0xab, 0x76,
   0xca, 0x82, 0xc9, 0x7d, 0xfa, 0x59, 0x47, 0xf0, 0xad, 0xd4, 0xa2, 0xaf, 0x9c, 0xa4, 0x72, 0xc0,
   0xb7, 0xfd, 0x93, 0x26, 0x36, 0x3f, 0xf7, 0xcc, 0x34, 0xa5, 0xe5, 0xf1, 0x71, 0xd8, 0x31, 0x15,
   0x04, 0xc7, 0x23, 0xc3, 0x18, 0x96, 0x05, 0x9a, 0x07, 0x12, 0x80, 0xe2, 0xeb, 0x27, 0xb2, 0x75,
   0x09, 0x83, 0x2c, 0x1a, 0x1b, 0x6e, 0x5a, 0xa0, 0x52, 0x3b, 0xd6, 0xb3, 0x29, 0xe3, 0x2f, 0x84,
   0x53, 0xd1, 0x00, 0xed, 0x20, 0xfc, 0xb1, 0x5b, 0x6a, 0xcb, 0xbe, 0x39, 0x4a, 0x4c, 0x58, 0xcf,
   0xd0, 0xef, 0xaa, 0xfb, 0x43, 0x4d, 0x33, 0x85, 0x45, 0xf9, 0x02, 0x7f, 0x50, 0x3c, 0x9f, 0xa8,
   0x51, 0xa3, 0x40, 0x8f, 0x92, 0x9d, 0x38, 0xf5, 0xbc, 0xb6, 0xda, 0x21, 0x10, 0xff, 0xf3, 0xd2,
   0xcd, 0x0c, 0x13, 0xec, 0x5f, 0x97, 0x44, 0x17, 0xc4, 0xa7, 0x7e, 0x3d, 0x64, 0x5d, 0x19, 0x73,
   0x60, 0x81, 0x4f, 0xdc, 0x22, 0x2a, 0x90, 0x88, 0x46, 0xee, 0xb8, 0x14, 0xde, 0x5e, 0x0b, 0xdb,
   0xe0, 0x32, 0x3a, 0x0a, 0x49, 0x06, 0x24, 0x5c, 0xc2, 0xd3, 0xac, 0x62, 0x91, 0x95, 0xe4, 0x79,
   0xe7, 0xc8, 0x37, 0x6d, 0x8d, 0xd5, 0x4e, 0xa9, 0x6c, 0x56, 0xf4, 0xea, 0x65, 0x7a, 0xae, 0x08,
   0xba, 0x78, 0x25, 0x2e, 0x1c, 0xa6, 0xb4, 0xc6, 0xe8, 0xdd, 0x74, 0x1f, 0x4b, 0xbd, 0x8b, 0x8a,
   0x70, 0x3e, 0xb5, 0x66, 0x48, 0x03, 0xf6, 0x0e, 0x61, 0x35, 0x57, 0xb9, 0x86, 0xc1, 0x1d, 0x9e,
   0xe1, 0xf8, 0x98, 0x11, 0x69, 0xd9, 0x8e, 0x94, 0x9b, 0x1e, 0x87, 0xe9, 0xce, 0x55, 0x28, 0xdf,
   0x8c, 0xa1, 0x89, 0x0d, 0xbf, 0xe6, 0x42, 0x68, 0x41, 0x99, 0x2d, 0x0f, 0xb0, 0x54, 0xbb, 0x16]

/-- Inverse AES S-box, the table behind aes_sbox_inv (FIPS-197 figure 14). -/
def sbox_inv_table : List Nat :=
  [
   0x52, 0x09, 0x6a, 0xd5, 0x30, 0x36, 0xa5, 0x38, 0xbf, 0x40, 0xa3, 0x9e, 0x81, 0xf3, 0xd7, 0xfb,
   0x7c, 0xe3, 0x39, 0x82, 0x9b, 0x2f, 0xff, 0x87, 0x34, 0x8e, 0x43, 0x44, 0xc4, 0xde, 0xe9, 0xcb,
   0x54, 0x7b, 0x94, 0x32, 0xa6, 0xc2, 0x23, 0x3d, 0xee, 0x4c, 0x95, 0x0b, 0x42, 0xfa, 0xc3, 0x4e,
   0x08, 0x2e, 0xa1, 0x66, 0x28, 0xd9, 0x24, 0xb2, 0x76, 0x5b, 0xa2, 0x49, 0x6d, 0x8b, 0xd1, 0x25,
   0x72, 0xf8, 0xf6, 0x64, 0x86, 0x68, 0x98, 0x16, 0xd4, 0xa4, 0x5c, 0xcc, 0x5d, 0x65, 0xb6, 0x92,
   0x6c, 0x70, 0x48, 0x50, 0xfd, 0xed, 0xb9, 0xda, 0x5e, 0x15, 0x46, 0x57, 0xa7, 0x8d, 0x9d, 0x84,
   0x90, 0xd8, 0xab, 0x00, 0x8c, 0xbc, 0xd3, 0x0a, 0xf7, 0xe4, 0x58, 0x05, 0xb8, 0xb3, 0x45, 0x06,
   0xd0, 0x2c, 0x1e, 0x8f, 0xca, 0x3f, 0x0f, 0x02, 0xc1, 0xaf, 0xbd, 0x03, 0x01, 0x13, 0x8a, 0x6b,
   0x3a, 0x91, 0x11, 0x41, 0x4f, 0x67, 0xdc, 0xea, 0x97, 0xf2, 0xcf, 0xce, 0xf0, 0xb4, 0xe6, 0x73,
   0x96, 0xac, 0x74, 0x22, 0xe7, 0xad, 0x35, 0x85, 0xe2, 0xf9, 0x37, 0xe8, 0x1c, 0x75, 0xdf, 0x6e,
   0x47, 0xf1, 0x1a, 0x71, 0x1d, 0x29, 0xc5, 0x89, 0x6f, 0xb7, 0x62, 0x0e, 0xaa, 0x18, 0xbe, 0x1b,
   0xfc, 0x56, 0x3e, 0x4b, 0xc6, 0xd2, 0x79, 0x20, 0x9a, 0xdb, 0xc0, 0xfe, 0x78, 0xcd, 0x5a, 0xf4,
   0x1f, 0xdd, 0xa8, 0x33, 0x88, 0x07, 0xc7, 0x31, 0xb1, 0x12, 0x10, 0x59, 0x27, 0x80, 0xec, 0x5f,
   0x60, 0x51, 0x7f, 0xa9, 0x19, 0xb5, 0x4a, 0x0d, 0x2d, 0xe5, 0x7a, 0x9f, 0x93, 0xc9, 0x9c, 0xef,
   0xa0, 0xe0, 0x3b, 0x4d, 0xae, 0x2a, 0xf5, 0xb0, 0xc8, 0xeb, 0xbb, 0x3c, 0x83, 0x53, 0x99, 0x61,
   0x17, 0x2b, 0x04, 0x7e, 0xba, 0x77, 0xd6, 0x26, 0xe1, 0x69, 0x14, 0x63, 0x55, 0x21, 0x0c, 0x7d]

/-- Helper aes_sbox_fwd: forward S-box lookup of a byte. -/
def aes_sbox_fwd (x : Nat) : Nat := sbox_fwd_table.getD x 0

/-- Helper aes_sbox_inv: inverse S-box lookup of a byte. -/
def aes_sbox_inv (x : Nat) : Nat := sbox_inv_table.getD x 0

/-- Helper xt2: multiplication by x in GF(2^8) modulo x^8 + x^4 + x^3 + x + 1. -/
def xt2 (x : Nat) : Nat := ((x <<< 1) ^^^ (if x.testBit 7 then 0x1b else 0x00)) % 256

/-- Helper gfmul: multiply the byte x by the 4-bit constant y in GF(2^8). -/
def gfmul (x y : Nat) : Nat :=
  (if y.testBit 0 then x else 0) ^^^
  (if y.testBit 1 then xt2 x else 0) ^^^
  (if y.testBit 2 then xt2 (xt2 x) else 0) ^^^
  (if y.testBit 3 then xt2 (xt2 (xt2 x)) else 0)

/-- Helper aes_mixcolumn_byte_fwd: the 32-bit value gfmul(so,3) @ so @ so @ gfmul(so,2). -/
def aes_mixcolumn_byte_fwd (so : Nat) : Nat :=
  2 ^ 24 * gfmul so 0x3 + 2 ^ 16 * so + 2 ^ 8 * so + gfmul so 0x2

/-- Helper aes_mixcolumn_byte_inv: gfmul(so,0xb) @ gfmul(so,0xd) @ gfmul(so,0x9) @ gfmul(so,0xe). -/
def aes_mixcolumn_byte_inv (so : Nat) : Nat :=
  2 ^ 24 * gfmul so 0xb + 2 ^ 16 * gfmul so 0xd + 2 ^ 8 * gfmul so 0x9 + gfmul so 0xe

/-- Helper rol32: rotate a 32-bit value left. -/
def rol32 (x n : Nat) : Nat := ((x <<< n) ||| (x >>> (32 - n))) % 2 ^ 32

/-- Instruction aes32esi rd, rs1, rs2, bs: S-box of byte bs of rs2, rotated into byte lane bs,
xored into rs1. -/
def aes32esi (rs1 rs2 bs : Nat) : Nat :=
  let shamt := 8 * bs
  let si := (rs2 >>> shamt) % 256
  let so := aes_sbox_fwd si
  rs1 ^^^ rol32 so shamt

/-- Instruction aes32esmi rd, rs1, rs2, bs: S-box of byte bs of rs2, expanded to its MixColumns
contribution, rotated by bs bytes, xored into rs1. -/
def aes32esmi (rs1 rs2 bs : Nat) : Nat :=
  let shamt := 8 * bs
  let si := (rs2 >>> shamt) % 256
  let so := aes_sbox_fwd si
  let mixed := aes_mixcolumn_byte_fwd so
  rs1 ^^^ rol32 mixed shamt

/-- Instruction aes32dsi rd, rs1, rs2, bs: as aes32esi with the inverse S-box. -/
def aes32dsi (rs1 rs2 bs : Nat) : Nat :=
  let shamt := 8 * bs
  let si := (rs2 >>> shamt) % 256
  let so := aes_sbox_inv si
  rs1 ^^^ rol32 so shamt

/-- Instruction aes32dsmi rd, rs1, rs2, bs: as aes32esmi with the inverse S-box and the
InvMixColumns contribution. -/
def aes32dsmi (rs1 rs2 bs : Nat) : Nat :=
  let shamt := 8 * bs
  let si := (rs2 >>> shamt) % 256
  let so := aes_sbox_inv si
  let mixed := aes_mixcolumn_byte_inv so
  rs1 ^^^ rol32 mixed shamt

/-! ## Constants declared in mbedtls/aes.h (not part of the two driver files) -/

/-- Modelled from the spec: the InvalidKeyLength status of mbedtls/aes.h, a non-zero error
code distinct from success (upstream value -0x0020). -/
def MBEDTLS_ERR_AES_INVALID_KEY_LENGTH : Int := -0x0020

/-- Modelled from the spec: direction tag for encryption (mbedtls/aes.h, value 1). -/
def MBEDTLS_AES_ENCRYPT : Int := 1

/-- Modelled from the spec: direction tag for decryption (mbedtls/aes.h, value 0). -/
def MBEDTLS_AES_DECRYPT : Int := 0

/-- Modelled from the spec: the cipher context of mbedtls/aes.h, holding the number of rounds,
the offset (in 32-bit words) of the round keys inside buf, and the buffer itself. -/
structure mbedtls_aes_context where
  nr : Int
  rk_offset : Nat
  buf : Mem

/-! ## Key expansion for encryption (aeszkn.c lines 62-212) -/

/-- Loop .aes_128_enc_ks_l0 of aes_128_enc_ks. Registers a2..a5 hold the current round key,
a6 the store pointer into rk, t0 the end pointer, t1 the round-constant pointer. -/
def aes_128_enc_ks_l0 : Nat → Mem → Mem → Nat → Nat → Nat → Nat → Int → Int → Int → Option Mem
  | 0, _, _, _, _, _, _, _, _, _ => none
  | fuel + 1, rk, rc, a2, a3, a4, a5, a6, t0, t1 =>
    let rk := sw rk (a6 + 0) a2
    let rk := sw rk (a6 + 4) a3
    let rk := sw rk (a6 + 8) a4
    let rk := sw rk (a6 + 12) a5
    if t0 = a6 then some rk
    else
      let a6 := a6 + 16
      let t2 := lbu rc (t1 + 0)
      let t1 := t1 + 4
      let a2 := a2 ^^^ t2
      let t4 := srli a5 8
      let t3 := slli a5 (32 - 8)
      let t3 := t3 ||| t4
      let a2 := aes32esi a2 t3 0
      let a2 := aes32esi a2 t3 1
      let a2 := aes32esi a2 t3 2
      let a2 := aes32esi a2 t3 3
      let a3 := a3 ^^^ a2
      let a4 := a4 ^^^ a3
      let a5 := a5 ^^^ a4
      aes_128_enc_ks_l0 fuel rk rc a2 a3 a4 a5 a6 t0 t1

/-- Function aes_128_enc_ks(rk, ck, rc): a0 = rk, a1 = ck, a2 = rc on entry. -/
def aes_128_enc_ks (fuel : Nat) (rk : Mem) (a0 : Int) (ck : Mem) (a1 : Int) (rc : Mem)
    (a2 : Int) : Option Mem :=
  let t1 := a2
  let a2 := lw ck (a1 + 0)
  let a3 := lw ck (a1 + 4)
  let a4 := lw ck (a1 + 8)
  let a5 := lw ck (a1 + 12)
  let a6 := a0
  let t0 := a0 + 160
  aes_128_enc_ks_l0 fuel rk rc a2 a3 a4 a5 a6 t0 t1

/-- Loop .aes_192_enc_ks_l0 of aes_192_enc_ks. -/
def aes_192_enc_ks_l0 :
    Nat → Mem → Mem → Nat → Nat → Nat → Nat → Nat → Nat → Int → Int → Int → Option Mem
  | 0, _, _, _, _, _, _, _, _, _, _, _ => none
  | fuel + 1, rk, rc, a2, a3, a4, a5, a7, t5, a6, t0, t1 =>
    let rk := sw rk (a6 + 0) a2
    let rk := sw rk (a6 + 4) a3
    let rk := sw rk (a6 + 8) a4
    let rk := sw rk (a6 + 12) a5
    if t0 = a6 then some rk
    else
      let rk := sw rk (a6 + 16) a7
      let rk := sw rk (a6 + 20) t5
      let a6 := a6 + 24
      let t4 := lbu rc (t1 + 0)
      let t1 := t1 + 4
      let a2 := a2 ^^^ t4
      let t4 := srli t5 8
      let t3 := slli t5 (32 - 8)
      let t3 := t3 ||| t4
      let a2 := aes32esi a2 t3 0
      let a2 := aes32esi a2 t3 1
      let a2 := aes32esi a2 t3 2
      let a2 := aes32esi a2 t3 3
      let a3 := a3 ^^^ a2
      let a4 := a4 ^^^ a3
      let a5 := a5 ^^^ a4
      let a7 := a7 ^^^ a5
      let t5 := t5 ^^^ a7
      aes_192_enc_ks_l0 fuel rk rc a2 a3 a4 a5 a7 t5 a6 t0 t1

/-- Function aes_192_enc_ks(rk, ck, rc). -/
def aes_192_enc_ks (fuel : Nat) (rk : Mem) (a0 : Int) (ck : Mem) (a1 : Int) (rc : Mem)
    (a2 : Int) : Option Mem :=
  let t1 := a2
  let a2 := lw ck (a1 + 0)
  let a3 := lw ck (a1 + 4)
  let a4 := lw ck (a1 + 8)
  let a5 := lw ck (a1 + 12)
  let a7 := lw ck (a1 + 16)
  let t5 := lw ck (a1 + 20)
  let a6 := a0
  let t0 := a0 + 48 * 4
  aes_192_enc_ks_l0 fuel rk rc a2 a3 a4 a5 a7 t5 a6 t0 t1

/-- Loop .aes_256_enc_ks_l0 of aes_256_enc_ks. -/
def aes_256_enc_ks_l0 :
    Nat → Mem → Mem → Nat → Nat → Nat → Nat → Nat → Nat → Nat → Nat → Int → Int → Int →
      Option Mem
  | 0, _, _, _, _, _, _, _, _, _, _, _, _, _ => none
  | fuel + 1, rk, rc, a2, a3, a4, a5, a7, t5, t6, t2, a6, t0, t1 =>
    let rk := sw rk (a6 + 16) a7
    let rk := sw rk (a6 + 20) t5
    let rk := sw rk (a6 + 24) t6
    let rk := sw rk (a6 + 28) t2
    let a6 := a6 + 32
    let t4 := lbu rc (t1 + 0)
    let t1 := t1 + 4
    let a2 := a2 ^^^ t4
    let t4 := srli t2 8
    let t3 := slli t2 (32 - 8)
    let t3 := t3 ||| t4
    let a2 := aes32esi a2 t3 0
    let a2 := aes32esi a2 t3 1
    let a2 := aes32esi a2 t3 2
    let a2 := aes32esi a2 t3 3
    let a3 := a3 ^^^ a2
    let a4 := a4 ^^^ a3
    let a5 := a5 ^^^ a4
    let rk := sw rk (a6 + 0) a2
    let rk := sw rk (a6 + 4) a3
    let rk := sw rk (a6 + 8) a4
    let rk := sw rk (a6 + 12) a5
    if t0 = a6 then some rk
    else
      let a7 := aes32esi a7 a5 0
      let a7 := aes32esi a7 a5 1
      let a7 := aes32esi a7 a5 2
      let a7 := aes32esi a7 a5 3
      let t5 := t5 ^^^ a7
      let t6 := t6 ^^^ t5
      let t2 := t2 ^^^ t6
      aes_256_enc_ks_l0 fuel rk rc a2 a3 a4 a5 a7 t5 t6 t2 a6 t0 t1

/-- Function aes_256_enc_ks(rk, ck, rc). -/
def aes_256_enc_ks (fuel : Nat) (rk : Mem) (a0 : Int) (ck : Mem) (a1 : Int) (rc : Mem)
    (a2 : Int) : Option Mem :=
  let t1 := a2
  let a2 := lw ck (a1 + 0)
  let a3 := lw ck (a1 + 4)
  let a4 := lw ck (a1 + 8)
  let a5 := lw ck (a1 + 12)
  let a7 := lw ck (a1 + 16)
  let t5 := lw ck (a1 + 20)
  let t6 := lw ck (a1 + 24)
  let t2 := lw ck (a1 + 28)
  let a6 := a0
  let t0 := a0 + 56 * 4
  let rk := sw rk (a6 + 0) a2
  let rk := sw rk (a6 + 4) a3
  let rk := sw rk (a6 + 8) a4
  let rk := sw rk (a6 + 12) a5
  aes_256_enc_ks_l0 fuel rk rc a2 a3 a4 a5 a7 t5 t6 t2 a6 t0 t1

/-- Function mbedtls_aeszkn_setkey_enc(rk, key, rc, bits): returns the status and the
content of the rk buffer on return; rk, key and rc point to the start of their buffers. -/
def mbedtls_aeszkn_setkey_enc (fuel : Nat) (rk : Mem) (key : Mem) (rc : Mem) (bits : Nat) :
    Option (Int × Mem) :=
  if bits = 128 then (aes_128_enc_ks fuel rk 0 key 0 rc 0).map (fun m => (0, m))
  else if bits = 192 then (aes_192_enc_ks fuel rk 0 key 0 rc 0).map (fun m => (0, m))
  else if bits = 256 then (aes_256_enc_ks fuel rk 0 key 0 rc 0).map (fun m => (0, m))
  else some (MBEDTLS_ERR_AES_INVALID_KEY_LENGTH, rk)

/-! ## Single-block transforms (aeszkn.c lines 312-514) -/

/-- Loop .aes_enc of aes_ecb_encrypt with its exit block .aes_enc_finish (up to the stores):
a4..a7 hold the state columns, a2 walks the schedule, a3 is the end pointer. -/
def aes_ecb_encrypt_loop :
    Nat → Mem → Nat → Nat → Nat → Nat → Int → Int → Option (Nat × Nat × Nat × Nat)
  | 0, _, _, _, _, _, _, _ => none
  | fuel + 1, rk, a4, a5, a6, a7, a2, a3 =>
    let t0 := lw rk (a2 + 16)
    let t1 := lw rk (a2 + 20)
    let t2 := lw rk (a2 + 24)
    let t3 := lw rk (a2 + 28)
    let t0 := aes32esmi t0 a4 0
    let t0 := aes32esmi t0 a5 1
    let t0 := aes32esmi t0 a6 2
    let t0 := aes32esmi t0 a7 3
    let t1 := aes32esmi t1 a5 0
    let t1 := aes32esmi t1 a6 1
    let t1 := aes32esmi t1 a7 2
    let t1 := aes32esmi t1 a4 3
    let t2 := aes32esmi t2 a6 0
    let t2 := aes32esmi t2 a7 1
    let t2 := aes32esmi t2 a4 2
    let t2 := aes32esmi t2 a5 3
    let t3 := aes32esmi t3 a7 0
    let t3 := aes32esmi t3 a4 1
    let t3 := aes32esmi t3 a5 2
    let t3 := aes32esmi t3 a6 3
    let a4 := lw rk (a2 + 32)
    let a5 := lw rk (a2 + 36)
    let a6 := lw rk (a2 + 40)
    let a7 := lw rk (a2 + 44)
    let a2 := a2 + 32
    if a2 = a3 then
      let a4 := aes32esi a4 t0 0
      let a4 := aes32esi a4 t1 1
      let a4 := aes32esi a4 t2 2
      let a4 := aes32esi a4 t3 3
      let a5 := aes32esi a5 t1 0
      let a5 := aes32esi a5 t2 1
      let a5 := aes32esi a5 t3 2
      let a5 := aes32esi a5 t0 3
      let a6 := aes32esi a6 t2 0
      let a6 := aes32esi a6 t3 1
      let a6 := aes32esi a6 t0 2
      let a6 := aes32esi a6 t1 3
      let a7 := aes32esi a7 t3 0
      let a7 := aes32esi a7 t0 1
      let a7 := aes32esi a7 t1 2
      let a7 := aes32esi a7 t2 3
      some (a4, a5, a6, a7)
    else
      let a4 := aes32esmi a4 t0 0
      let a4 := aes32esmi a4 t1 1
      let a4 := aes32esmi a4 t2 2
      let a4 := aes32esmi a4 t3 3
      let a5 := aes32esmi a5 t1 0
      let a5 := aes32esmi a5 t2 1
      let a5 := aes32esmi a5 t3 2
      let a5 := aes32esmi a5 t0 3
      let a6 := aes32esmi a6 t2 0
      let a6 := aes32esmi a6 t3 1
      let a6 := aes32esmi a6 t0 2
      let a6 := aes32esmi a6 t1 3
      let a7 := aes32esmi a7 t3 0
      let a7 := aes32esmi a7 t0 1
      let a7 := aes32esmi a7 t1 2
      let a7 := aes32esmi a7 t2 3
      aes_ecb_encrypt_loop fuel rk a4 a5 a6 a7 a2 a3

/-- Function aes_ecb_encrypt(ct, pt, rk, ptr): a0 = ct, a1 = pt, a2 = rk, a3 = ptr on entry;
returns the content of the ct buffer. -/
def aes_ecb_encrypt (fuel : Nat) (ct : Mem) (a0 : Int) (pt : Mem) (a1 : Int) (rk : Mem)
    (a2 : Int) (a3 : Int) : Option Mem :=
  let a4 := lw pt (a1 + 0)
  let a5 := lw pt (a1 + 4)
  let a6 := lw pt (a1 + 8)
  let a7 := lw pt (a1 + 12)
  let t0 := lw rk (a2 + 0)
  let t1 := lw rk (a2 + 4)
  let t2 := lw rk (a2 + 8)
  let t3 := lw rk (a2 + 12)
  let a4 := a4 ^^^ t0
  let a5 := a5 ^^^ t1
  let a6 := a6 ^^^ t2
  let a7 := a7 ^^^ t3
  match aes_ecb_encrypt_loop fuel rk a4 a5 a6 a7 a2 a3 with
  | none => none
  | some (a4, a5, a6, a7) =>
    let ct := sw ct (a0 + 0) a4
    let ct := sw ct (a0 + 4) a5
    let ct := sw ct (a0 + 8) a6
    let ct := sw ct (a0 + 12) a7
    some ct

/-- Loop .aes_dec of aes_ecb_decrypt with its exit block .aes_dec_finish (up to the stores):
a3 walks the schedule downwards, a2 is the start of the schedule. -/
def aes_ecb_decrypt_loop :
    Nat → Mem → Nat → Nat → Nat → Nat → Int → Int → Option (Nat × Nat × Nat × Nat)
  | 0, _, _, _, _, _, _, _ => none
  | fuel + 1, rk, a4, a5, a6, a7, a2, a3 =>
    let t0 := lw rk (a3 + 16)
    let t1 := lw rk (a3 + 20)
    let t2 := lw rk (a3 + 24)
    let t3 := lw rk (a3 + 28)
    let t0 := aes32dsmi t0 a4 0
    let t0 := aes32dsmi t0 a7 1
    let t0 := aes32dsmi t0 a6 2
    let t0 := aes32dsmi t0 a5 3
    let t1 := aes32dsmi t1 a5 0
    let t1 := aes32dsmi t1 a4 1
    let t1 := aes32dsmi t1 a7 2
    let t1 := aes32dsmi t1 a6 3
    let t2 := aes32dsmi t2 a6 0
    let t2 := aes32dsmi t2 a5 1
    let t2 := aes32dsmi t2 a4 2
    let t2 := aes32dsmi t2 a7 3
    let t3 := aes32dsmi t3 a7 0
    let t3 := aes32dsmi t3 a6 1
    let t3 := aes32dsmi t3 a5 2
    let t3 := aes32dsmi t3 a4 3
    let a4 := lw rk (a3 + 0)
    let a5 := lw rk (a3 + 4)
    let a6 := lw rk (a3 + 8)
    let a7 := lw rk (a3 + 12)
    if a2 = a3 then
      let a4 := aes32dsi a4 t0 0
      let a4 := aes32dsi a4 t3 1
      let a4 := aes32dsi a4 t2 2
      let a4 := aes32dsi a4 t1 3
      let a5 := aes32dsi a5 t1 0
      let a5 := aes32dsi a5 t0 1
      let a5 := aes32dsi a5 t3 2
      let a5 := aes32dsi a5 t2 3
      let a6 := aes32dsi a6 t2 0
      let a6 := aes32dsi a6 t1 1
      let a6 := aes32dsi a6 t0 2
      let a6 := aes32dsi a6 t3 3
      let a7 := aes32dsi a7 t3 0
      let a7 := aes32dsi a7 t2 1
      let a7 := aes32dsi a7 t1 2
      let a7 := aes32dsi a7 t0 3
      some (a4, a5, a6, a7)
    else
      let a3 := a3 - 32
      let a4 := aes32dsmi a4 t0 0
      let a4 := aes32dsmi a4 t3 1
      let a4 := aes32dsmi a4 t2 2
      let a4 := aes32dsmi a4 t1 3
      let a5 := aes32dsmi a5 t1 0
      let a5 := aes32dsmi a5 t0 1
      let a5 := aes32dsmi a5 t3 2
      let a5 := aes32dsmi a5 t2 3
      let a6 := aes32dsmi a6 t2 0
      let a6 := aes32dsmi a6 t1 1
      let a6 := aes32dsmi a6 t0 2
      let a6 := aes32dsmi a6 t3 3
      let a7 := aes32dsmi a7 t3 0
      let a7 := aes32dsmi a7 t2 1
      let a7 := aes32dsmi a7 t1 2
      let a7 := aes32dsmi a7 t0 3
      aes_ecb_decrypt_loop fuel rk a4 a5 a6 a7 a2 a3

/-- Function aes_ecb_decrypt(pt, ct, rk, ptr): a0 = pt, a1 = ct, a2 = rk, a3 = ptr on entry;
returns the content of the pt buffer. -/
def aes_ecb_decrypt (fuel : Nat) (pt : Mem) (a0 : Int) (ct : Mem) (a1 : Int) (rk : Mem)
    (a2 : Int) (a3 : Int) : Option Mem :=
  let a4 := lw ct (a1 + 0)
  let a5 := lw ct (a1 + 4)
  let a6 := lw ct (a1 + 8)
  let a7 := lw ct (a1 + 12)
  let t0 := lw rk (a3 + 0)
  let t1 := lw rk (a3 + 4)
  let t2 := lw rk (a3 + 8)
  let t3 := lw rk (a3 + 12)
  let a4 := a4 ^^^ t0
  let a5 := a5 ^^^ t1
  let a6 := a6 ^^^ t2
  let a7 := a7 ^^^ t3
  let a3 := a3 - 32
  match aes_ecb_decrypt_loop fuel rk a4 a5 a6 a7 a2 a3 with
  | none => none
  | some (a4, a5, a6, a7) =>
    let pt := sw pt (a0 + 0) a4
    let pt := sw pt (a0 + 4) a5
    let pt := sw pt (a0 + 8) a6
    let pt := sw pt (a0 + 12) a7
    some pt

/-- Function aes_encrypt(ct, pt, rk, nr): ptr = rk + 4*nr words, that is 16*nr bytes. -/
def aes_encrypt (fuel : Nat) (ct : Mem) (pt : Mem) (rkmem : Mem) (rk : Int) (nr : Int) :
    Option Mem :=
  let ptr := rk
  let ptr := ptr + 4 * (4 * nr)
  aes_ecb_encrypt fuel ct 0 pt 0 rkmem rk ptr

/-- Function aes_decrypt(pt, ct, rk, nr). -/
def aes_decrypt (fuel : Nat) (pt : Mem) (ct : Mem) (rkmem : Mem) (rk : Int) (nr : Int) :
    Option Mem :=
  let ptr := rk
  let ptr := ptr + 4 * (4 * nr)
  aes_ecb_decrypt fuel pt 0 ct 0 rkmem rk ptr

/-! ## Decryption round keys (aeszkn.c lines 219-308 and 519-532) -/

/-- Function aes_dec_ks_inv, entered with a0 pointing into the inverse schedule, a2 into the
forward schedule and a3 at the end of the words to transform. Loop .des_inv_ks_loop followed
by the copy of the last round key. Returns both buffers: the loop also stores into the
forward schedule. -/
def aes_dec_ks_inv : Nat → Mem → Mem → Int → Int → Int → Option (Mem × Mem)
  | 0, _, _, _, _, _ => none
  | fuel + 1, inv, fwd, a0, a2, a3 =>
    let t0 := lw fwd (a2 + 0)
    let t1 := 0
    let t1 := aes32esi t1 t0 0
    let t1 := aes32esi t1 t0 1
    let t1 := aes32esi t1 t0 2
    let t1 := aes32esi t1 t0 3
    let t0 := 0
    let t0 := aes32dsmi t0 t1 0
    let t0 := aes32dsmi t0 t1 1
    let t0 := aes32dsmi t0 t1 2
    let t0 := aes32dsmi t0 t1 3
    let inv := sw inv (a0 + 0) t0
    let a0 := a0 + 4
    let fwd := sw fwd (a2 + 0) t0
    let a2 := a2 + 4
    if a2 ≠ a3 then aes_dec_ks_inv fuel inv fwd a0 a2 a3
    else
      let t0 := lw fwd (a2 + 0)
      let inv := sw inv (a0 + 0) t0
      let t0 := lw fwd (a2 + 4)
      let inv := sw inv (a0 + 4) t0
      let t0 := lw fwd (a2 + 8)
      let inv := sw inv (a0 + 8) t0
      let t0 := lw fwd (a2 + 12)
      let inv := sw inv (a0 + 12) t0
      some (inv, fwd)

/-- Function aes_128_dec_ks(rk, ck): a0 = rk (inverse schedule), a1 = ck (forward schedule). -/
def aes_128_dec_ks (fuel : Nat) (inv : Mem) (a0 : Int) (fwd : Mem) (a1 : Int) :
    Option (Mem × Mem) :=
  let a2 := a1 + 16
  let a3 := a1 + 160
  let a0 := a0 + 16
  aes_dec_ks_inv fuel inv fwd a0 a2 a3

/-- Function aes_192_dec_ks(rk, ck). -/
def aes_192_dec_ks (fuel : Nat) (inv : Mem) (a0 : Int) (fwd : Mem) (a1 : Int) :
    Option (Mem × Mem) :=
  let a2 := a1 + 16
  let a3 := a1 + 48 * 4
  let a0 := a0 + 16
  aes_dec_ks_inv fuel inv fwd a0 a2 a3

/-- Function aes_256_dec_ks(rk, ck). -/
def aes_256_dec_ks (fuel : Nat) (inv : Mem) (a0 : Int) (fwd : Mem) (a1 : Int) :
    Option (Mem × Mem) :=
  let a2 := a1 + 16
  let a3 := a1 + 56 * 4
  let a0 := a0 + 16
  aes_dec_ks_inv fuel inv fwd a0 a2 a3

/-- Library call memcpy(dst, src, n) between two distinct buffers, from their starts. -/
def memcpy (dst src : Mem) (n : Nat) : Mem := fun j =>
  if 0 ≤ j ∧ j < (n : Int) then lbu src j else dst j

/-- Function mbedtls_aeszkn_inverse_key(invkey, fwdkey, bits), for invkey and fwdkey two
disjoint buffers: returns the content of invkey and of fwdkey on return. -/
def mbedtls_aeszkn_inverse_key (fuel : Nat) (invkey : Mem) (fwdkey : Mem) (bits : Nat) :
    Option (Mem × Mem) :=
  let invkey := memcpy invkey fwdkey 16
  if bits = 128 then aes_128_dec_ks fuel invkey 0 fwdkey 0
  else if bits = 192 then aes_192_dec_ks fuel invkey 0 fwdkey 0
  else if bits = 256 then aes_256_dec_ks fuel invkey 0 fwdkey 0
  else some (invkey, fwdkey)

/-- Function mbedtls_aeszkn_crypt_ecb(ctx, mode, input, output): returns the status and the
content of the output buffer; keys = ctx->buf + ctx->rk_offset (a pointer to 32-bit words). -/
def mbedtls_aeszkn_crypt_ecb (fuel : Nat) (ctx : mbedtls_aes_context) (mode : Int)
    (input : Mem) (output : Mem) : Option (Int × Mem) :=
  let keys : Int := 4 * (ctx.rk_offset : Int)
  if mode = MBEDTLS_AES_DECRYPT then
    (aes_decrypt fuel output input ctx.buf keys ctx.nr).map (fun m => (0, m))
  else
    (aes_encrypt fuel output input ctx.buf keys ctx.nr).map (fun m => (0, m))

/-- Function mbedtls_aeszkn_crypt_ecb with the context buffer, the input block and the output
block all inside one address space M: buf, input and output are byte addresses, rk_offset and
nr are the values of the context fields. The callees load the block and every round key before
their four stores, so each load sees M. -/
def mbedtls_aeszkn_crypt_ecb_shared (fuel : Nat) (M : Mem) (buf : Int) (rk_offset : Nat)
    (nr : Int) (mode : Int) (input output : Int) : Option (Int × Mem) :=
  let keys : Int := buf + 4 * (rk_offset : Int)
  if mode = MBEDTLS_AES_DECRYPT then
    (aes_ecb_decrypt fuel M output M input M keys (keys + 4 * (4 * nr))).map (fun m => (0, m))
  else
    (aes_ecb_encrypt fuel M output M input M keys (keys + 4 * (4 * nr))).map (fun m => (0, m))

/-! ## Buffers with given content, and the round-constant table -/

/-- Buffer whose byte at offset i is the i-th element of the list (zero elsewhere). -/
def memOfBytes (l : List Nat) : Mem := fun j =>
  if 0 ≤ j then l.getD j.toNat 0 else 0

/-- Buffer of 32-bit little-endian words with the given values (zero elsewhere). -/
def memOfWords (l : List Nat) : Mem := fun j =>
  if 0 ≤ j then l.getD (j.toNat / 4) 0 / 2 ^ (8 * (j.toNat % 4)) % 256 else 0

/-- The first n bytes of a buffer. -/
def bytesOf (m : Mem) (n : Nat) : List Nat := (List.range n).map (fun (i : Nat) => lbu m (i : Int))

/-- Modelled from the spec: the fixed round-constant table handed to the expander as rc, ten
32-bit words holding the standard AES values, doubling in GF(2^8) from 0x01 (the table
itself lives in the caller, outside the driver files). -/
def round_constants : Mem :=
  memOfWords [0x01, 0x02, 0x04, 0x08, 0x10, 0x20, 0x40, 0x80, 0x1b, 0x36]

/-! ## Byte-level reference (FIPS-197), written from the words of the specification

A block or round key is a list of 16 bytes in memory order; byte r + 4*c is row r of
column c of the FIPS-197 state. A schedule word is a list of 4 bytes in memory order. -/

/-- Bytes 4*i .. 4*i+3 of a buffer: the i-th 32-bit word, in memory order. -/
def wordAt (m : Mem) (i : Nat) : List Nat :=
  [lbu m (4 * (i : Int)), lbu m (4 * (i : Int) + 1), lbu m (4 * (i : Int) + 2),
   lbu m (4 * (i : Int) + 3)]

/-- Entry r of a schedule that starts at byte offset base: sixteen bytes, words 4r..4r+3. -/
def roundKey (m : Mem) (base : Int) (r : Nat) : List Nat :=
  (List.range 16).map (fun (i : Nat) => lbu m (base + 16 * (r : Int) + (i : Int)))

/-- Bytewise exclusive or of two byte strings. -/
def xorBytes (a b : List Nat) : List Nat := List.zipWith (fun x y => x ^^^ y) a b

/-- Reference RotWord: cyclic rotation of the four bytes, [a0,a1,a2,a3] to [a1,a2,a3,a0]. -/
def RotWord (w : List Nat) : List Nat := w.drop 1 ++ w.take 1

/-- Reference SubWord: the S-box applied to each byte. -/
def SubWord (w : List Nat) : List Nat := w.map aes_sbox_fwd

/-- Reference Rcon[j], j = 1..10: the word [x^(j-1), 0, 0, 0] with the standard values. -/
def Rcon (j : Nat) : List Nat :=
  [[0x01, 0x02, 0x04, 0x08, 0x10, 0x20, 0x40, 0x80, 0x1b, 0x36].getD (j - 1) 0, 0, 0, 0]

/-- Reference xtime of FIPS-197: multiplication by x in GF(2^8), a left shift of the byte
followed by an exclusive or with 0x1b when bit 7 was set. -/
def xtime (b : Nat) : Nat := (2 * b % 256) ^^^ (if b / 128 % 2 = 1 then 0x1b else 0)

/-- Reference GF(2^8) product of a constant c (below 16) and a byte b, by shift-and-add. -/
def gf_mul (c b : Nat) : Nat :=
  (if c % 2 = 1 then b else 0) ^^^
  (if c / 2 % 2 = 1 then xtime b else 0) ^^^
  (if c / 4 % 2 = 1 then xtime (xtime b) else 0) ^^^
  (if c / 8 % 2 = 1 then xtime (xtime (xtime b)) else 0)

/-- Reference AddRoundKey. -/
def AddRoundKey (s k : List Nat) : List Nat := xorBytes s k

/-- Reference SubBytes. -/
def SubBytes (s : List Nat) : List Nat := s.map aes_sbox_fwd

/-- Reference InvSubBytes. -/
def InvSubBytes (s : List Nat) : List Nat := s.map aes_sbox_inv

/-- Reference ShiftRows: row r is rotated left by r columns. -/
def ShiftRows (s : List Nat) : List Nat :=
  (List.range 16).map (fun i => s.getD ((i + 4 * (i % 4)) % 16) 0)

/-- Reference InvShiftRows: row r is rotated right by r columns. -/
def InvShiftRows (s : List Nat) : List Nat :=
  (List.range 16).map (fun i => s.getD ((i + 12 * (i % 4)) % 16) 0)

/-- Reference MixColumns: each column is multiplied by the matrix circ(02, 03, 01, 01). -/
def MixColumns (s : List Nat) : List Nat :=
  (List.range 16).map (fun i =>
    let c := 4 * (i / 4)
    let r := i % 4
    gf_mul 2 (s.getD (c + r) 0) ^^^ gf_mul 3 (s.getD (c + (r + 1) % 4) 0) ^^^
      s.getD (c + (r + 2) % 4) 0 ^^^ s.getD (c + (r + 3) % 4) 0)

/-- Reference InvMixColumns: each column is multiplied by circ(0e, 0b, 0d, 09). -/
def InvMixColumns (s : List Nat) : List Nat :=
  (List.range 16).map (fun i =>
    let c := 4 * (i / 4)
    let r := i % 4
    gf_mul 0x0e (s.getD (c + r) 0) ^^^ gf_mul 0x0b (s.getD (c + (r + 1) % 4) 0) ^^^
      gf_mul 0x0d (s.getD (c + (r + 2) % 4) 0) ^^^ gf_mul 0x09 (s.getD (c + (r + 3) % 4) 0))

/-- Reference rounds 1..n of the cipher over the round keys w. -/
def cipherRounds (w : Nat → List Nat) : Nat → List Nat → List Nat
  | 0, s => s
  | n + 1, s => AddRoundKey (MixColumns (ShiftRows (SubBytes (cipherRounds w n s)))) (w (n + 1))

/-- Reference cipher: AddRoundKey with key 0, rounds 1..nr-1, and a final round without
MixColumns under key nr. -/
def Cipher (nr : Nat) (w : Nat → List Nat) (inp : List Nat) : List Nat :=
  AddRoundKey (ShiftRows (SubBytes (cipherRounds w (nr - 1) (AddRoundKey inp (w 0))))) (w nr)

/-- Reference rounds j = 1..n of the equivalent inverse cipher, round j under entry nr-j. -/
def eqInvRounds (nr : Nat) (dw : Nat → List Nat) : Nat → List Nat → List Nat
  | 0, s => s
  | j + 1, s =>
    AddRoundKey (InvMixColumns (InvShiftRows (InvSubBytes (eqInvRounds nr dw j s))))
      (dw (nr - (j + 1)))

/-- Reference equivalent inverse cipher with reversed key consumption: AddRoundKey with
entry nr, rounds 1..nr-1, and a final round without the mix step under entry 0. -/
def EqInvCipher (nr : Nat) (dw : Nat → List Nat) (inp : List Nat) : List Nat :=
  AddRoundKey (InvShiftRows (InvSubBytes (eqInvRounds nr dw (nr - 1) (AddRoundKey inp (dw nr)))))
    (dw 0)

/-- Byte j of a register value (byte 0 is the least significant). -/
def byteOf (j w : Nat) : Nat := w / 2 ^ (8 * j) % 256

/-- The four bytes of a 32-bit register value in little-endian (memory) order. -/
def wordBytes (w : Nat) : List Nat := [byteOf 0 w, byteOf 1 w, byteOf 2 w, byteOf 3 w]

/-- The sixteen bytes of four 32-bit registers holding the state columns. -/
def stateOf (a b c d : Nat) : List Nat := wordBytes a ++ wordBytes b ++ wordBytes c ++ wordBytes d

/-- The state held by the four result registers of a block loop. -/
def regState (r : Nat × Nat × Nat × Nat) : List Nat := stateOf r.1 r.2.1 r.2.2.1 r.2.2.2

/-- Byte r of the InvMixColumns image of the four-byte column stored at p. -/
def invMixByte (m : Mem) (p : Int) (r : Nat) : Nat :=
  gf_mul 0x0e (lbu m (p + (r : Int))) ^^^ gf_mul 0x0b (lbu m (p + ((r + 1) % 4 : Nat))) ^^^
    gf_mul 0x0d (lbu m (p + ((r + 2) % 4 : Nat))) ^^^ gf_mul 0x09 (lbu m (p + ((r + 3) % 4 : Nat)))

/-- The register t0 at the store of one .des_inv_ks_loop iteration, from the word loaded. -/
def invKeyWord (t0 : Nat) : Nat :=
  let t1 := 0
  let t1 := aes32esi t1 t0 0
  let t1 := aes32esi t1 t0 1
  let t1 := aes32esi t1 t0 2
  let t1 := aes32esi t1 t0 3
  let t0 := 0
  let t0 := aes32dsmi t0 t1 0
  let t0 := aes32dsmi t0 t1 1
  let t0 := aes32dsmi t0 t1 2
  let t0 := aes32dsmi t0 t1 3
  t0

/-- Four consecutive bytes of a buffer, from byte offset p. -/
def bytes4 (m : Mem) (p : Int) : List Nat := [lbu m p, lbu m (p + 1), lbu m (p + 2), lbu m (p + 3)]

/-- Registers a2..a5 after one pass of the body of .aes_128_enc_ks_l0, given the
round-constant byte t2 loaded in that pass. -/
def ks128_step (t2 : Nat) (r : Nat × Nat × Nat × Nat) : Nat × Nat × Nat × Nat :=
  let a2 := r.1
  let a3 := r.2.1
  let a4 := r.2.2.1
  let a5 := r.2.2.2
  let a2 := a2 ^^^ t2
  let t4 := srli a5 8
  let t3 := slli a5 (32 - 8)
  let t3 := t3 ||| t4
  let a2 := aes32esi a2 t3 0
  let a2 := aes32esi a2 t3 1
  let a2 := aes32esi a2 t3 2
  let a2 := aes32esi a2 t3 3
  let a3 := a3 ^^^ a2
  let a4 := a4 ^^^ a3
  let a5 := a5 ^^^ a4
  (a2, a3, a4, a5)

/-- Registers a2..a5 after k passes of .aes_128_enc_ks_l0 started with round-constant
pointer t1. -/
def ks128_regs (rc : Mem) : Int → Nat × Nat × Nat × Nat → Nat → Nat × Nat × Nat × Nat
  | _, r, 0 => r
  | t1, r, k + 1 => ks128_regs rc (t1 + 4) (ks128_step (lbu rc (t1 + 0)) r) k

/-- Reference temp word of the FIPS-197 KeyExpansion at word index i, from the previous
word: SubWord(RotWord(prev)) xor Rcon[i/Nk] when i mod Nk = 0, SubWord(prev) when Nk = 8 and
i mod Nk = 4, and prev otherwise. -/
def keyExpTemp (Nk i : Nat) (prev : List Nat) : List Nat :=
  if i % Nk = 0 then xorBytes (SubWord (RotWord prev)) (Rcon (i / Nk))
  else if Nk = 8 ∧ i % Nk = 4 then SubWord prev
  else prev

/-- The standard round-constant values, as the table rc must hold them. -/
def rconValues : List Nat := [0x01, 0x02, 0x04, 0x08, 0x10, 0x20, 0x40, 0x80, 0x1b, 0x36]

/-- A round-constant table holding the standard values in its ten 32-bit words. -/
def IsStdRc (rc : Mem) : Prop := ∀ k : Nat, k < 10 → lw rc (4 * (k : Int)) = rconValues.getD k 0

/-- Registers a2, a3, a4, a5, a7, t5 after one pass of the body of .aes_192_enc_ks_l0, given
the round-constant byte t4 loaded in that pass. -/
def ks192_step (t4 : Nat) (r : Nat × Nat × Nat × Nat × Nat × Nat) :
    Nat × Nat × Nat × Nat × Nat × Nat :=
  let a2 := r.1
  let a3 := r.2.1
  let a4 := r.2.2.1
  let a5 := r.2.2.2.1
  let a7 := r.2.2.2.2.1
  let t5 := r.2.2.2.2.2
  let a2 := a2 ^^^ t4
  let t4 := srli t5 8
  let t3 := slli t5 (32 - 8)
  let t3 := t3 ||| t4
  let a2 := aes32esi a2 t3 0
  let a2 := aes32esi a2 t3 1
  let a2 := aes32esi a2 t3 2
  let a2 := aes32esi a2 t3 3
  let a3 := a3 ^^^ a2
  let a4 := a4 ^^^ a3
  let a5 := a5 ^^^ a4
  let a7 := a7 ^^^ a5
  let t5 := t5 ^^^ a7
  (a2, a3, a4, a5, a7, t5)

/-- Registers a2, a3, a4, a5, a7, t5 after k passes of .aes_192_enc_ks_l0 started with
round-constant pointer t1. -/
def ks192_regs (rc : Mem) :
    Int → Nat × Nat × Nat × Nat × Nat × Nat → Nat → Nat × Nat × Nat × Nat × Nat × Nat
  | _, r, 0 => r
  | t1, r, k + 1 => ks192_regs rc (t1 + 4) (ks192_step (lbu rc (t1 + 0)) r) k

/-- Registers a2..a5 after the first half of a pass of .aes_256_enc_ks_l0 (up to the branch),
given the round-constant byte t4 and the register t2. -/
def ks256_stepA (t4 : Nat) (r : Nat × Nat × Nat × Nat) (t2 : Nat) : Nat × Nat × Nat × Nat :=
  let a2 := r.1
  let a3 := r.2.1
  let a4 := r.2.2.1
  let a5 := r.2.2.2
  let a2 := a2 ^^^ t4
  let t4 := srli t2 8
  let t3 := slli t2 (32 - 8)
  let t3 := t3 ||| t4
  let a2 := aes32esi a2 t3 0
  let a2 := aes32esi a2 t3 1
  let a2 := aes32esi a2 t3 2
  let a2 := aes32esi a2 t3 3
  let a3 := a3 ^^^ a2
  let a4 := a4 ^^^ a3
  let a5 := a5 ^^^ a4
  (a2, a3, a4, a5)

/-- Registers a7, t5, t6, t2 after the second half of a pass of .aes_256_enc_ks_l0 (after the
branch), given the register a5. -/
def ks256_stepB (a5 : Nat) (r : Nat × Nat × Nat × Nat) : Nat × Nat × Nat × Nat :=
  let a7 := r.1
  let t5 := r.2.1
  let t6 := r.2.2.1
  let t2 := r.2.2.2
  let a7 := aes32esi a7 a5 0
  let a7 := aes32esi a7 a5 1
  let a7 := aes32esi a7 a5 2
  let a7 := aes32esi a7 a5 3
  let t5 := t5 ^^^ a7
  let t6 := t6 ^^^ t5
  let t2 := t2 ^^^ t6
  (a7, t5, t6, t2)

/-- Registers (a2..a5) and (a7, t5, t6, t2) after k full passes of .aes_256_enc_ks_l0 started
with round-constant pointer t1. -/
def ks256_regs (rc : Mem) :
    Int → (Nat × Nat × Nat × Nat) × (Nat × Nat × Nat × Nat) → Nat →
      (Nat × Nat × Nat × Nat) × (Nat × Nat × Nat × Nat)
  | _, r, 0 => r
  | t1, r, k + 1 =>
    ks256_regs rc (t1 + 4)
      (ks256_stepA (lbu rc (t1 + 0)) r.1 r.2.2.2.2,
       ks256_stepB (ks256_stepA (lbu rc (t1 + 0)) r.1 r.2.2.2.2).2.2.2 r.2) k

/-- A buffer holding zero everywhere. -/
def zeroMem : Mem := fun _ => 0

/-- The three supported key sizes with their numbers of rounds. -/
def KeySize (bits nr : Nat) : Prop :=
  (bits = 128 ∧ nr = 10) ∨ (bits = 192 ∧ nr = 12) ∨ (bits = 256 ∧ nr = 14)

/-- FIPS-197 Appendix C example key, first 16 bytes 00 01 .. 0f. -/
def kat_key128 : Mem := memOfBytes
  [0x00, 0x01, 0x02, 0x03, 0x04, 0x05, 0x06, 0x07, 0x08, 0x09, 0x0a, 0x0b, 0x0c, 0x0d, 0x0e, 0x0f]

/-- FIPS-197 Appendix C.2 example key, 24 bytes 00 01 .. 17. -/
def kat_key192 : Mem := memOfBytes
  [0x00, 0x01, 0x02, 0x03, 0x04, 0x05, 0x06, 0x07, 0x08, 0x09, 0x0a, 0x0b, 0x0c, 0x0d, 0x0e, 0x0f,
   0x10, 0x11, 0x12, 0x13, 0x14, 0x15, 0x16, 0x17]

/-- FIPS-197 Appendix C.3 example key, 32 bytes 00 01 .. 1f. -/
def kat_key256 : Mem := memOfBytes
  [0x00, 0x01, 0x02, 0x03, 0x04, 0x05, 0x06, 0x07, 0x08, 0x09, 0x0a, 0x0b, 0x0c, 0x0d, 0x0e, 0x0f,
   0x10, 0x11, 0x12, 0x13, 0x14, 0x15, 0x16, 0x17, 0x18, 0x19, 0x1a, 0x1b, 0x1c, 0x1d, 0x1e, 0x1f]

/-- FIPS-197 Appendix C example plaintext 00 11 22 .. ff. -/
def kat_plaintext : Mem := memOfBytes
  [0x00, 0x11, 0x22, 0x33, 0x44, 0x55, 0x66, 0x77, 0x88, 0x99, 0xaa, 0xbb, 0xcc, 0xdd, 0xee, 0xff]

/-! ## Capability detection (aeszkn.c lines 45-56) -/

/-- Macro RISCV_ISA_K: the bit of the K extension in the capability word. -/
def RISCV_ISA_K : Nat := 0x00000400

/-- Function mbedtls_aeszkn_has_support. Its only input is the capability word that the
platform delivers into the local variable support: getauxval(AT_HWCAP) on Linux, the misa
CSR elsewhere. -/
def mbedtls_aeszkn_has_support (support : Nat) : Int :=
  if support &&& RISCV_ISA_K ≠ 0 then 1 else 0

/-! ## Load addresses

The addresses that the load instructions of a loop are given, in program order. They are
decided by the pointer registers of the loop alone, so each list below follows the control
flow of its loop and keeps only the pointer arithmetic. -/

/-- Addresses given to lbu (the round-constant load) by the passes of .aes_128_enc_ks_l0. -/
def aes_128_enc_ks_l0_rc_reads : Nat → Int → Int → Int → List Int
  | 0, _, _, _ => []
  | fuel + 1, a6, t0, t1 =>
    if t0 = a6 then []
    else
      let a6 := a6 + 16
      let rd := t1 + 0
      let t1 := t1 + 4
      rd :: aes_128_enc_ks_l0_rc_reads fuel a6 t0 t1

/-- Addresses given to lbu (the round-constant load) by the passes of .aes_192_enc_ks_l0. -/
def aes_192_enc_ks_l0_rc_reads : Nat → Int → Int → Int → List Int
  | 0, _, _, _ => []
  | fuel + 1, a6, t0, t1 =>
    if t0 = a6 then []
    else
      let a6 := a6 + 24
      let rd := t1 + 0
      let t1 := t1 + 4
      rd :: aes_192_enc_ks_l0_rc_reads fuel a6 t0 t1

/-- Addresses given to lbu (the round-constant load) by the passes of .aes_256_enc_ks_l0;
here the load comes before the exit test. -/
def aes_256_enc_ks_l0_rc_reads : Nat → Int → Int → Int → List Int
  | 0, _, _, _ => []
  | fuel + 1, a6, t0, t1 =>
    let a6 := a6 + 32
    let rd := t1 + 0
    let t1 := t1 + 4
    rd :: (if t0 = a6 then [] else aes_256_enc_ks_l0_rc_reads fuel a6 t0 t1)

/-- Addresses at which mbedtls_aeszkn_setkey_enc reads the table rc, in program order. -/
def mbedtls_aeszkn_setkey_enc_rc_reads (fuel : Nat) (bits : Nat) : List Int :=
  if bits = 128 then aes_128_enc_ks_l0_rc_reads fuel 0 (0 + 160) 0
  else if bits = 192 then aes_192_enc_ks_l0_rc_reads fuel 0 (0 + 48 * 4) 0
  else if bits = 256 then aes_256_enc_ks_l0_rc_reads fuel 0 (0 + 56 * 4) 0
  else []

/-- Addresses given to lw on the schedule by the passes of .aes_enc. -/
def aes_ecb_encrypt_loop_reads : Nat → Int → Int → List Int
  | 0, _, _ => []
  | fuel + 1, a2, a3 =>
    [a2 + 16, a2 + 20, a2 + 24, a2 + 28, a2 + 32, a2 + 36, a2 + 40, a2 + 44] ++
      (if a2 + 32 = a3 then [] else aes_ecb_encrypt_loop_reads fuel (a2 + 32) a3)

/-- Addresses at which aes_ecb_encrypt reads the schedule (a2 = rk, a3 = ptr). -/
def aes_ecb_encrypt_reads (fuel : Nat) (a2 a3 : Int) : List Int :=
  [a2 + 0, a2 + 4, a2 + 8, a2 + 12] ++ aes_ecb_encrypt_loop_reads fuel a2 a3

/-- Addresses given to lw on the schedule by the passes of .aes_dec. -/
def aes_ecb_decrypt_loop_reads : Nat → Int → Int → List Int
  | 0, _, _ => []
  | fuel + 1, a2, a3 =>
    [a3 + 16, a3 + 20, a3 + 24, a3 + 28, a3 + 0, a3 + 4, a3 + 8, a3 + 12] ++
      (if a2 = a3 then [] else aes_ecb_decrypt_loop_reads fuel a2 (a3 - 32))

/-- Addresses at which aes_ecb_decrypt reads the schedule (a2 = rk, a3 = ptr). -/
def aes_ecb_decrypt_reads (fuel : Nat) (a2 a3 : Int) : List Int :=
  [a3 + 0, a3 + 4, a3 + 8, a3 + 12] ++ aes_ecb_decrypt_loop_reads fuel a2 (a3 - 32)

/-- The forward schedule that the expander writes for kat_key128 into a zeroed buffer. -/
def kat_schedule128 : Mem :=
  match mbedtls_aeszkn_setkey_enc 11 zeroMem kat_key128 round_constants 128 with
  | some r => r.2
  | none => zeroMem

/-- A block: sixteen values, each a byte. -/
def IsBlock (s : List Nat) : Prop := s.length = 16 ∧ ∀ b ∈ s, b < 256


/-! ## Bit-level facts about bytes of 32-bit values -/

theorem xor_div_two_pow (a b k : Nat) : (a ^^^ b) / 2 ^ k = a / 2 ^ k ^^^ b / 2 ^ k := by
  apply Nat.eq_of_testBit_eq
  intro i
  simp only [← Nat.shiftRight_eq_div_pow, Nat.testBit_shiftRight, Nat.testBit_xor]

theorem xor_mod_two_pow (a b k : Nat) : (a ^^^ b) % 2 ^ k = a % 2 ^ k ^^^ b % 2 ^ k := by
  apply Nat.eq_of_testBit_eq
  intro i
  simp only [Nat.testBit_mod_two_pow, Nat.testBit_xor]
  by_cases h : i < k <;> simp [h]

theorem byteOf_xor (j a b : Nat) : byteOf j (a ^^^ b) = byteOf j a ^^^ byteOf j b := by
  unfold byteOf
  rw [xor_div_two_pow]
  exact xor_mod_two_pow _ _ 8

theorem byteOf_lt (j w : Nat) : byteOf j w < 256 := by
  unfold byteOf; omega

theorem xor_lt_256 {a b : Nat} (ha : a < 256) (hb : b < 256) : a ^^^ b < 256 :=
  @Nat.xor_lt_two_pow a b 8 ha hb

theorem xor_lt_32 {a b : Nat} (ha : a < 2 ^ 32) (hb : b < 2 ^ 32) : a ^^^ b < 2 ^ 32 :=
  Nat.xor_lt_two_pow ha hb

set_option maxRecDepth 100000 in
theorem aes_sbox_fwd_lt (x : Nat) : aes_sbox_fwd x < 256 := by
  by_cases h : x < 256
  · revert x; decide!
  · unfold aes_sbox_fwd
    rw [List.getD_eq_default]
    · decide
    · simp [sbox_fwd_table]; omega

set_option maxRecDepth 100000 in
theorem aes_sbox_inv_lt (x : Nat) : aes_sbox_inv x < 256 := by
  by_cases h : x < 256
  · revert x; decide!
  · unfold aes_sbox_inv
    rw [List.getD_eq_default]
    · decide
    · simp [sbox_inv_table]; omega

set_option maxRecDepth 100000 in
theorem aes_sbox_inv_fwd : ∀ x < 256, aes_sbox_inv (aes_sbox_fwd x) = x := by decide!

set_option maxRecDepth 100000 in
theorem aes_sbox_fwd_inv : ∀ x < 256, aes_sbox_fwd (aes_sbox_inv x) = x := by decide!

theorem xt2_lt (x : Nat) : xt2 x < 256 := by unfold xt2; omega

theorem gfmul_lt {x : Nat} (hx : x < 256) (y : Nat) : gfmul x y < 256 := by
  unfold gfmul
  have h1 := xt2_lt x
  have h2 := xt2_lt (xt2 x)
  have h3 := xt2_lt (xt2 (xt2 x))
  refine xor_lt_256 (xor_lt_256 (xor_lt_256 ?_ ?_) ?_) ?_ <;> split <;> omega

set_option maxRecDepth 100000 in
theorem gfmul_eq_gf_mul : ∀ x < 256, ∀ c < 16, gfmul x c = gf_mul c x := by decide!

theorem rol32_eq_add (x : Nat) (n : Nat) (hx : x < 2 ^ 32) (hn : n ≤ 32) :
    rol32 x n = (2 ^ n * x + x / 2 ^ (32 - n)) % 2 ^ 32 := by
  unfold rol32
  rw [Nat.shiftLeft_eq, Nat.shiftRight_eq_div_pow, Nat.mul_comm x]
  congr 1
  symm
  apply Nat.mul_add_lt_is_or
  rw [Nat.div_lt_iff_lt_mul (Nat.pos_pow_of_pos _ (by decide))]
  calc x < 2 ^ 32 := hx
    _ = 2 ^ (n + (32 - n)) := by congr 1; omega
    _ = 2 ^ n * 2 ^ (32 - n) := by rw [Nat.pow_add]

theorem word_eq_pack (x : Nat) (hx : x < 2 ^ 32) :
    x = byteOf 0 x + 2 ^ 8 * byteOf 1 x + 2 ^ 16 * byteOf 2 x + 2 ^ 24 * byteOf 3 x := by
  unfold byteOf; omega

theorem byteOf_pack (b0 b1 b2 b3 : Nat) (h0 : b0 < 256) (h1 : b1 < 256) (h2 : b2 < 256)
    (h3 : b3 < 256) :
    byteOf 0 (b0 + 2 ^ 8 * b1 + 2 ^ 16 * b2 + 2 ^ 24 * b3) = b0 ∧
    byteOf 1 (b0 + 2 ^ 8 * b1 + 2 ^ 16 * b2 + 2 ^ 24 * b3) = b1 ∧
    byteOf 2 (b0 + 2 ^ 8 * b1 + 2 ^ 16 * b2 + 2 ^ 24 * b3) = b2 ∧
    byteOf 3 (b0 + 2 ^ 8 * b1 + 2 ^ 16 * b2 + 2 ^ 24 * b3) = b3 := by
  unfold byteOf; refine ⟨?_, ?_, ?_, ?_⟩ <;> omega

theorem rol32_pack (b0 b1 b2 b3 : Nat) (h0 : b0 < 256) (h1 : b1 < 256) (h2 : b2 < 256)
    (h3 : b3 < 256) :
    rol32 (b0 + 2 ^ 8 * b1 + 2 ^ 16 * b2 + 2 ^ 24 * b3) 0
      = b0 + 2 ^ 8 * b1 + 2 ^ 16 * b2 + 2 ^ 24 * b3 ∧
    rol32 (b0 + 2 ^ 8 * b1 + 2 ^ 16 * b2 + 2 ^ 24 * b3) 8
      = b3 + 2 ^ 8 * b0 + 2 ^ 16 * b1 + 2 ^ 24 * b2 ∧
    rol32 (b0 + 2 ^ 8 * b1 + 2 ^ 16 * b2 + 2 ^ 24 * b3) 16
      = b2 + 2 ^ 8 * b3 + 2 ^ 16 * b0 + 2 ^ 24 * b1 ∧
    rol32 (b0 + 2 ^ 8 * b1 + 2 ^ 16 * b2 + 2 ^ 24 * b3) 24
      = b1 + 2 ^ 8 * b2 + 2 ^ 16 * b3 + 2 ^ 24 * b0 := by
  have hx : b0 + 2 ^ 8 * b1 + 2 ^ 16 * b2 + 2 ^ 24 * b3 < 2 ^ 32 := by omega
  refine ⟨?_, ?_, ?_, ?_⟩
  · rw [rol32_eq_add _ _ hx (by omega)]
    have e : (b0 + 2 ^ 8 * b1 + 2 ^ 16 * b2 + 2 ^ 24 * b3) / 2 ^ (32 - 0) = 0 := by omega
    rw [e]; omega
  · rw [rol32_eq_add _ _ hx (by omega)]
    have e : (b0 + 2 ^ 8 * b1 + 2 ^ 16 * b2 + 2 ^ 24 * b3) / 2 ^ (32 - 8) = b3 := by omega
    rw [e]
    have e2 : 2 ^ 8 * (b0 + 2 ^ 8 * b1 + 2 ^ 16 * b2 + 2 ^ 24 * b3) + b3
        = (b3 + 2 ^ 8 * b0 + 2 ^ 16 * b1 + 2 ^ 24 * b2) + 2 ^ 32 * b3 := by ring
    rw [e2, Nat.add_mul_mod_self_left, Nat.mod_eq_of_lt (by omega)]
  · rw [rol32_eq_add _ _ hx (by omega)]
    have e : (b0 + 2 ^ 8 * b1 + 2 ^ 16 * b2 + 2 ^ 24 * b3) / 2 ^ (32 - 16)
        = b2 + 2 ^ 8 * b3 := by omega
    rw [e]
    have e2 : 2 ^ 16 * (b0 + 2 ^ 8 * b1 + 2 ^ 16 * b2 + 2 ^ 24 * b3) + (b2 + 2 ^ 8 * b3)
        = (b2 + 2 ^ 8 * b3 + 2 ^ 16 * b0 + 2 ^ 24 * b1) + 2 ^ 32 * (b2 + 2 ^ 8 * b3) := by ring
    rw [e2, Nat.add_mul_mod_self_left, Nat.mod_eq_of_lt (by omega)]
  · rw [rol32_eq_add _ _ hx (by omega)]
    have e : (b0 + 2 ^ 8 * b1 + 2 ^ 16 * b2 + 2 ^ 24 * b3) / 2 ^ (32 - 24)
        = b1 + 2 ^ 8 * b2 + 2 ^ 16 * b3 := by omega
    rw [e]
    have e2 : 2 ^ 24 * (b0 + 2 ^ 8 * b1 + 2 ^ 16 * b2 + 2 ^ 24 * b3)
          + (b1 + 2 ^ 8 * b2 + 2 ^ 16 * b3)
        = (b1 + 2 ^ 8 * b2 + 2 ^ 16 * b3 + 2 ^ 24 * b0)
          + 2 ^ 32 * (b1 + 2 ^ 8 * b2 + 2 ^ 16 * b3) := by ring
    rw [e2, Nat.add_mul_mod_self_left, Nat.mod_eq_of_lt (by omega)]

theorem byteOf_rol32 (x bs j : Nat) (hx : x < 2 ^ 32) (hbs : bs < 4) (hj : j < 4) :
    byteOf j (rol32 x (8 * bs)) = byteOf ((j + 4 - bs) % 4) x := by
  have hp := word_eq_pack x hx
  have hb := byteOf_pack
  have hr := rol32_pack (byteOf 0 x) (byteOf 1 x) (byteOf 2 x) (byteOf 3 x)
    (byteOf_lt _ _) (byteOf_lt _ _) (byteOf_lt _ _) (byteOf_lt _ _)
  rw [← hp] at hr
  obtain ⟨r0, r1, r2, r3⟩ := hr
  interval_cases bs
  · rw [show 8 * 0 = 0 from rfl, r0]
    interval_cases j <;> rfl
  · rw [show 8 * 1 = 8 from rfl, r1]
    have := byteOf_pack (byteOf 3 x) (byteOf 0 x) (byteOf 1 x) (byteOf 2 x)
      (byteOf_lt _ _) (byteOf_lt _ _) (byteOf_lt _ _) (byteOf_lt _ _)
    interval_cases j <;>
      first | exact this.1 | exact this.2.1 | exact this.2.2.1 | exact this.2.2.2
  · rw [show 8 * 2 = 16 from rfl, r2]
    have := byteOf_pack (byteOf 2 x) (byteOf 3 x) (byteOf 0 x) (byteOf 1 x)
      (byteOf_lt _ _) (byteOf_lt _ _) (byteOf_lt _ _) (byteOf_lt _ _)
    interval_cases j <;>
      first | exact this.1 | exact this.2.1 | exact this.2.2.1 | exact this.2.2.2
  · rw [show 8 * 3 = 24 from rfl, r3]
    have := byteOf_pack (byteOf 1 x) (byteOf 2 x) (byteOf 3 x) (byteOf 0 x)
      (byteOf_lt _ _) (byteOf_lt _ _) (byteOf_lt _ _) (byteOf_lt _ _)
    interval_cases j <;>
      first | exact this.1 | exact this.2.1 | exact this.2.2.1 | exact this.2.2.2

/-! ## The scalar-crypto instructions, byte by byte -/

theorem shiftRight_byte (w bs : Nat) : (w >>> (8 * bs)) % 256 = byteOf bs w := by
  unfold byteOf; rw [Nat.shiftRight_eq_div_pow]

theorem byteOf_small (x j : Nat) (hx : x < 256) :
    byteOf j x = if j = 0 then x else 0 := by
  unfold byteOf
  by_cases h : j = 0
  · subst h; simp; omega
  · simp only [h, if_false]
    have : 2 ^ 8 ≤ 2 ^ (8 * j) := Nat.pow_le_pow_right (by decide) (by omega)
    have : x / 2 ^ (8 * j) = 0 := Nat.div_eq_of_lt (by omega)
    rw [this]

theorem aes_mixcolumn_byte_fwd_bytes (so : Nat) (hso : so < 256) :
    aes_mixcolumn_byte_fwd so < 2 ^ 32 ∧
    byteOf 0 (aes_mixcolumn_byte_fwd so) = gf_mul 2 so ∧
    byteOf 1 (aes_mixcolumn_byte_fwd so) = so ∧
    byteOf 2 (aes_mixcolumn_byte_fwd so) = so ∧
    byteOf 3 (aes_mixcolumn_byte_fwd so) = gf_mul 3 so := by
  have h2 := gfmul_lt hso 2
  have h3 := gfmul_lt hso 3
  rw [← gfmul_eq_gf_mul so hso 2 (by decide), ← gfmul_eq_gf_mul so hso 3 (by decide)]
  have e : aes_mixcolumn_byte_fwd so
      = gfmul so 2 + 2 ^ 8 * so + 2 ^ 16 * so + 2 ^ 24 * gfmul so 3 := by
    unfold aes_mixcolumn_byte_fwd; omega
  rw [e]
  exact ⟨by omega, byteOf_pack _ _ _ _ h2 hso hso h3⟩

theorem aes_mixcolumn_byte_inv_bytes (so : Nat) (hso : so < 256) :
    aes_mixcolumn_byte_inv so < 2 ^ 32 ∧
    byteOf 0 (aes_mixcolumn_byte_inv so) = gf_mul 0x0e so ∧
    byteOf 1 (aes_mixcolumn_byte_inv so) = gf_mul 0x09 so ∧
    byteOf 2 (aes_mixcolumn_byte_inv so) = gf_mul 0x0d so ∧
    byteOf 3 (aes_mixcolumn_byte_inv so) = gf_mul 0x0b so := by
  have h1 := gfmul_lt hso 0xe
  have h2 := gfmul_lt hso 0x9
  have h3 := gfmul_lt hso 0xd
  have h4 := gfmul_lt hso 0xb
  rw [← gfmul_eq_gf_mul so hso 0xe (by decide), ← gfmul_eq_gf_mul so hso 0x9 (by decide),
    ← gfmul_eq_gf_mul so hso 0xd (by decide), ← gfmul_eq_gf_mul so hso 0xb (by decide)]
  have e : aes_mixcolumn_byte_inv so
      = gfmul so 0xe + 2 ^ 8 * gfmul so 0x9 + 2 ^ 16 * gfmul so 0xd + 2 ^ 24 * gfmul so 0xb := by
    unfold aes_mixcolumn_byte_inv; omega
  rw [e]
  exact ⟨by omega, byteOf_pack _ _ _ _ h1 h2 h3 h4⟩

theorem byteOf_aes32esi (rs1 rs2 bs j : Nat) (hbs : bs < 4) (hj : j < 4) :
    byteOf j (aes32esi rs1 rs2 bs)
      = byteOf j rs1 ^^^ (if j = bs then aes_sbox_fwd (byteOf bs rs2) else 0) := by
  unfold aes32esi
  simp only [shiftRight_byte]
  have hs := aes_sbox_fwd_lt (byteOf bs rs2)
  rw [byteOf_xor, byteOf_rol32 _ _ _ (by omega) hbs hj, byteOf_small _ _ hs]
  congr 1
  interval_cases bs <;> interval_cases j <;> rfl

theorem byteOf_aes32dsi (rs1 rs2 bs j : Nat) (hbs : bs < 4) (hj : j < 4) :
    byteOf j (aes32dsi rs1 rs2 bs)
      = byteOf j rs1 ^^^ (if j = bs then aes_sbox_inv (byteOf bs rs2) else 0) := by
  unfold aes32dsi
  simp only [shiftRight_byte]
  have hs := aes_sbox_inv_lt (byteOf bs rs2)
  rw [byteOf_xor, byteOf_rol32 _ _ _ (by omega) hbs hj, byteOf_small _ _ hs]
  congr 1
  interval_cases bs <;> interval_cases j <;> rfl

theorem byteOf_aes32esmi (rs1 rs2 bs j : Nat) (hbs : bs < 4) (hj : j < 4) :
    byteOf j (aes32esmi rs1 rs2 bs)
      = byteOf j rs1 ^^^
        [gf_mul 2 (aes_sbox_fwd (byteOf bs rs2)), aes_sbox_fwd (byteOf bs rs2),
         aes_sbox_fwd (byteOf bs rs2), gf_mul 3 (aes_sbox_fwd (byteOf bs rs2))].getD
          ((j + 4 - bs) % 4) 0 := by
  unfold aes32esmi
  simp only [shiftRight_byte]
  have hs := aes_sbox_fwd_lt (byteOf bs rs2)
  obtain ⟨hlt, m0, m1, m2, m3⟩ := aes_mixcolumn_byte_fwd_bytes _ hs
  rw [byteOf_xor, byteOf_rol32 _ _ _ hlt hbs hj]
  congr 1
  interval_cases bs <;> interval_cases j <;>
    first | exact m0 | exact m1 | exact m2 | exact m3

theorem byteOf_aes32dsmi (rs1 rs2 bs j : Nat) (hbs : bs < 4) (hj : j < 4) :
    byteOf j (aes32dsmi rs1 rs2 bs)
      = byteOf j rs1 ^^^
        [gf_mul 0x0e (aes_sbox_inv (byteOf bs rs2)), gf_mul 0x09 (aes_sbox_inv (byteOf bs rs2)),
         gf_mul 0x0d (aes_sbox_inv (byteOf bs rs2)), gf_mul 0x0b (aes_sbox_inv (byteOf bs rs2))].getD
          ((j + 4 - bs) % 4) 0 := by
  unfold aes32dsmi
  simp only [shiftRight_byte]
  have hs := aes_sbox_inv_lt (byteOf bs rs2)
  obtain ⟨hlt, m0, m1, m2, m3⟩ := aes_mixcolumn_byte_inv_bytes _ hs
  rw [byteOf_xor, byteOf_rol32 _ _ _ hlt hbs hj]
  congr 1
  interval_cases bs <;> interval_cases j <;>
    first | exact m0 | exact m1 | exact m2 | exact m3

/-! ## One round on four registers is one reference round on sixteen bytes -/

theorem xor_left_comm (a b c : Nat) : a ^^^ (b ^^^ c) = b ^^^ (a ^^^ c) := by
  rw [← Nat.xor_assoc, Nat.xor_comm a b, Nat.xor_assoc]

theorem enc_round_state (a4 a5 a6 a7 k0 k1 k2 k3 : Nat) :
    stateOf
      (aes32esmi (aes32esmi (aes32esmi (aes32esmi k0 a4 0) a5 1) a6 2) a7 3)
      (aes32esmi (aes32esmi (aes32esmi (aes32esmi k1 a5 0) a6 1) a7 2) a4 3)
      (aes32esmi (aes32esmi (aes32esmi (aes32esmi k2 a6 0) a7 1) a4 2) a5 3)
      (aes32esmi (aes32esmi (aes32esmi (aes32esmi k3 a7 0) a4 1) a5 2) a6 3)
    = AddRoundKey (MixColumns (ShiftRows (SubBytes (stateOf a4 a5 a6 a7))))
        (stateOf k0 k1 k2 k3) := by
  have h0 : (0:Nat) < 4 := by decide
  have h1 : (1:Nat) < 4 := by decide
  have h2 : (2:Nat) < 4 := by decide
  have h3 : (3:Nat) < 4 := by decide
  simp only [stateOf, wordBytes, byteOf_aes32esmi, h0, h1, h2, h3]
  simp [AddRoundKey, MixColumns, ShiftRows, SubBytes, xorBytes, List.range, List.range.loop]
  refine ⟨?_, ?_, ?_, ?_, ?_, ?_, ?_, ?_, ?_, ?_, ?_, ?_, ?_, ?_, ?_, ?_⟩ <;>
    simp only [Nat.xor_assoc, Nat.xor_comm, xor_left_comm]

theorem enc_final_state (a4 a5 a6 a7 k0 k1 k2 k3 : Nat) :
    stateOf
      (aes32esi (aes32esi (aes32esi (aes32esi k0 a4 0) a5 1) a6 2) a7 3)
      (aes32esi (aes32esi (aes32esi (aes32esi k1 a5 0) a6 1) a7 2) a4 3)
      (aes32esi (aes32esi (aes32esi (aes32esi k2 a6 0) a7 1) a4 2) a5 3)
      (aes32esi (aes32esi (aes32esi (aes32esi k3 a7 0) a4 1) a5 2) a6 3)
    = AddRoundKey (ShiftRows (SubBytes (stateOf a4 a5 a6 a7))) (stateOf k0 k1 k2 k3) := by
  have h0 : (0:Nat) < 4 := by decide
  have h1 : (1:Nat) < 4 := by decide
  have h2 : (2:Nat) < 4 := by decide
  have h3 : (3:Nat) < 4 := by decide
  simp only [stateOf, wordBytes, byteOf_aes32esi, h0, h1, h2, h3]
  simp [AddRoundKey, ShiftRows, SubBytes, xorBytes, List.range, List.range.loop]
  refine ⟨?_, ?_, ?_, ?_, ?_, ?_, ?_, ?_, ?_, ?_, ?_, ?_, ?_, ?_, ?_, ?_⟩ <;>
    exact Nat.xor_comm _ _

theorem dec_round_state (a4 a5 a6 a7 k0 k1 k2 k3 : Nat) :
    stateOf
      (aes32dsmi (aes32dsmi (aes32dsmi (aes32dsmi k0 a4 0) a7 1) a6 2) a5 3)
      (aes32dsmi (aes32dsmi (aes32dsmi (aes32dsmi k1 a5 0) a4 1) a7 2) a6 3)
      (aes32dsmi (aes32dsmi (aes32dsmi (aes32dsmi k2 a6 0) a5 1) a4 2) a7 3)
      (aes32dsmi (aes32dsmi (aes32dsmi (aes32dsmi k3 a7 0) a6 1) a5 2) a4 3)
    = AddRoundKey (InvMixColumns (InvShiftRows (InvSubBytes (stateOf a4 a5 a6 a7))))
        (stateOf k0 k1 k2 k3) := by
  have h0 : (0:Nat) < 4 := by decide
  have h1 : (1:Nat) < 4 := by decide
  have h2 : (2:Nat) < 4 := by decide
  have h3 : (3:Nat) < 4 := by decide
  simp only [stateOf, wordBytes, byteOf_aes32dsmi, h0, h1, h2, h3]
  simp [AddRoundKey, InvMixColumns, InvShiftRows, InvSubBytes, xorBytes, List.range,
    List.range.loop]
  refine ⟨?_, ?_, ?_, ?_, ?_, ?_, ?_, ?_, ?_, ?_, ?_, ?_, ?_, ?_, ?_, ?_⟩ <;>
    simp only [Nat.xor_assoc, Nat.xor_comm, xor_left_comm]

theorem dec_final_state (a4 a5 a6 a7 k0 k1 k2 k3 : Nat) :
    stateOf
      (aes32dsi (aes32dsi (aes32dsi (aes32dsi k0 a4 0) a7 1) a6 2) a5 3)
      (aes32dsi (aes32dsi (aes32dsi (aes32dsi k1 a5 0) a4 1) a7 2) a6 3)
      (aes32dsi (aes32dsi (aes32dsi (aes32dsi k2 a6 0) a5 1) a4 2) a7 3)
      (aes32dsi (aes32dsi (aes32dsi (aes32dsi k3 a7 0) a6 1) a5 2) a4 3)
    = AddRoundKey (InvShiftRows (InvSubBytes (stateOf a4 a5 a6 a7))) (stateOf k0 k1 k2 k3) := by
  have h0 : (0:Nat) < 4 := by decide
  have h1 : (1:Nat) < 4 := by decide
  have h2 : (2:Nat) < 4 := by decide
  have h3 : (3:Nat) < 4 := by decide
  simp only [stateOf, wordBytes, byteOf_aes32dsi, h0, h1, h2, h3]
  simp [AddRoundKey, InvShiftRows, InvSubBytes, xorBytes, List.range, List.range.loop]
  refine ⟨?_, ?_, ?_, ?_, ?_, ?_, ?_, ?_, ?_, ?_, ?_, ?_, ?_, ?_, ?_, ?_⟩ <;>
    exact Nat.xor_comm _ _

/-! ### Memory -/

theorem lbu_lt (m : Mem) (a : Int) : lbu m a < 256 := by unfold lbu; omega

theorem lw_lt (m : Mem) (a : Int) : lw m a < 2 ^ 32 := by
  have h0 := lbu_lt m a
  have h1 := lbu_lt m (a + 1)
  have h2 := lbu_lt m (a + 2)
  have h3 := lbu_lt m (a + 3)
  unfold lw; omega

theorem wordBytes_lw (m : Mem) (a : Int) :
    wordBytes (lw m a) = [lbu m a, lbu m (a + 1), lbu m (a + 2), lbu m (a + 3)] := by
  obtain ⟨e0, e1, e2, e3⟩ := byteOf_pack _ _ _ _ (lbu_lt m a) (lbu_lt m (a + 1))
    (lbu_lt m (a + 2)) (lbu_lt m (a + 3))
  unfold wordBytes lw
  rw [e0, e1, e2, e3]

theorem stateOf_lw (m : Mem) (base : Int) (r : Nat) (p : Int) (hp : p = base + 16 * (r : Int)) :
    stateOf (lw m p) (lw m (p + 4)) (lw m (p + 8)) (lw m (p + 12)) = roundKey m base r := by
  subst hp
  simp only [stateOf, wordBytes_lw, roundKey, List.range, List.range.loop, List.map]
  simp [Int.add_assoc]

theorem lbu_sw (m : Mem) (a : Int) (v : Nat) (j : Int) :
    lbu (sw m a v) j =
      if j = a then byteOf 0 v else if j = a + 1 then byteOf 1 v
      else if j = a + 2 then byteOf 2 v else if j = a + 3 then byteOf 3 v else lbu m j := by
  unfold lbu sw byteOf
  split
  · simp
  · split
    · simp
    · split
      · simp
      · split
        · simp
        · rfl

theorem sw_raw_lt (m : Mem) (a : Int) (v : Nat) (j : Int) (h : m j < 256) : sw m a v j < 256 := by
  unfold sw
  split
  · omega
  · split
    · omega
    · split
      · omega
      · split
        · omega
        · exact h

theorem bytesOf_store4 (m : Mem) (a4 a5 a6 a7 : Nat) :
    bytesOf (sw (sw (sw (sw m (0 + 0) a4) (0 + 4) a5) (0 + 8) a6) (0 + 12) a7) 16
      = stateOf a4 a5 a6 a7 := by
  simp [bytesOf, List.range, List.range.loop, lbu_sw, stateOf, wordBytes]

/-! ## The block loops against the reference rounds -/

theorem stateOf_lw4 (m : Mem) (base : Int) (r : Nat) (p0 p1 p2 p3 : Int)
    (h0 : p0 = base + 16 * (r : Int)) (h1 : p1 = p0 + 4) (h2 : p2 = p0 + 8)
    (h3 : p3 = p0 + 12) :
    stateOf (lw m p0) (lw m p1) (lw m p2) (lw m p3) = roundKey m base r := by
  subst h1 h2 h3
  exact stateOf_lw m base r p0 h0

theorem aes_ecb_encrypt_loop_spec (rk : Mem) (base : Int) (s0 : List Nat) :
    ∀ (m k fuel a4 a5 a6 a7 : Nat), m + 1 ≤ fuel →
      stateOf a4 a5 a6 a7 = cipherRounds (roundKey rk base) k s0 →
      (aes_ecb_encrypt_loop fuel rk a4 a5 a6 a7 (base + 16 * (k : Int))
            (base + 16 * ((k + 2 * (m + 1) : Nat) : Int))).map regState =
        some (AddRoundKey
          (ShiftRows (SubBytes (cipherRounds (roundKey rk base) (k + 2 * m + 1) s0)))
            (roundKey rk base (k + 2 * m + 2))) := by
  intro m
  induction m with
  | zero =>
    intro k fuel a4 a5 a6 a7 hf hs
    obtain ⟨f, rfl⟩ : ∃ f, fuel = f + 1 := ⟨fuel - 1, by omega⟩
    simp only [aes_ecb_encrypt_loop]
    rw [if_pos (by push_cast; omega)]
    simp only [Option.map_some', regState]
    rw [enc_final_state, enc_round_state, hs,
      stateOf_lw4 rk base (k + 1) _ _ _ _ (by push_cast; omega) (by omega) (by omega) (by omega),
      stateOf_lw4 rk base (k + 2) _ _ _ _ (by push_cast; omega) (by omega) (by omega) (by omega)]
    rfl
  | succ m ih =>
    intro k fuel a4 a5 a6 a7 hf hs
    obtain ⟨f, rfl⟩ : ∃ f, fuel = f + 1 := ⟨fuel - 1, by omega⟩
    simp only [aes_ecb_encrypt_loop]
    rw [if_neg (by push_cast; omega)]
    have hk : base + 16 * (k : Int) + 32 = base + 16 * ((k + 2 : Nat) : Int) := by
      push_cast; omega
    have ha3 : base + 16 * ((k + 2 * (m + 1 + 1) : Nat) : Int)
        = base + 16 * ((k + 2 + 2 * (m + 1) : Nat) : Int) := by push_cast; omega
    rw [hk, ha3, ih (k + 2) f]
    · have e1 : k + 2 + 2 * m + 1 = k + 2 * (m + 1) + 1 := by omega
      have e2 : k + 2 + 2 * m + 2 = k + 2 * (m + 1) + 2 := by omega
      rw [e1, e2]
    · omega
    · rw [enc_round_state, enc_round_state, hs,
        stateOf_lw4 rk base (k + 1) _ _ _ _ (by push_cast; omega) (by omega) (by omega)
          (by omega),
        stateOf_lw4 rk base (k + 2) _ _ _ _ (by push_cast; omega) (by omega) (by omega)
          (by omega)]
      rfl

theorem aes_ecb_decrypt_loop_spec (rk : Mem) (base : Int) (nr : Nat) (s0 : List Nat) :
    ∀ (m j fuel a4 a5 a6 a7 : Nat), m + 1 ≤ fuel → j + 2 * (m + 1) = nr →
      stateOf a4 a5 a6 a7 = eqInvRounds nr (roundKey rk base) j s0 →
      (aes_ecb_decrypt_loop fuel rk a4 a5 a6 a7 base
            (base + 16 * ((2 * m : Nat) : Int))).map regState =
        some (AddRoundKey
          (InvShiftRows (InvSubBytes (eqInvRounds nr (roundKey rk base) (nr - 1) s0)))
            (roundKey rk base 0)) := by
  intro m
  induction m with
  | zero =>
    intro j fuel a4 a5 a6 a7 hf hj hs
    obtain ⟨f, rfl⟩ : ∃ f, fuel = f + 1 := ⟨fuel - 1, by omega⟩
    simp only [aes_ecb_decrypt_loop]
    rw [if_pos (by push_cast; omega)]
    simp only [Option.map_some', regState]
    rw [dec_final_state, dec_round_state, hs,
      stateOf_lw4 rk base 1 _ _ _ _ (by push_cast; omega) (by omega) (by omega) (by omega),
      stateOf_lw4 rk base 0 _ _ _ _ (by push_cast; omega) (by omega) (by omega) (by omega)]
    have e : nr - 1 = j + 1 := by omega
    have e2 : 1 = nr - (j + 1) := by omega
    rw [e]
    conv => lhs; rw [e2]
    rfl
  | succ m ih =>
    intro j fuel a4 a5 a6 a7 hf hj hs
    obtain ⟨f, rfl⟩ : ∃ f, fuel = f + 1 := ⟨fuel - 1, by omega⟩
    simp only [aes_ecb_decrypt_loop]
    rw [if_neg (by push_cast; omega)]
    have hk : base + 16 * ((2 * (m + 1) : Nat) : Int) - 32 = base + 16 * ((2 * m : Nat) : Int) := by
      push_cast; omega
    rw [hk, ih (j + 2) f]
    · omega
    · omega
    · rw [dec_round_state, dec_round_state, hs,
        stateOf_lw4 rk base (2 * m + 3) _ _ _ _ (by push_cast; omega) (by omega) (by omega)
          (by omega),
        stateOf_lw4 rk base (2 * m + 2) _ _ _ _ (by push_cast; omega) (by omega) (by omega)
          (by omega)]
      have e1 : 2 * m + 3 = nr - (j + 1) := by omega
      have e2 : 2 * m + 2 = nr - (j + 1 + 1) := by omega
      rw [e1, e2]
      rfl

/-! ## The block functions against the reference ciphers -/

theorem stateOf_xor (a b c d e f g h : Nat) :
    stateOf (a ^^^ e) (b ^^^ f) (c ^^^ g) (d ^^^ h)
      = AddRoundKey (stateOf a b c d) (stateOf e f g h) := by
  simp [stateOf, wordBytes, byteOf_xor, AddRoundKey, xorBytes]

theorem roundKey_zero_eq_bytesOf (m : Mem) : roundKey m 0 0 = bytesOf m 16 := by
  simp [roundKey, bytesOf]

theorem sw_frame (m : Mem) (a : Int) (v : Nat) (j : Int) (h : j < a ∨ a + 4 ≤ j) :
    sw m a v j = m j := by
  unfold sw
  rw [if_neg (by omega), if_neg (by omega), if_neg (by omega), if_neg (by omega)]

theorem aes_encrypt_spec (m fuel : Nat) (ct pt rkmem : Mem) (rk : Int) (hf : m + 1 ≤ fuel) :
    ∃ out, aes_encrypt fuel ct pt rkmem rk ((2 * (m + 1) : Nat) : Int) = some out ∧
      bytesOf out 16 = Cipher (2 * (m + 1)) (roundKey rkmem rk) (bytesOf pt 16) ∧
      ∀ j : Int, j < 0 ∨ 16 ≤ j → out j = ct j := by
  have hs : stateOf (lw pt (0 + 0) ^^^ lw rkmem (rk + 0)) (lw pt (0 + 4) ^^^ lw rkmem (rk + 4))
      (lw pt (0 + 8) ^^^ lw rkmem (rk + 8)) (lw pt (0 + 12) ^^^ lw rkmem (rk + 12))
      = cipherRounds (roundKey rkmem rk) 0
          (AddRoundKey (bytesOf pt 16) (roundKey rkmem rk 0)) := by
    rw [stateOf_xor,
      stateOf_lw4 pt 0 0 _ _ _ _ (by omega) (by omega) (by omega) (by omega),
      stateOf_lw4 rkmem rk 0 _ _ _ _ (by push_cast; omega) (by omega) (by omega) (by omega),
      roundKey_zero_eq_bytesOf]
    rfl
  have hl := aes_ecb_encrypt_loop_spec rkmem rk _ m 0 fuel _ _ _ _ hf hs
  have e1 : rk + 16 * ((0 : Nat) : Int) = rk := by push_cast; omega
  have e2 : rk + 16 * ((0 + 2 * (m + 1) : Nat) : Int) = rk + 4 * (4 * ((2 * (m + 1) : Nat) : Int)) := by
    push_cast; omega
  rw [e1, e2] at hl
  obtain ⟨r, hr, hst⟩ := Option.map_eq_some'.mp hl
  obtain ⟨r4, r5, r6, r7⟩ := r
  refine ⟨sw (sw (sw (sw ct (0 + 0) r4) (0 + 4) r5) (0 + 8) r6) (0 + 12) r7, ?_, ?_, ?_⟩
  · simp only [aes_encrypt, aes_ecb_encrypt, hr]
  · rw [bytesOf_store4]
    simp only [regState] at hst
    rw [hst]
    have e : 0 + 2 * m + 1 = 2 * (m + 1) - 1 := by omega
    have e' : 0 + 2 * m + 2 = 2 * (m + 1) := by omega
    rw [e, e']
    rfl
  · intro j hj
    rw [sw_frame _ _ _ _ (by omega), sw_frame _ _ _ _ (by omega), sw_frame _ _ _ _ (by omega),
      sw_frame _ _ _ _ (by omega)]

theorem aes_decrypt_spec (m fuel : Nat) (pt ct rkmem : Mem) (rk : Int) (hf : m + 1 ≤ fuel) :
    ∃ out, aes_decrypt fuel pt ct rkmem rk ((2 * (m + 1) : Nat) : Int) = some out ∧
      bytesOf out 16 = EqInvCipher (2 * (m + 1)) (roundKey rkmem rk) (bytesOf ct 16) ∧
      ∀ j : Int, j < 0 ∨ 16 ≤ j → out j = pt j := by
  have hs : stateOf
      (lw ct (0 + 0) ^^^ lw rkmem (rk + 4 * (4 * ((2 * (m + 1) : Nat) : Int)) + 0))
      (lw ct (0 + 4) ^^^ lw rkmem (rk + 4 * (4 * ((2 * (m + 1) : Nat) : Int)) + 4))
      (lw ct (0 + 8) ^^^ lw rkmem (rk + 4 * (4 * ((2 * (m + 1) : Nat) : Int)) + 8))
      (lw ct (0 + 12) ^^^ lw rkmem (rk + 4 * (4 * ((2 * (m + 1) : Nat) : Int)) + 12))
      = eqInvRounds (2 * (m + 1)) (roundKey rkmem rk) 0
          (AddRoundKey (bytesOf ct 16) (roundKey rkmem rk (2 * (m + 1)))) := by
    rw [stateOf_xor,
      stateOf_lw4 ct 0 0 _ _ _ _ (by omega) (by omega) (by omega) (by omega),
      stateOf_lw4 rkmem rk (2 * (m + 1)) _ _ _ _ (by push_cast; omega) (by omega) (by omega)
        (by omega),
      roundKey_zero_eq_bytesOf]
    rfl
  have hl := aes_ecb_decrypt_loop_spec rkmem rk (2 * (m + 1)) _ m 0 fuel _ _ _ _ hf (by omega) hs
  have e2 : rk + 16 * ((2 * m : Nat) : Int) = rk + 4 * (4 * ((2 * (m + 1) : Nat) : Int)) - 32 := by
    push_cast; omega
  rw [e2] at hl
  obtain ⟨r, hr, hst⟩ := Option.map_eq_some'.mp hl
  obtain ⟨r4, r5, r6, r7⟩ := r
  refine ⟨sw (sw (sw (sw pt (0 + 0) r4) (0 + 4) r5) (0 + 8) r6) (0 + 12) r7, ?_, ?_, ?_⟩
  · simp only [aes_decrypt, aes_ecb_decrypt, hr]
  · rw [bytesOf_store4]
    simp only [regState] at hst
    rw [hst]
    rfl
  · intro j hj
    rw [sw_frame _ _ _ _ (by omega), sw_frame _ _ _ _ (by omega), sw_frame _ _ _ _ (by omega),
      sw_frame _ _ _ _ (by omega)]

/-! ## Algebra of the reference transformations -/

theorem two_mul_xor (a b : Nat) : 2 * (a ^^^ b) = 2 * a ^^^ 2 * b := by
  apply Nat.eq_of_testBit_eq
  intro i
  have e : ∀ x : Nat, 2 * x = x <<< 1 := fun x => by rw [Nat.shiftLeft_eq]; omega
  rw [e, e a, e b]
  simp only [Nat.testBit_shiftLeft, Nat.testBit_xor]
  by_cases h : i ≥ 1 <;> simp [h]

theorem xtime_xor (a b : Nat) : xtime (a ^^^ b) = xtime a ^^^ xtime b := by
  unfold xtime
  have h1 : 2 * (a ^^^ b) % 256 = (2 * a % 256) ^^^ (2 * b % 256) := by
    rw [two_mul_xor]; exact xor_mod_two_pow _ _ 8
  have h2 : (a ^^^ b) / 128 = a / 128 ^^^ b / 128 := xor_div_two_pow a b 7
  have h3 := @Nat.xor_mod_two_eq_one (a / 128) (b / 128)
  rw [h1, h2]
  by_cases ha : a / 128 % 2 = 1 <;> by_cases hb : b / 128 % 2 = 1
  · have : ¬ ((a / 128 ^^^ b / 128) % 2 = 1) := by rw [h3]; simp [ha, hb]
    simp only [ha, hb, this, if_true, if_false]
    generalize 2 * a % 256 = u
    generalize 2 * b % 256 = v
    rw [show u ^^^ 27 ^^^ (v ^^^ 27) = (u ^^^ v) ^^^ (27 ^^^ 27) by ac_rfl]
    rfl
  · have : (a / 128 ^^^ b / 128) % 2 = 1 := by rw [h3]; simp [ha, hb]
    simp only [ha, hb, this, if_true, if_false, Nat.xor_zero]
    ac_rfl
  · have : (a / 128 ^^^ b / 128) % 2 = 1 := by rw [h3]; simp [ha, hb]
    simp only [ha, hb, this, if_true, if_false, Nat.xor_zero]
    ac_rfl
  · have : ¬ ((a / 128 ^^^ b / 128) % 2 = 1) := by rw [h3]; simp [ha, hb]
    simp only [ha, hb, this, if_true, if_false, Nat.xor_zero]

theorem xtime_lt (a : Nat) : xtime a < 256 := by
  unfold xtime
  apply xor_lt_256
  · omega
  · split <;> omega

theorem gf_mul_xor (c a b : Nat) : gf_mul c (a ^^^ b) = gf_mul c a ^^^ gf_mul c b := by
  unfold gf_mul
  simp only [xtime_xor]
  by_cases h0 : c % 2 = 1 <;> by_cases h1 : c / 2 % 2 = 1 <;> by_cases h2 : c / 4 % 2 = 1 <;>
    by_cases h3 : c / 8 % 2 = 1 <;>
    simp only [h0, h1, h2, h3, if_true, if_false, Nat.xor_zero, Nat.zero_xor] <;> ac_rfl

theorem gf_mul_lt (c : Nat) {b : Nat} (hb : b < 256) : gf_mul c b < 256 := by
  unfold gf_mul
  have h1 := xtime_lt b
  have h2 := xtime_lt (xtime b)
  have h3 := xtime_lt (xtime (xtime b))
  refine xor_lt_256 (xor_lt_256 (xor_lt_256 ?_ ?_) ?_) ?_ <;> split <;> omega

set_option maxRecDepth 100000 in
theorem inv_mix_coeffs : ∀ x < 256,
    gf_mul 0x0e (gf_mul 2 x) ^^^ gf_mul 0x0b x ^^^ gf_mul 0x0d x ^^^ gf_mul 0x09 (gf_mul 3 x) = x ∧
    gf_mul 0x0e (gf_mul 3 x) ^^^ gf_mul 0x0b (gf_mul 2 x) ^^^ gf_mul 0x0d x ^^^ gf_mul 0x09 x = 0 ∧
    gf_mul 0x0e x ^^^ gf_mul 0x0b (gf_mul 3 x) ^^^ gf_mul 0x0d (gf_mul 2 x) ^^^ gf_mul 0x09 x = 0 ∧
    gf_mul 0x0e x ^^^ gf_mul 0x0b x ^^^ gf_mul 0x0d (gf_mul 3 x) ^^^ gf_mul 0x09 (gf_mul 2 x) = 0 := by
  decide!

theorem inv_mix_column (y0 y1 y2 y3 : Nat) (h0 : y0 < 256) (h1 : y1 < 256) (h2 : y2 < 256)
    (h3 : y3 < 256) :
    gf_mul 0x0e (gf_mul 2 y0 ^^^ gf_mul 3 y1 ^^^ y2 ^^^ y3)
      ^^^ gf_mul 0x0b (gf_mul 2 y1 ^^^ gf_mul 3 y2 ^^^ y3 ^^^ y0)
      ^^^ gf_mul 0x0d (gf_mul 2 y2 ^^^ gf_mul 3 y3 ^^^ y0 ^^^ y1)
      ^^^ gf_mul 0x09 (gf_mul 2 y3 ^^^ gf_mul 3 y0 ^^^ y1 ^^^ y2) = y0 := by
  simp only [gf_mul_xor]
  have e0 := (inv_mix_coeffs y0 h0).1
  have e1 := (inv_mix_coeffs y1 h1).2.1
  have e2 := (inv_mix_coeffs y2 h2).2.2.1
  have e3 := (inv_mix_coeffs y3 h3).2.2.2
  calc _ = (gf_mul 0x0e (gf_mul 2 y0) ^^^ gf_mul 0x0b y0 ^^^ gf_mul 0x0d y0
              ^^^ gf_mul 0x09 (gf_mul 3 y0))
            ^^^ (gf_mul 0x0e (gf_mul 3 y1) ^^^ gf_mul 0x0b (gf_mul 2 y1) ^^^ gf_mul 0x0d y1
              ^^^ gf_mul 0x09 y1)
            ^^^ (gf_mul 0x0e y2 ^^^ gf_mul 0x0b (gf_mul 3 y2) ^^^ gf_mul 0x0d (gf_mul 2 y2)
              ^^^ gf_mul 0x09 y2)
            ^^^ (gf_mul 0x0e y3 ^^^ gf_mul 0x0b y3 ^^^ gf_mul 0x0d (gf_mul 3 y3)
              ^^^ gf_mul 0x09 (gf_mul 2 y3)) := by ac_rfl
    _ = y0 := by rw [e0, e1, e2, e3]; simp only [Nat.xor_zero]

theorem block_cases {s : List Nat} (h : s.length = 16) :
    ∃ x0 x1 x2 x3 x4 x5 x6 x7 x8 x9 x10 x11 x12 x13 x14 x15,
      s = [x0, x1, x2, x3, x4, x5, x6, x7, x8, x9, x10, x11, x12, x13, x14, x15] := by
  match s, h with
  | [x0, x1, x2, x3, x4, x5, x6, x7, x8, x9, x10, x11, x12, x13, x14, x15], _ =>
    exact ⟨x0, x1, x2, x3, x4, x5, x6, x7, x8, x9, x10, x11, x12, x13, x14, x15, rfl⟩

theorem InvMixColumns_MixColumns (s : List Nat) (h : IsBlock s) :
    InvMixColumns (MixColumns s) = s := by
  obtain ⟨hl, hb⟩ := h
  obtain ⟨x0, x1, x2, x3, x4, x5, x6, x7, x8, x9, x10, x11, x12, x13, x14, x15, rfl⟩ :=
    block_cases hl
  simp only [List.mem_cons, List.mem_singleton, forall_eq_or_imp, forall_eq, List.not_mem_nil,
    false_implies, implies_true, and_true] at hb
  obtain ⟨b0, b1, b2, b3, b4, b5, b6, b7, b8, b9, b10, b11, b12, b13, b14, b15⟩ := hb
  simp [InvMixColumns, MixColumns, List.range, List.range.loop]
  refine ⟨?_, ?_, ?_, ?_, ?_, ?_, ?_, ?_, ?_, ?_, ?_, ?_, ?_, ?_, ?_, ?_⟩ <;>
    apply inv_mix_column <;> assumption

theorem isBlock_of_list {x0 x1 x2 x3 x4 x5 x6 x7 x8 x9 x10 x11 x12 x13 x14 x15 : Nat}
    (h : IsBlock [x0, x1, x2, x3, x4, x5, x6, x7, x8, x9, x10, x11, x12, x13, x14, x15]) :
    (x0 < 256 ∧ x1 < 256 ∧ x2 < 256 ∧ x3 < 256) ∧ (x4 < 256 ∧ x5 < 256 ∧ x6 < 256 ∧ x7 < 256) ∧
    (x8 < 256 ∧ x9 < 256 ∧ x10 < 256 ∧ x11 < 256) ∧
    (x12 < 256 ∧ x13 < 256 ∧ x14 < 256 ∧ x15 < 256) := by
  have hb := h.2
  simp only [List.mem_cons, List.mem_singleton, forall_eq_or_imp, forall_eq, List.not_mem_nil,
    false_implies, implies_true, and_true] at hb
  obtain ⟨b0, b1, b2, b3, b4, b5, b6, b7, b8, b9, b10, b11, b12, b13, b14, b15⟩ := hb
  exact ⟨⟨b0, b1, b2, b3⟩, ⟨b4, b5, b6, b7⟩, ⟨b8, b9, b10, b11⟩, ⟨b12, b13, b14, b15⟩⟩

theorem isBlock_map_range (f : Nat → Nat) (hf : ∀ i, f i < 256) :
    IsBlock ((List.range 16).map f) := by
  refine ⟨by simp, ?_⟩
  intro b hb
  obtain ⟨i, _, rfl⟩ := List.mem_map.mp hb
  exact hf i

theorem isBlock_roundKey (m : Mem) (base : Int) (r : Nat) : IsBlock (roundKey m base r) := by
  unfold roundKey
  exact isBlock_map_range _ (fun _ => lbu_lt _ _)

theorem isBlock_bytesOf (m : Mem) : IsBlock (bytesOf m 16) := by
  unfold bytesOf
  exact isBlock_map_range _ (fun _ => lbu_lt _ _)

theorem isBlock_AddRoundKey {s k : List Nat} (hs : IsBlock s) (hk : IsBlock k) :
    IsBlock (AddRoundKey s k) := by
  refine ⟨by simp [AddRoundKey, xorBytes, hs.1, hk.1], ?_⟩
  intro b hb
  simp only [AddRoundKey, xorBytes, List.mem_iff_get] at hb
  obtain ⟨n, rfl⟩ := hb
  simp only [List.get_eq_getElem, List.getElem_zipWith]
  exact xor_lt_256 (hs.2 _ (List.getElem_mem _)) (hk.2 _ (List.getElem_mem _))

theorem isBlock_SubBytes {s : List Nat} (hs : IsBlock s) : IsBlock (SubBytes s) := by
  refine ⟨by simp [SubBytes, hs.1], ?_⟩
  intro b hb
  obtain ⟨i, _, rfl⟩ := List.mem_map.mp hb
  exact aes_sbox_fwd_lt i

theorem getD_lt_of_isBlock {s : List Nat} (hs : IsBlock s) (i : Nat) : s.getD i 0 < 256 := by
  by_cases h : i < s.length
  · rw [List.getD_eq_getElem _ _ h]; exact hs.2 _ (List.getElem_mem _)
  · rw [List.getD_eq_default _ _ (by omega)]; decide

theorem isBlock_ShiftRows {s : List Nat} (hs : IsBlock s) : IsBlock (ShiftRows s) := by
  unfold ShiftRows
  exact isBlock_map_range _ (fun _ => getD_lt_of_isBlock hs _)

theorem isBlock_MixColumns {s : List Nat} (hs : IsBlock s) : IsBlock (MixColumns s) := by
  unfold MixColumns
  exact isBlock_map_range _ (fun _ =>
    xor_lt_256 (xor_lt_256 (xor_lt_256 (gf_mul_lt _ (getD_lt_of_isBlock hs _))
      (gf_mul_lt _ (getD_lt_of_isBlock hs _))) (getD_lt_of_isBlock hs _))
      (getD_lt_of_isBlock hs _))

theorem InvMixColumns_length (s : List Nat) : (InvMixColumns s).length = 16 := by
  simp [InvMixColumns]

theorem InvSubBytes_SubBytes {s : List Nat} (hs : IsBlock s) : InvSubBytes (SubBytes s) = s := by
  simp only [InvSubBytes, SubBytes, List.map_map]
  conv => rhs; rw [← List.map_id s]
  apply List.map_congr_left
  intro b hb
  exact aes_sbox_inv_fwd b (hs.2 b hb)

theorem InvShiftRows_ShiftRows {s : List Nat} (h : s.length = 16) :
    InvShiftRows (ShiftRows s) = s := by
  obtain ⟨x0, x1, x2, x3, x4, x5, x6, x7, x8, x9, x10, x11, x12, x13, x14, x15, rfl⟩ :=
    block_cases h
  simp [InvShiftRows, ShiftRows, List.range, List.range.loop]

theorem InvSubBytes_ShiftRows {s : List Nat} (h : s.length = 16) :
    InvSubBytes (ShiftRows s) = ShiftRows (InvSubBytes s) := by
  obtain ⟨x0, x1, x2, x3, x4, x5, x6, x7, x8, x9, x10, x11, x12, x13, x14, x15, rfl⟩ :=
    block_cases h
  simp [InvSubBytes, ShiftRows, List.range, List.range.loop]

theorem AddRoundKey_cancel {s k : List Nat} (hs : s.length = 16) (hk : k.length = 16) :
    AddRoundKey (AddRoundKey s k) k = s := by
  obtain ⟨x0, x1, x2, x3, x4, x5, x6, x7, x8, x9, x10, x11, x12, x13, x14, x15, rfl⟩ :=
    block_cases hs
  obtain ⟨y0, y1, y2, y3, y4, y5, y6, y7, y8, y9, y10, y11, y12, y13, y14, y15, rfl⟩ :=
    block_cases hk
  simp [AddRoundKey, xorBytes, Nat.xor_assoc]

theorem InvMixColumns_AddRoundKey {s k : List Nat} (hs : s.length = 16) (hk : k.length = 16) :
    InvMixColumns (AddRoundKey s k) = AddRoundKey (InvMixColumns s) (InvMixColumns k) := by
  obtain ⟨x0, x1, x2, x3, x4, x5, x6, x7, x8, x9, x10, x11, x12, x13, x14, x15, rfl⟩ :=
    block_cases hs
  obtain ⟨y0, y1, y2, y3, y4, y5, y6, y7, y8, y9, y10, y11, y12, y13, y14, y15, rfl⟩ :=
    block_cases hk
  simp [InvMixColumns, AddRoundKey, xorBytes, List.range, List.range.loop, gf_mul_xor]
  refine ⟨?_, ?_, ?_, ?_, ?_, ?_, ?_, ?_, ?_, ?_, ?_, ?_, ?_, ?_, ?_, ?_⟩ <;> ac_rfl

/-! ## The equivalent inverse cipher undoes the cipher -/

theorem isBlock_cipherRounds (w : Nat → List Nat) (hw : ∀ r, IsBlock (w r)) (s : List Nat)
    (hs : IsBlock s) : ∀ n, IsBlock (cipherRounds w n s)
  | 0 => hs
  | n + 1 =>
    isBlock_AddRoundKey
      (isBlock_MixColumns (isBlock_ShiftRows (isBlock_SubBytes (isBlock_cipherRounds w hw s hs n))))
      (hw (n + 1))

theorem inv_of_shift_sub {c : List Nat} (hc : IsBlock c) :
    InvShiftRows (InvSubBytes (ShiftRows (SubBytes c))) = c := by
  rw [InvSubBytes_ShiftRows (isBlock_SubBytes hc).1, InvSubBytes_SubBytes hc,
    InvShiftRows_ShiftRows hc.1]

theorem eqInvRounds_cipher (nr : Nat) (w dw : Nat → List Nat) (hw : ∀ r, IsBlock (w r))
    (hk : ∀ k, 1 ≤ k → k < nr → dw k = InvMixColumns (w k)) (s0 : List Nat) (hs : IsBlock s0)
    (t : List Nat) (ht : t = ShiftRows (SubBytes (cipherRounds w (nr - 1) s0))) :
    ∀ j, j + 1 ≤ nr →
      eqInvRounds nr dw j t = ShiftRows (SubBytes (cipherRounds w (nr - 1 - j) s0)) := by
  intro j
  induction j with
  | zero => intro _; exact ht
  | succ j ih =>
    intro hj
    have hidx : nr - 1 - j = (nr - 1 - (j + 1)) + 1 := by omega
    have hc := isBlock_cipherRounds w hw s0 hs (nr - 1 - j)
    have hc' := isBlock_cipherRounds w hw s0 hs (nr - 1 - (j + 1))
    have hM := isBlock_MixColumns (isBlock_ShiftRows (isBlock_SubBytes hc'))
    have hkey : dw (nr - (j + 1)) = InvMixColumns (w (nr - 1 - (j + 1) + 1)) := by
      rw [hk (nr - (j + 1)) (by omega) (by omega)]
      congr 2
      omega
    simp only [eqInvRounds]
    rw [ih (by omega), inv_of_shift_sub hc, hkey, hidx]
    simp only [cipherRounds]
    rw [InvMixColumns_AddRoundKey hM.1 (hw _).1,
      InvMixColumns_MixColumns _ (isBlock_ShiftRows (isBlock_SubBytes hc')),
      AddRoundKey_cancel (isBlock_ShiftRows (isBlock_SubBytes hc')).1 (InvMixColumns_length _)]

theorem EqInvCipher_Cipher (nr : Nat) (hnr : 1 ≤ nr) (w dw : Nat → List Nat)
    (hw : ∀ r, IsBlock (w r)) (h0 : dw 0 = w 0) (hn : dw nr = w nr)
    (hk : ∀ k, 1 ≤ k → k < nr → dw k = InvMixColumns (w k)) (P : List Nat) (hP : IsBlock P) :
    EqInvCipher nr dw (Cipher nr w P) = P := by
  have hs := isBlock_AddRoundKey hP (hw 0)
  have hc := isBlock_cipherRounds w hw _ hs (nr - 1)
  have hX := isBlock_ShiftRows (isBlock_SubBytes hc)
  have ht : AddRoundKey (Cipher nr w P) (dw nr)
      = ShiftRows (SubBytes (cipherRounds w (nr - 1) (AddRoundKey P (w 0)))) := by
    rw [hn]
    exact AddRoundKey_cancel hX.1 (hw nr).1
  have h := eqInvRounds_cipher nr w dw hw hk _ hs _ ht (nr - 1) (by omega)
  unfold EqInvCipher
  rw [h, Nat.sub_self, inv_of_shift_sub (isBlock_cipherRounds w hw _ hs 0), h0]
  exact AddRoundKey_cancel hP.1 (hw 0).1

/-! ## Decryption round keys -/

theorem byteOf_lw (m : Mem) (a : Int) (r : Nat) (hr : r < 4) :
    byteOf r (lw m a) = lbu m (a + (r : Int)) := by
  have h := wordBytes_lw m a
  simp only [wordBytes, List.cons.injEq, and_true] at h
  obtain ⟨h0, h1, h2, h3⟩ := h
  interval_cases r
  · simpa using h0
  · simpa using h1
  · simpa using h2
  · simpa using h3

theorem lbu_sw_at (m : Mem) (a : Int) (v : Nat) (r : Nat) (hr : r < 4) :
    lbu (sw m a v) (a + (r : Int)) = byteOf r v := by
  rw [lbu_sw]
  interval_cases r
  · simp
  · rw [if_neg (by omega), if_pos (by omega)]
  · rw [if_neg (by omega), if_neg (by omega), if_pos (by omega)]
  · rw [if_neg (by omega), if_neg (by omega), if_neg (by omega), if_pos (by omega)]

theorem lbu_sw_frame (m : Mem) (a : Int) (v : Nat) (j : Int) (h : j < a ∨ a + 4 ≤ j) :
    lbu (sw m a v) j = lbu m j := by
  unfold lbu; rw [sw_frame m a v j h]

theorem lbu_sw_lw (m f : Mem) (a b j : Int) :
    lbu (sw m a (lw f b)) j = if a ≤ j ∧ j < a + 4 then lbu f (b + (j - a)) else lbu m j := by
  by_cases h : a ≤ j ∧ j < a + 4
  · rw [if_pos h]
    obtain ⟨r, hr⟩ : ∃ r : Nat, j = a + (r : Int) := ⟨(j - a).toNat, by omega⟩
    subst hr
    rw [lbu_sw_at _ _ _ _ (by omega), byteOf_lw _ _ _ (by omega)]
    congr 1; omega
  · rw [if_neg h, lbu_sw_frame _ _ _ _ (by omega)]

theorem byteOf_zero (j : Nat) : byteOf j 0 = 0 := by simp [byteOf]

theorem byteOf_inv_word (t0 : Nat) (j : Nat) (hj : j < 4) :
    byteOf j (aes32dsmi (aes32dsmi (aes32dsmi (aes32dsmi 0
        (aes32esi (aes32esi (aes32esi (aes32esi 0 t0 0) t0 1) t0 2) t0 3) 0)
        (aes32esi (aes32esi (aes32esi (aes32esi 0 t0 0) t0 1) t0 2) t0 3) 1)
        (aes32esi (aes32esi (aes32esi (aes32esi 0 t0 0) t0 1) t0 2) t0 3) 2)
        (aes32esi (aes32esi (aes32esi (aes32esi 0 t0 0) t0 1) t0 2) t0 3) 3)
      = gf_mul 0x0e (byteOf j t0) ^^^ gf_mul 0x0b (byteOf ((j + 1) % 4) t0) ^^^
          gf_mul 0x0d (byteOf ((j + 2) % 4) t0) ^^^ gf_mul 0x09 (byteOf ((j + 3) % 4) t0) := by
  have h0 : (0:Nat) < 4 := by decide
  have h1 : (1:Nat) < 4 := by decide
  have h2 : (2:Nat) < 4 := by decide
  have h3 : (3:Nat) < 4 := by decide
  have s := fun x => aes_sbox_inv_fwd (byteOf x t0) (byteOf_lt _ _)
  interval_cases j <;>
    simp [byteOf_aes32dsmi, byteOf_aes32esi, h0, h1, h2, h3, byteOf_zero, s] <;> ac_rfl

theorem invKeyWord_eq (t0 : Nat) :
    aes32dsmi (aes32dsmi (aes32dsmi (aes32dsmi 0
        (aes32esi (aes32esi (aes32esi (aes32esi 0 t0 0) t0 1) t0 2) t0 3) 0)
        (aes32esi (aes32esi (aes32esi (aes32esi 0 t0 0) t0 1) t0 2) t0 3) 1)
        (aes32esi (aes32esi (aes32esi (aes32esi 0 t0 0) t0 1) t0 2) t0 3) 2)
        (aes32esi (aes32esi (aes32esi (aes32esi 0 t0 0) t0 1) t0 2) t0 3) 3 = invKeyWord t0 := rfl

theorem invMixByte_sw_lw (f : Mem) (a : Int) (r : Nat) (hr : r < 4) :
    byteOf r (invKeyWord (lw f a)) = invMixByte f a r := by
  rw [← invKeyWord_eq, byteOf_inv_word _ _ hr, byteOf_lw _ _ _ hr, byteOf_lw _ _ _ (Nat.mod_lt _ (by decide)),
    byteOf_lw _ _ _ (Nat.mod_lt _ (by decide)), byteOf_lw _ _ _ (Nat.mod_lt _ (by decide))]
  rfl

theorem invMixByte_congr (f g : Mem) (p : Int) (r : Nat) (hr : r < 4)
    (h : ∀ j : Int, p ≤ j → j < p + 4 → lbu f j = lbu g j) : invMixByte f p r = invMixByte g p r := by
  unfold invMixByte
  rw [h _ (by omega) (by omega), h _ (by omega) (by omega), h _ (by omega) (by omega),
    h _ (by omega) (by omega)]

theorem aes_dec_ks_inv_spec :
    ∀ (n fuel : Nat) (inv fwd : Mem) (a0 a2 : Int), n + 1 ≤ fuel →
      ∃ inv' fwd', aes_dec_ks_inv fuel inv fwd a0 a2 (a2 + 4 * ((n + 1 : Nat) : Int))
          = some (inv', fwd') ∧
        (∀ j : Int, j < a0 ∨ a0 + 4 * ((n + 1 : Nat) : Int) + 16 ≤ j → inv' j = inv j) ∧
        (∀ j : Int, j < a2 ∨ a2 + 4 * ((n + 1 : Nat) : Int) ≤ j → fwd' j = fwd j) ∧
        (∀ i r : Nat, i < n + 1 → r < 4 →
          lbu inv' (a0 + 4 * (i : Int) + (r : Int)) = invMixByte fwd (a2 + 4 * (i : Int)) r ∧
          lbu fwd' (a2 + 4 * (i : Int) + (r : Int)) = invMixByte fwd (a2 + 4 * (i : Int)) r) ∧
        (∀ r : Nat, r < 16 →
          lbu inv' (a0 + 4 * ((n + 1 : Nat) : Int) + (r : Int))
            = lbu fwd (a2 + 4 * ((n + 1 : Nat) : Int) + (r : Int))) := by
  intro n
  induction n with
  | zero =>
    intro fuel inv fwd a0 a2 hf
    obtain ⟨f, rfl⟩ : ∃ f, fuel = f + 1 := ⟨fuel - 1, by omega⟩
    simp only [aes_dec_ks_inv, invKeyWord_eq]
    rw [if_neg (by push_cast; omega)]
    refine ⟨_, _, rfl, ?_, ?_, ?_, ?_⟩
    · intro j hj
      rw [sw_frame _ _ _ _ (by omega), sw_frame _ _ _ _ (by omega), sw_frame _ _ _ _ (by omega),
        sw_frame _ _ _ _ (by omega), sw_frame _ _ _ _ (by omega)]
    · intro j hj
      rw [sw_frame _ _ _ _ (by omega)]
    · intro i r hi hr
      obtain rfl : i = 0 := by omega
      constructor
      · rw [lbu_sw_lw, if_neg (by omega), lbu_sw_lw, if_neg (by omega), lbu_sw_lw,
          if_neg (by omega), lbu_sw_lw, if_neg (by omega)]
        have e : a0 + 4 * ((0 : Nat) : Int) + (r : Int) = a0 + 0 + (r : Int) := by omega
        have e' : a2 + 4 * ((0 : Nat) : Int) = a2 + 0 := by omega
        rw [e, e', lbu_sw_at _ _ _ _ hr, invMixByte_sw_lw _ _ _ hr]
      · have e : a2 + 4 * ((0 : Nat) : Int) + (r : Int) = a2 + 0 + (r : Int) := by omega
        have e' : a2 + 4 * ((0 : Nat) : Int) = a2 + 0 := by omega
        rw [e, e', lbu_sw_at _ _ _ _ hr, invMixByte_sw_lw _ _ _ hr]
    · intro r hr
      have hfr : ∀ j : Int, a2 + 4 ≤ j →
          lbu (sw fwd (a2 + 0) (invKeyWord (lw fwd (a2 + 0)))) j = lbu fwd j :=
        fun j hj => lbu_sw_frame _ _ _ _ (by omega)
      simp only [lbu_sw_lw]
      split_ifs <;> first
        | omega
        | (rw [hfr _ (by omega)]; congr 1; omega)
  | succ n ih =>
    intro fuel inv fwd a0 a2 hf
    obtain ⟨f, rfl⟩ : ∃ f, fuel = f + 1 := ⟨fuel - 1, by omega⟩
    simp only [aes_dec_ks_inv, invKeyWord_eq]
    rw [if_pos (by push_cast; omega)]
    have ha3 : a2 + 4 * ((n + 1 + 1 : Nat) : Int) = a2 + 4 + 4 * ((n + 1 : Nat) : Int) := by
      push_cast; omega
    rw [ha3]
    obtain ⟨inv', fwd', hrun, hfi, hff, hw, ht⟩ := ih f
      (sw inv (a0 + 0) (invKeyWord (lw fwd (a2 + 0))))
      (sw fwd (a2 + 0) (invKeyWord (lw fwd (a2 + 0))))
      (a0 + 4) (a2 + 4) (by omega)
    refine ⟨inv', fwd', hrun, ?_, ?_, ?_, ?_⟩
    · intro j hj
      rw [hfi j (by push_cast at hj ⊢; omega), sw_frame _ _ _ _ (by omega)]
    · intro j hj
      rw [hff j (by push_cast at hj ⊢; omega), sw_frame _ _ _ _ (by omega)]
    · intro i r hi hr
      by_cases h0 : i = 0
      · subst h0
        have e : a0 + 4 * ((0 : Nat) : Int) + (r : Int) = a0 + 0 + (r : Int) := by omega
        have e' : a2 + 4 * ((0 : Nat) : Int) = a2 + 0 := by omega
        have e2 : a2 + 4 * ((0 : Nat) : Int) + (r : Int) = a2 + 0 + (r : Int) := by omega
        constructor
        · unfold lbu
          rw [hfi _ (by omega)]
          change lbu _ _ = _
          rw [e, e', lbu_sw_at _ _ _ _ hr, invMixByte_sw_lw _ _ _ hr]
        · unfold lbu
          rw [hff _ (by omega)]
          change lbu _ _ = _
          rw [e2, e', lbu_sw_at _ _ _ _ hr, invMixByte_sw_lw _ _ _ hr]
      · obtain ⟨i', rfl⟩ : ∃ i', i = i' + 1 := ⟨i - 1, by omega⟩
        have h := hw i' r (by omega) hr
        have e : a0 + 4 * ((i' + 1 : Nat) : Int) + (r : Int) = a0 + 4 + 4 * (i' : Int) + (r : Int) := by
          push_cast; omega
        have e2 : a2 + 4 * ((i' + 1 : Nat) : Int) + (r : Int) = a2 + 4 + 4 * (i' : Int) + (r : Int) := by
          push_cast; omega
        have e' : a2 + 4 * ((i' + 1 : Nat) : Int) = a2 + 4 + 4 * (i' : Int) := by
          push_cast; omega
        rw [e, e2, e', h.1, h.2]
        have hc := invMixByte_congr (sw fwd (a2 + 0) (invKeyWord (lw fwd (a2 + 0)))) fwd (a2 + 4 + 4 * (i' : Int)) r hr
          (fun j hj1 hj2 => lbu_sw_frame fwd (a2 + 0) (invKeyWord (lw fwd (a2 + 0))) j (by omega))
        rw [hc]
        exact ⟨rfl, rfl⟩
    · intro r hr
      have e : a0 + 4 * ((n + 1 + 1 : Nat) : Int) + (r : Int)
          = a0 + 4 + 4 * ((n + 1 : Nat) : Int) + (r : Int) := by push_cast; omega
      have e2 : a2 + 4 * ((n + 1 + 1 : Nat) : Int) + (r : Int)
          = a2 + 4 + 4 * ((n + 1 : Nat) : Int) + (r : Int) := by push_cast; omega
      rw [e, ← ha3, e2, ht r hr, lbu_sw_frame _ _ _ _ (by push_cast; omega)]

theorem roundKey_getD (m : Mem) (base : Int) (r i : Nat) (hi : i < 16) :
    (roundKey m base r).getD i 0 = lbu m (base + 16 * (r : Int) + (i : Int)) := by
  unfold roundKey
  rw [List.getD_eq_getElem _ _ (by simpa using hi)]
  simp

theorem InvMixColumns_roundKey (m : Mem) (base : Int) (r : Nat) :
    InvMixColumns (roundKey m base r)
      = (List.range 16).map
          (fun (i : Nat) => invMixByte m (base + 16 * (r : Int) + 4 * ((i / 4 : Nat) : Int)) (i % 4)) := by
  unfold InvMixColumns
  apply List.map_congr_left
  intro i hi
  have hi : i < 16 := List.mem_range.mp hi
  simp only []
  rw [roundKey_getD _ _ _ _ (by omega), roundKey_getD _ _ _ _ (by omega),
    roundKey_getD _ _ _ _ (by omega), roundKey_getD _ _ _ _ (by omega)]
  unfold invMixByte
  have e : ∀ x : Nat, base + 16 * (r : Int) + ((4 * (i / 4) + x : Nat) : Int)
      = base + 16 * (r : Int) + 4 * ((i / 4 : Nat) : Int) + (x : Int) := by
    intro x; push_cast; omega
  rw [e, e, e, e]

theorem lbu_memcpy (dst src : Mem) (n : Nat) (j : Int) :
    lbu (memcpy dst src n) j = if 0 ≤ j ∧ j < (n : Int) then lbu src j else lbu dst j := by
  unfold memcpy lbu
  by_cases h : 0 ≤ j ∧ j < (n : Int)
  · simp only [h, and_self, if_true]; omega
  · simp only [h, if_false]

/-- Specification of the three aes_*_dec_ks wrappers after the memcpy, for nr rounds. -/
theorem dec_ks_spec (nr fuel : Nat) (hnr : 2 ≤ nr) (hf : 4 * (nr - 1) ≤ fuel)
    (invkey fwdkey : Mem) :
    ∃ inv' fwd', aes_dec_ks_inv fuel (memcpy invkey fwdkey 16) fwdkey (0 + 16) (0 + 16)
          (0 + 16 * (nr : Int)) = some (inv', fwd') ∧
      roundKey inv' 0 0 = roundKey fwdkey 0 0 ∧
      roundKey inv' 0 nr = roundKey fwdkey 0 nr ∧
      (∀ k, 1 ≤ k → k < nr → roundKey inv' 0 k = InvMixColumns (roundKey fwdkey 0 k)) ∧
      (∀ k, 1 ≤ k → k < nr → roundKey fwd' 0 k = InvMixColumns (roundKey fwdkey 0 k)) ∧
      (∀ j : Int, j < 0 ∨ 16 * ((nr + 1 : Nat) : Int) ≤ j → inv' j = invkey j) ∧
      (∀ j : Int, j < 16 ∨ 16 * (nr : Int) ≤ j → fwd' j = fwdkey j) := by
  obtain ⟨n, hn⟩ : ∃ n, 4 * (nr - 1) = n + 1 := ⟨4 * (nr - 1) - 1, by omega⟩
  obtain ⟨inv', fwd', hrun, hfi, hff, hw, ht⟩ :=
    aes_dec_ks_inv_spec n fuel (memcpy invkey fwdkey 16) fwdkey (0 + 16) (0 + 16) (by omega)
  have ea3 : (0 : Int) + 16 + 4 * ((n + 1 : Nat) : Int) = 0 + 16 * (nr : Int) := by
    rw [← hn]; push_cast; omega
  rw [ea3] at hrun
  refine ⟨inv', fwd', hrun, ?_, ?_, ?_, ?_, ?_, ?_⟩
  · unfold roundKey
    apply List.map_congr_left
    intro i hi
    have hi : i < 16 := List.mem_range.mp hi
    unfold lbu
    rw [hfi _ (by push_cast; omega)]
    change lbu _ _ = lbu _ _
    rw [lbu_memcpy, if_pos (by push_cast; omega)]
  · unfold roundKey
    apply List.map_congr_left
    intro i hi
    have hi : i < 16 := List.mem_range.mp hi
    have h := ht i hi
    have e : (0 : Int) + 16 + 4 * ((n + 1 : Nat) : Int) + (i : Int) = 0 + 16 * (nr : Int) + (i : Int) := by
      rw [ea3]
    rw [e] at h
    exact h
  · intro k hk1 hk2
    rw [InvMixColumns_roundKey]
    unfold roundKey
    apply List.map_congr_left
    intro i hi
    have hi : i < 16 := List.mem_range.mp hi
    have h := (hw (4 * (k - 1) + i / 4) (i % 4) (by omega) (by omega)).1
    have e : (0 : Int) + 16 + 4 * ((4 * (k - 1) + i / 4 : Nat) : Int) + ((i % 4 : Nat) : Int)
        = 0 + 16 * (k : Int) + (i : Int) := by push_cast; omega
    have e' : (0 : Int) + 16 + 4 * ((4 * (k - 1) + i / 4 : Nat) : Int)
        = 0 + 16 * (k : Int) + 4 * ((i / 4 : Nat) : Int) := by push_cast; omega
    rw [e, e'] at h
    exact h
  · intro k hk1 hk2
    rw [InvMixColumns_roundKey]
    unfold roundKey
    apply List.map_congr_left
    intro i hi
    have hi : i < 16 := List.mem_range.mp hi
    have h := (hw (4 * (k - 1) + i / 4) (i % 4) (by omega) (by omega)).2
    have e : (0 : Int) + 16 + 4 * ((4 * (k - 1) + i / 4 : Nat) : Int) + ((i % 4 : Nat) : Int)
        = 0 + 16 * (k : Int) + (i : Int) := by push_cast; omega
    have e' : (0 : Int) + 16 + 4 * ((4 * (k - 1) + i / 4 : Nat) : Int)
        = 0 + 16 * (k : Int) + 4 * ((i / 4 : Nat) : Int) := by push_cast; omega
    rw [e, e'] at h
    exact h
  · intro j hj
    rw [hfi j (by push_cast at hj ⊢; omega)]
    unfold memcpy
    rw [if_neg (by push_cast at hj ⊢; omega)]
  · intro j hj
    exact hff j (by push_cast at hj ⊢; omega)

theorem mbedtls_aeszkn_inverse_key_spec (bits nr fuel : Nat)
    (hb : (bits = 128 ∧ nr = 10) ∨ (bits = 192 ∧ nr = 12) ∨ (bits = 256 ∧ nr = 14))
    (hf : 4 * (nr - 1) ≤ fuel) (invkey fwdkey : Mem) :
    ∃ inv' fwd', mbedtls_aeszkn_inverse_key fuel invkey fwdkey bits = some (inv', fwd') ∧
      roundKey inv' 0 0 = roundKey fwdkey 0 0 ∧
      roundKey inv' 0 nr = roundKey fwdkey 0 nr ∧
      (∀ k, 1 ≤ k → k < nr → roundKey inv' 0 k = InvMixColumns (roundKey fwdkey 0 k)) ∧
      (∀ k, 1 ≤ k → k < nr → roundKey fwd' 0 k = InvMixColumns (roundKey fwdkey 0 k)) ∧
      (∀ j : Int, j < 0 ∨ 16 * ((nr + 1 : Nat) : Int) ≤ j → inv' j = invkey j) ∧
      (∀ j : Int, j < 16 ∨ 16 * (nr : Int) ≤ j → fwd' j = fwdkey j) := by
  have h := dec_ks_spec nr fuel (by omega) hf invkey fwdkey
  rcases hb with ⟨rfl, rfl⟩ | ⟨rfl, rfl⟩ | ⟨rfl, rfl⟩
  · simpa [mbedtls_aeszkn_inverse_key, aes_128_dec_ks] using h
  · simpa [mbedtls_aeszkn_inverse_key, aes_192_dec_ks] using h
  · simpa [mbedtls_aeszkn_inverse_key, aes_256_dec_ks] using h

/-! ## Key expansion -/

theorem ror8_eq (a5 : Nat) (h : a5 < 2 ^ 32) :
    slli a5 (32 - 8) ||| srli a5 8
      = byteOf 1 a5 + 2 ^ 8 * byteOf 2 a5 + 2 ^ 16 * byteOf 3 a5 + 2 ^ 24 * byteOf 0 a5 := by
  unfold slli srli
  rw [Nat.shiftLeft_eq, Nat.shiftRight_eq_div_pow]
  have e1 : a5 * 2 ^ (32 - 8) % 2 ^ 32 = 2 ^ 24 * (a5 % 256) := by omega
  rw [e1, ← Nat.mul_add_lt_is_or (by omega)]
  unfold byteOf
  omega

theorem byteOf_ror8 (a5 : Nat) (h : a5 < 2 ^ 32) (j : Nat) (hj : j < 4) :
    byteOf j (slli a5 (32 - 8) ||| srli a5 8) = byteOf ((j + 1) % 4) a5 := by
  rw [ror8_eq a5 h]
  have := byteOf_pack (byteOf 1 a5) (byteOf 2 a5) (byteOf 3 a5) (byteOf 0 a5)
    (byteOf_lt _ _) (byteOf_lt _ _) (byteOf_lt _ _) (byteOf_lt _ _)
  interval_cases j <;>
      first | exact this.1 | exact this.2.1 | exact this.2.2.1 | exact this.2.2.2

theorem wordBytes_xor (a b : Nat) : wordBytes (a ^^^ b) = xorBytes (wordBytes a) (wordBytes b) := by
  simp [wordBytes, xorBytes, byteOf_xor]

theorem wordBytes_rot_sub (a2 t2 a5 : Nat) (ht : t2 < 256) (h5 : a5 < 2 ^ 32) :
    wordBytes (aes32esi (aes32esi (aes32esi (aes32esi (a2 ^^^ t2)
        (slli a5 (32 - 8) ||| srli a5 8) 0) (slli a5 (32 - 8) ||| srli a5 8) 1)
        (slli a5 (32 - 8) ||| srli a5 8) 2) (slli a5 (32 - 8) ||| srli a5 8) 3)
      = xorBytes (wordBytes a2)
          (xorBytes (SubWord (RotWord (wordBytes a5))) [t2, 0, 0, 0]) := by
  have h0 : (0:Nat) < 4 := by decide
  have h1 : (1:Nat) < 4 := by decide
  have h2 : (2:Nat) < 4 := by decide
  have h3 : (3:Nat) < 4 := by decide
  simp only [wordBytes, byteOf_aes32esi, h0, h1, h2, h3, byteOf_ror8 a5 h5, byteOf_xor,
    byteOf_small t2 _ ht]
  simp [xorBytes, SubWord, RotWord]
  ac_rfl

theorem wordBytes_sub (a7 a5 : Nat) :
    wordBytes (aes32esi (aes32esi (aes32esi (aes32esi a7 a5 0) a5 1) a5 2) a5 3)
      = xorBytes (wordBytes a7) (SubWord (wordBytes a5)) := by
  have h0 : (0:Nat) < 4 := by decide
  have h1 : (1:Nat) < 4 := by decide
  have h2 : (2:Nat) < 4 := by decide
  have h3 : (3:Nat) < 4 := by decide
  simp only [wordBytes, byteOf_aes32esi, h0, h1, h2, h3]
  simp [xorBytes, SubWord]

theorem rol32_lt (x n : Nat) : rol32 x n < 2 ^ 32 := by
  unfold rol32; exact Nat.mod_lt _ (by decide)

theorem aes32esi_lt (rs1 rs2 bs : Nat) (h : rs1 < 2 ^ 32) : aes32esi rs1 rs2 bs < 2 ^ 32 := by
  unfold aes32esi
  exact xor_lt_32 h (rol32_lt _ _)

theorem bytes4_sw_at (m : Mem) (a : Int) (v : Nat) : bytes4 (sw m a v) a = wordBytes v := by
  have h0 := lbu_sw_at m a v 0 (by decide)
  have h1 := lbu_sw_at m a v 1 (by decide)
  have h2 := lbu_sw_at m a v 2 (by decide)
  have h3 := lbu_sw_at m a v 3 (by decide)
  simp only [Nat.cast_zero, Int.add_zero, Nat.cast_one, Nat.cast_ofNat] at h0 h1 h2 h3
  simp only [bytes4, wordBytes, h0, h1, h2, h3]

theorem bytes4_congr (f g : Mem) (p : Int)
    (h : ∀ j : Int, p ≤ j → j < p + 4 → f j = g j) : bytes4 f p = bytes4 g p := by
  unfold bytes4 lbu
  rw [h _ (by omega) (by omega), h _ (by omega) (by omega), h _ (by omega) (by omega),
    h _ (by omega) (by omega)]

theorem bytes4_sw_frame (m : Mem) (a : Int) (v : Nat) (p : Int) (h : p + 4 ≤ a ∨ a + 4 ≤ p) :
    bytes4 (sw m a v) p = bytes4 m p :=
  bytes4_congr _ _ _ (fun j h1 h2 => sw_frame m a v j (by omega))

theorem bytes4_lw (m : Mem) (a : Int) : wordBytes (lw m a) = bytes4 m a := wordBytes_lw m a

theorem aes_128_enc_ks_l0_spec (rc : Mem) :
    ∀ (n fuel : Nat) (rk : Mem) (r : Nat × Nat × Nat × Nat) (a6 t1 : Int), n + 1 ≤ fuel →
      ∃ rk', aes_128_enc_ks_l0 fuel rk rc r.1 r.2.1 r.2.2.1 r.2.2.2 a6 (a6 + 16 * (n : Int)) t1
          = some rk' ∧
        (∀ j : Int, j < a6 ∨ a6 + 16 * ((n + 1 : Nat) : Int) ≤ j → rk' j = rk j) ∧
        (∀ k, k ≤ n →
          bytes4 rk' (a6 + 16 * (k : Int)) = wordBytes (ks128_regs rc t1 r k).1 ∧
          bytes4 rk' (a6 + 16 * (k : Int) + 4) = wordBytes (ks128_regs rc t1 r k).2.1 ∧
          bytes4 rk' (a6 + 16 * (k : Int) + 8) = wordBytes (ks128_regs rc t1 r k).2.2.1 ∧
          bytes4 rk' (a6 + 16 * (k : Int) + 12) = wordBytes (ks128_regs rc t1 r k).2.2.2) := by
  intro n
  induction n with
  | zero =>
    intro fuel rk r a6 t1 hf
    obtain ⟨f, rfl⟩ : ∃ f, fuel = f + 1 := ⟨fuel - 1, by omega⟩
    simp only [aes_128_enc_ks_l0]
    rw [if_pos (by push_cast; omega)]
    refine ⟨_, rfl, ?_, ?_⟩
    · intro j hj
      rw [sw_frame _ _ _ _ (by omega), sw_frame _ _ _ _ (by omega), sw_frame _ _ _ _ (by omega),
        sw_frame _ _ _ _ (by omega)]
    · intro k hk
      obtain rfl : k = 0 := by omega
      have e : a6 + 16 * ((0 : Nat) : Int) = a6 + 0 := by omega
      have e4 : a6 + 16 * ((0 : Nat) : Int) + 4 = a6 + 4 := by omega
      have e8 : a6 + 16 * ((0 : Nat) : Int) + 8 = a6 + 8 := by omega
      have e12 : a6 + 16 * ((0 : Nat) : Int) + 12 = a6 + 12 := by omega
      rw [e4, e8, e12, e]
      simp only [ks128_regs]
      refine ⟨?_, ?_, ?_, ?_⟩
      · rw [bytes4_sw_frame _ _ _ _ (by omega), bytes4_sw_frame _ _ _ _ (by omega),
          bytes4_sw_frame _ _ _ _ (by omega), bytes4_sw_at]
      · rw [bytes4_sw_frame _ _ _ _ (by omega), bytes4_sw_frame _ _ _ _ (by omega),
          bytes4_sw_at]
      · rw [bytes4_sw_frame _ _ _ _ (by omega), bytes4_sw_at]
      · rw [bytes4_sw_at]
  | succ n ih =>
    intro fuel rk r a6 t1 hf
    obtain ⟨f, rfl⟩ : ∃ f, fuel = f + 1 := ⟨fuel - 1, by omega⟩
    simp only [aes_128_enc_ks_l0]
    rw [if_neg (by push_cast; omega)]
    have ht0 : a6 + 16 * ((n + 1 : Nat) : Int) = a6 + 16 + 16 * (n : Int) := by push_cast; omega
    rw [ht0]
    obtain ⟨rk', hrun, hfr, hw⟩ := ih f
      (sw (sw (sw (sw rk (a6 + 0) r.1) (a6 + 4) r.2.1) (a6 + 8) r.2.2.1) (a6 + 12) r.2.2.2)
      (ks128_step (lbu rc (t1 + 0)) r) (a6 + 16) (t1 + 4) (by omega)
    refine ⟨rk', hrun, ?_, ?_⟩
    · intro j hj
      rw [hfr j (by push_cast at hj ⊢; omega), sw_frame _ _ _ _ (by omega),
        sw_frame _ _ _ _ (by omega), sw_frame _ _ _ _ (by omega), sw_frame _ _ _ _ (by omega)]
    · intro k hk
      by_cases h0 : k = 0
      · subst h0
        have e : a6 + 16 * ((0 : Nat) : Int) = a6 + 0 := by omega
        have e4 : a6 + 16 * ((0 : Nat) : Int) + 4 = a6 + 4 := by omega
        have e8 : a6 + 16 * ((0 : Nat) : Int) + 8 = a6 + 8 := by omega
        have e12 : a6 + 16 * ((0 : Nat) : Int) + 12 = a6 + 12 := by omega
        rw [e4, e8, e12, e]
        simp only [ks128_regs]
        refine ⟨?_, ?_, ?_, ?_⟩
        · rw [bytes4_congr rk' _ _ (fun j h1 h2 => hfr j (by omega)),
            bytes4_sw_frame _ _ _ _ (by omega), bytes4_sw_frame _ _ _ _ (by omega),
            bytes4_sw_frame _ _ _ _ (by omega), bytes4_sw_at]
        · rw [bytes4_congr rk' _ _ (fun j h1 h2 => hfr j (by omega)),
            bytes4_sw_frame _ _ _ _ (by omega), bytes4_sw_frame _ _ _ _ (by omega),
            bytes4_sw_at]
        · rw [bytes4_congr rk' _ _ (fun j h1 h2 => hfr j (by omega)),
            bytes4_sw_frame _ _ _ _ (by omega), bytes4_sw_at]
        · rw [bytes4_congr rk' _ _ (fun j h1 h2 => hfr j (by omega)), bytes4_sw_at]
      · obtain ⟨k', rfl⟩ : ∃ k', k = k' + 1 := ⟨k - 1, by omega⟩
        have h := hw k' (by omega)
        have e : a6 + 16 * ((k' + 1 : Nat) : Int) = a6 + 16 + 16 * (k' : Int) := by
          push_cast; omega
        rw [e]
        exact h

theorem lbu_of_isStdRc (rc : Mem) (h : IsStdRc rc) (k : Nat) (hk : k < 10) :
    lbu rc (4 * (k : Int)) = rconValues.getD k 0 ∧ [lbu rc (4 * (k : Int)), 0, 0, 0] = Rcon (k + 1) := by
  have h1 := h k hk
  have hb : rconValues.getD k 0 < 256 := by
    interval_cases k <;> decide
  have e : lbu rc (4 * (k : Int)) = rconValues.getD k 0 := by
    have h0 := lbu_lt rc (4 * (k : Int))
    have h1' := lbu_lt rc (4 * (k : Int) + 1)
    have h2 := lbu_lt rc (4 * (k : Int) + 2)
    have h3 := lbu_lt rc (4 * (k : Int) + 3)
    unfold lw at h1
    omega
  refine ⟨e, ?_⟩
  rw [e]
  rfl

set_option maxRecDepth 100000 in
theorem isStdRc_round_constants : IsStdRc round_constants := by
  intro k hk
  interval_cases k <;> decide

theorem ks128_regs_succ (rc : Mem) :
    ∀ (k : Nat) (t1 : Int) (r : Nat × Nat × Nat × Nat),
      ks128_regs rc t1 r (k + 1) = ks128_step (lbu rc (t1 + 4 * (k : Int))) (ks128_regs rc t1 r k) := by
  intro k
  induction k with
  | zero =>
    intro t1 r
    simp [ks128_regs]
  | succ k ih =>
    intro t1 r
    have e := ih (t1 + 4) (ks128_step (lbu rc (t1 + 0)) r)
    have ea : t1 + 4 + 4 * (k : Int) = t1 + 4 * ((k + 1 : Nat) : Int) := by push_cast; omega
    rw [ea] at e
    exact e

theorem ks128_step_lt (t2 : Nat) (ht : t2 < 256) (r : Nat × Nat × Nat × Nat)
    (h : r.1 < 2 ^ 32 ∧ r.2.1 < 2 ^ 32 ∧ r.2.2.1 < 2 ^ 32 ∧ r.2.2.2 < 2 ^ 32) :
    (ks128_step t2 r).1 < 2 ^ 32 ∧ (ks128_step t2 r).2.1 < 2 ^ 32 ∧
      (ks128_step t2 r).2.2.1 < 2 ^ 32 ∧ (ks128_step t2 r).2.2.2 < 2 ^ 32 := by
  obtain ⟨h2, h3, h4, h5⟩ := h
  have ht' : t2 < 2 ^ 32 := by omega
  have g2 : (ks128_step t2 r).1 < 2 ^ 32 :=
    aes32esi_lt _ _ _ (aes32esi_lt _ _ _ (aes32esi_lt _ _ _ (aes32esi_lt _ _ _ (xor_lt_32 h2 ht'))))
  have g3 : (ks128_step t2 r).2.1 < 2 ^ 32 := xor_lt_32 h3 g2
  have g4 : (ks128_step t2 r).2.2.1 < 2 ^ 32 := xor_lt_32 h4 g3
  have g5 : (ks128_step t2 r).2.2.2 < 2 ^ 32 := xor_lt_32 h5 g4
  exact ⟨g2, g3, g4, g5⟩

theorem ks128_regs_lt (rc : Mem) :
    ∀ (k : Nat) (t1 : Int) (r : Nat × Nat × Nat × Nat),
      (r.1 < 2 ^ 32 ∧ r.2.1 < 2 ^ 32 ∧ r.2.2.1 < 2 ^ 32 ∧ r.2.2.2 < 2 ^ 32) →
      (ks128_regs rc t1 r k).1 < 2 ^ 32 ∧ (ks128_regs rc t1 r k).2.1 < 2 ^ 32 ∧
      (ks128_regs rc t1 r k).2.2.1 < 2 ^ 32 ∧ (ks128_regs rc t1 r k).2.2.2 < 2 ^ 32 := by
  intro k
  induction k with
  | zero => intro t1 r h; exact h
  | succ k ih =>
    intro t1 r h
    exact ih _ _ (ks128_step_lt _ (lbu_lt _ _) r h)

theorem ks128_step_words (t2 : Nat) (ht : t2 < 256) (r : Nat × Nat × Nat × Nat)
    (h5 : r.2.2.2 < 2 ^ 32) :
    wordBytes (ks128_step t2 r).1
      = xorBytes (wordBytes r.1) (xorBytes (SubWord (RotWord (wordBytes r.2.2.2))) [t2, 0, 0, 0]) ∧
    wordBytes (ks128_step t2 r).2.1
      = xorBytes (wordBytes r.2.1) (wordBytes (ks128_step t2 r).1) ∧
    wordBytes (ks128_step t2 r).2.2.1
      = xorBytes (wordBytes r.2.2.1) (wordBytes (ks128_step t2 r).2.1) ∧
    wordBytes (ks128_step t2 r).2.2.2
      = xorBytes (wordBytes r.2.2.2) (wordBytes (ks128_step t2 r).2.2.1) :=
  ⟨wordBytes_rot_sub _ _ _ ht h5, wordBytes_xor _ _, wordBytes_xor _ _, wordBytes_xor _ _⟩

theorem setkey128_spec (fuel : Nat) (hf : 11 ≤ fuel) (rk key rc : Mem) :
    ∃ rk', mbedtls_aeszkn_setkey_enc fuel rk key rc 128 = some (0, rk') ∧
      (∀ j : Int, j < 0 ∨ 176 ≤ j → rk' j = rk j) ∧
      (∀ k : Nat, k ≤ 10 →
        bytes4 rk' (16 * (k : Int)) = wordBytes
          (ks128_regs rc 0 (lw key 0, lw key 4, lw key 8, lw key 12) k).1 ∧
        bytes4 rk' (16 * (k : Int) + 4) = wordBytes
          (ks128_regs rc 0 (lw key 0, lw key 4, lw key 8, lw key 12) k).2.1 ∧
        bytes4 rk' (16 * (k : Int) + 8) = wordBytes
          (ks128_regs rc 0 (lw key 0, lw key 4, lw key 8, lw key 12) k).2.2.1 ∧
        bytes4 rk' (16 * (k : Int) + 12) = wordBytes
          (ks128_regs rc 0 (lw key 0, lw key 4, lw key 8, lw key 12) k).2.2.2) := by
  obtain ⟨rk', hrun, hfr, hw⟩ := aes_128_enc_ks_l0_spec rc 10 fuel rk
    (lw key 0, lw key 4, lw key 8, lw key 12) 0 0 (by omega)
  refine ⟨rk', ?_, ?_, ?_⟩
  · simp only [mbedtls_aeszkn_setkey_enc, aes_128_enc_ks, if_true]
    simp only [Int.zero_add, Nat.cast_ofNat] at hrun ⊢
    rw [show (16 : Int) * 10 = 160 from rfl] at hrun
    rw [hrun]
    rfl
  · intro j hj
    exact hfr j (by push_cast; omega)
  · intro k hk
    have h := hw k hk
    simp only [Int.zero_add] at h
    exact h

theorem wordAt_eq_bytes4 (m : Mem) (i : Nat) : wordAt m i = bytes4 m (4 * (i : Int)) := rfl

theorem setkey128_recurrence (fuel : Nat) (hf : 11 ≤ fuel) (rk key rc : Mem) (hrc : IsStdRc rc) :
    ∃ rk', mbedtls_aeszkn_setkey_enc fuel rk key rc 128 = some (0, rk') ∧
      (∀ i, i < 4 → wordAt rk' i = wordAt key i) ∧
      (∀ i, 4 ≤ i → i < 44 →
        wordAt rk' i = xorBytes (wordAt rk' (i - 4)) (keyExpTemp 4 i (wordAt rk' (i - 1)))) := by
  obtain ⟨rk', hrun, -, hw⟩ := setkey128_spec fuel hf rk key rc
  refine ⟨rk', hrun, ?_, ?_⟩
  · intro i hi
    have h := hw 0 (by omega)
    simp only [ks128_regs, Nat.cast_zero, Int.mul_zero, Int.zero_add, bytes4_lw] at h
    obtain ⟨h0, h1, h2, h3⟩ := h
    simp only [wordAt_eq_bytes4]
    interval_cases i
    · exact h0
    · exact h1
    · exact h2
    · exact h3
  · intro i h4 h44
    obtain ⟨k, j, hj, rfl, hk⟩ : ∃ k j, j < 4 ∧ i = 4 * (k + 1) + j ∧ k < 10 :=
      ⟨i / 4 - 1, i % 4, by omega, by omega, by omega⟩
    obtain ⟨p0, p1, p2, p3⟩ := hw k (by omega)
    obtain ⟨q0, q1, q2, q3⟩ := hw (k + 1) (by omega)
    rw [ks128_regs_succ, Int.zero_add] at q0 q1 q2 q3
    have hlt := ks128_regs_lt rc k 0 (lw key 0, lw key 4, lw key 8, lw key 12)
      ⟨lw_lt _ _, lw_lt _ _, lw_lt _ _, lw_lt _ _⟩
    obtain ⟨s0, s1, s2, s3⟩ := ks128_step_words (lbu rc (4 * (k : Int))) (lbu_lt _ _)
      (ks128_regs rc 0 (lw key 0, lw key 4, lw key 8, lw key 12) k) hlt.2.2.2
    have hR := (lbu_of_isStdRc rc hrc k hk).2
    rw [← p0, ← p3, hR] at s0
    rw [← p1, ← q0] at s1
    rw [← p2, ← q1] at s2
    rw [← p3, ← q2] at s3
    rw [← q0] at s0
    rw [← q1] at s1
    rw [← q2] at s2
    rw [← q3] at s3
    simp only [wordAt_eq_bytes4, keyExpTemp]
    interval_cases j
    · have e1 : (4 : Int) * ((4 * (k + 1) + 0 : Nat) : Int) = 16 * ((k + 1 : Nat) : Int) := by
        push_cast; omega
      have e2 : (4 : Int) * ((4 * (k + 1) + 0 - 4 : Nat) : Int) = 16 * (k : Int) := by
        omega
      have e3 : (4 : Int) * ((4 * (k + 1) + 0 - 1 : Nat) : Int) = 16 * (k : Int) + 12 := by
        omega
      have e4 : (4 * (k + 1) + 0) % 4 = 0 := by omega
      have e5 : (4 * (k + 1) + 0) / 4 = k + 1 := by omega
      rw [e1, e2, e3, e4, e5, if_pos rfl]
      exact s0
    · have e1 : (4 : Int) * ((4 * (k + 1) + 1 : Nat) : Int) = 16 * ((k + 1 : Nat) : Int) + 4 := by
        push_cast; omega
      have e2 : (4 : Int) * ((4 * (k + 1) + 1 - 4 : Nat) : Int) = 16 * (k : Int) + 4 := by
        omega
      have e3 : (4 : Int) * ((4 * (k + 1) + 1 - 1 : Nat) : Int) = 16 * ((k + 1 : Nat) : Int) := by
        push_cast; omega
      have e4 : (4 * (k + 1) + 1) % 4 = 1 := by omega
      rw [e1, e2, e3, e4, if_neg (by decide), if_neg (by decide)]
      exact s1
    · have e1 : (4 : Int) * ((4 * (k + 1) + 2 : Nat) : Int) = 16 * ((k + 1 : Nat) : Int) + 8 := by
        push_cast; omega
      have e2 : (4 : Int) * ((4 * (k + 1) + 2 - 4 : Nat) : Int) = 16 * (k : Int) + 8 := by
        omega
      have e3 : (4 : Int) * ((4 * (k + 1) + 2 - 1 : Nat) : Int)
          = 16 * ((k + 1 : Nat) : Int) + 4 := by push_cast; omega
      have e4 : (4 * (k + 1) + 2) % 4 = 2 := by omega
      rw [e1, e2, e3, e4, if_neg (by decide), if_neg (by decide)]
      exact s2
    · have e1 : (4 : Int) * ((4 * (k + 1) + 3 : Nat) : Int) = 16 * ((k + 1 : Nat) : Int) + 12 := by
        push_cast; omega
      have e2 : (4 : Int) * ((4 * (k + 1) + 3 - 4 : Nat) : Int) = 16 * (k : Int) + 12 := by
        omega
      have e3 : (4 : Int) * ((4 * (k + 1) + 3 - 1 : Nat) : Int)
          = 16 * ((k + 1 : Nat) : Int) + 8 := by push_cast; omega
      have e4 : (4 * (k + 1) + 3) % 4 = 3 := by omega
      rw [e1, e2, e3, e4, if_neg (by decide), if_neg (by decide)]
      exact s3

theorem aes_192_enc_ks_l0_spec (rc : Mem) :
    ∀ (n fuel : Nat) (rk : Mem) (r : Nat × Nat × Nat × Nat × Nat × Nat) (a6 t1 : Int),
      n + 1 ≤ fuel →
      ∃ rk', aes_192_enc_ks_l0 fuel rk rc r.1 r.2.1 r.2.2.1 r.2.2.2.1 r.2.2.2.2.1 r.2.2.2.2.2 a6
            (a6 + 24 * (n : Int)) t1 = some rk' ∧
        (∀ j : Int, j < a6 ∨ a6 + 24 * (n : Int) + 16 ≤ j → rk' j = rk j) ∧
        (∀ k, k ≤ n →
          bytes4 rk' (a6 + 24 * (k : Int)) = wordBytes (ks192_regs rc t1 r k).1 ∧
          bytes4 rk' (a6 + 24 * (k : Int) + 4) = wordBytes (ks192_regs rc t1 r k).2.1 ∧
          bytes4 rk' (a6 + 24 * (k : Int) + 8) = wordBytes (ks192_regs rc t1 r k).2.2.1 ∧
          bytes4 rk' (a6 + 24 * (k : Int) + 12) = wordBytes (ks192_regs rc t1 r k).2.2.2.1) ∧
        (∀ k, k < n →
          bytes4 rk' (a6 + 24 * (k : Int) + 16) = wordBytes (ks192_regs rc t1 r k).2.2.2.2.1 ∧
          bytes4 rk' (a6 + 24 * (k : Int) + 20) = wordBytes (ks192_regs rc t1 r k).2.2.2.2.2) := by
  intro n
  induction n with
  | zero =>
    intro fuel rk r a6 t1 hf
    obtain ⟨f, rfl⟩ : ∃ f, fuel = f + 1 := ⟨fuel - 1, by omega⟩
    simp only [aes_192_enc_ks_l0]
    rw [if_pos (by push_cast; omega)]
    refine ⟨_, rfl, ?_, ?_, ?_⟩
    · intro j hj
      rw [sw_frame _ _ _ _ (by omega), sw_frame _ _ _ _ (by omega), sw_frame _ _ _ _ (by omega),
        sw_frame _ _ _ _ (by omega)]
    · intro k hk
      obtain rfl : k = 0 := by omega
      have e : a6 + 24 * ((0 : Nat) : Int) = a6 + 0 := by omega
      have e4 : a6 + 24 * ((0 : Nat) : Int) + 4 = a6 + 4 := by omega
      have e8 : a6 + 24 * ((0 : Nat) : Int) + 8 = a6 + 8 := by omega
      have e12 : a6 + 24 * ((0 : Nat) : Int) + 12 = a6 + 12 := by omega
      rw [e4, e8, e12, e]
      simp only [ks192_regs]
      refine ⟨?_, ?_, ?_, ?_⟩
      · rw [bytes4_sw_frame _ _ _ _ (by omega), bytes4_sw_frame _ _ _ _ (by omega),
          bytes4_sw_frame _ _ _ _ (by omega), bytes4_sw_at]
      · rw [bytes4_sw_frame _ _ _ _ (by omega), bytes4_sw_frame _ _ _ _ (by omega),
          bytes4_sw_at]
      · rw [bytes4_sw_frame _ _ _ _ (by omega), bytes4_sw_at]
      · rw [bytes4_sw_at]
    · intro k hk
      omega
  | succ n ih =>
    intro fuel rk r a6 t1 hf
    obtain ⟨f, rfl⟩ : ∃ f, fuel = f + 1 := ⟨fuel - 1, by omega⟩
    simp only [aes_192_enc_ks_l0]
    rw [if_neg (by push_cast; omega)]
    have ht0 : a6 + 24 * ((n + 1 : Nat) : Int) = a6 + 24 + 24 * (n : Int) := by push_cast; omega
    rw [ht0]
    obtain ⟨rk', hrun, hfr, hw, hw2⟩ := ih f
      (sw (sw (sw (sw (sw (sw rk (a6 + 0) r.1) (a6 + 4) r.2.1) (a6 + 8) r.2.2.1) (a6 + 12)
        r.2.2.2.1) (a6 + 16) r.2.2.2.2.1) (a6 + 20) r.2.2.2.2.2)
      (ks192_step (lbu rc (t1 + 0)) r) (a6 + 24) (t1 + 4) (by omega)
    refine ⟨rk', hrun, ?_, ?_, ?_⟩
    · intro j hj
      rw [hfr j (by omega), sw_frame _ _ _ _ (by omega),
        sw_frame _ _ _ _ (by omega), sw_frame _ _ _ _ (by omega), sw_frame _ _ _ _ (by omega),
        sw_frame _ _ _ _ (by omega), sw_frame _ _ _ _ (by omega)]
    · intro k hk
      by_cases h0 : k = 0
      · subst h0
        have e : a6 + 24 * ((0 : Nat) : Int) = a6 + 0 := by omega
        have e4 : a6 + 24 * ((0 : Nat) : Int) + 4 = a6 + 4 := by omega
        have e8 : a6 + 24 * ((0 : Nat) : Int) + 8 = a6 + 8 := by omega
        have e12 : a6 + 24 * ((0 : Nat) : Int) + 12 = a6 + 12 := by omega
        rw [e4, e8, e12, e]
        simp only [ks192_regs]
        refine ⟨?_, ?_, ?_, ?_⟩
        · rw [bytes4_congr rk' _ _ (fun j h1 h2 => hfr j (by omega)),
            bytes4_sw_frame _ _ _ _ (by omega), bytes4_sw_frame _ _ _ _ (by omega),
            bytes4_sw_frame _ _ _ _ (by omega), bytes4_sw_frame _ _ _ _ (by omega),
            bytes4_sw_frame _ _ _ _ (by omega), bytes4_sw_at]
        · rw [bytes4_congr rk' _ _ (fun j h1 h2 => hfr j (by omega)),
            bytes4_sw_frame _ _ _ _ (by omega), bytes4_sw_frame _ _ _ _ (by omega),
            bytes4_sw_frame _ _ _ _ (by omega), bytes4_sw_frame _ _ _ _ (by omega),
            bytes4_sw_at]
        · rw [bytes4_congr rk' _ _ (fun j h1 h2 => hfr j (by omega)),
            bytes4_sw_frame _ _ _ _ (by omega), bytes4_sw_frame _ _ _ _ (by omega),
            bytes4_sw_frame _ _ _ _ (by omega), bytes4_sw_at]
        · rw [bytes4_congr rk' _ _ (fun j h1 h2 => hfr j (by omega)),
            bytes4_sw_frame _ _ _ _ (by omega), bytes4_sw_frame _ _ _ _ (by omega),
            bytes4_sw_at]
      · obtain ⟨k', rfl⟩ : ∃ k', k = k' + 1 := ⟨k - 1, by omega⟩
        have h := hw k' (by omega)
        have e : a6 + 24 * ((k' + 1 : Nat) : Int) = a6 + 24 + 24 * (k' : Int) := by
          push_cast; omega
        rw [e]
        exact h
    · intro k hk
      by_cases h0 : k = 0
      · subst h0
        have e16 : a6 + 24 * ((0 : Nat) : Int) + 16 = a6 + 16 := by omega
        have e20 : a6 + 24 * ((0 : Nat) : Int) + 20 = a6 + 20 := by omega
        rw [e16, e20]
        simp only [ks192_regs]
        refine ⟨?_, ?_⟩
        · rw [bytes4_congr rk' _ _ (fun j h1 h2 => hfr j (by omega)),
            bytes4_sw_frame _ _ _ _ (by omega), bytes4_sw_at]
        · rw [bytes4_congr rk' _ _ (fun j h1 h2 => hfr j (by omega)), bytes4_sw_at]
      · obtain ⟨k', rfl⟩ : ∃ k', k = k' + 1 := ⟨k - 1, by omega⟩
        have h := hw2 k' (by omega)
        have e : a6 + 24 * ((k' + 1 : Nat) : Int) = a6 + 24 + 24 * (k' : Int) := by
          push_cast; omega
        rw [e]
        exact h

theorem ks192_regs_succ (rc : Mem) :
    ∀ (k : Nat) (t1 : Int) (r : Nat × Nat × Nat × Nat × Nat × Nat),
      ks192_regs rc t1 r (k + 1) = ks192_step (lbu rc (t1 + 4 * (k : Int))) (ks192_regs rc t1 r k) := by
  intro k
  induction k with
  | zero =>
    intro t1 r
    simp [ks192_regs]
  | succ k ih =>
    intro t1 r
    have e := ih (t1 + 4) (ks192_step (lbu rc (t1 + 0)) r)
    have ea : t1 + 4 + 4 * (k : Int) = t1 + 4 * ((k + 1 : Nat) : Int) := by push_cast; omega
    rw [ea] at e
    exact e

theorem ks192_step_lt (t4 : Nat) (ht : t4 < 256) (r : Nat × Nat × Nat × Nat × Nat × Nat)
    (h : r.1 < 2 ^ 32 ∧ r.2.1 < 2 ^ 32 ∧ r.2.2.1 < 2 ^ 32 ∧ r.2.2.2.1 < 2 ^ 32 ∧
      r.2.2.2.2.1 < 2 ^ 32 ∧ r.2.2.2.2.2 < 2 ^ 32) :
    (ks192_step t4 r).1 < 2 ^ 32 ∧ (ks192_step t4 r).2.1 < 2 ^ 32 ∧
      (ks192_step t4 r).2.2.1 < 2 ^ 32 ∧ (ks192_step t4 r).2.2.2.1 < 2 ^ 32 ∧
      (ks192_step t4 r).2.2.2.2.1 < 2 ^ 32 ∧ (ks192_step t4 r).2.2.2.2.2 < 2 ^ 32 := by
  obtain ⟨h2, h3, h4, h5, h7, h8⟩ := h
  have ht' : t4 < 2 ^ 32 := by omega
  have g2 : (ks192_step t4 r).1 < 2 ^ 32 :=
    aes32esi_lt _ _ _ (aes32esi_lt _ _ _ (aes32esi_lt _ _ _ (aes32esi_lt _ _ _ (xor_lt_32 h2 ht'))))
  have g3 : (ks192_step t4 r).2.1 < 2 ^ 32 := xor_lt_32 h3 g2
  have g4 : (ks192_step t4 r).2.2.1 < 2 ^ 32 := xor_lt_32 h4 g3
  have g5 : (ks192_step t4 r).2.2.2.1 < 2 ^ 32 := xor_lt_32 h5 g4
  have g7 : (ks192_step t4 r).2.2.2.2.1 < 2 ^ 32 := xor_lt_32 h7 g5
  have g8 : (ks192_step t4 r).2.2.2.2.2 < 2 ^ 32 := xor_lt_32 h8 g7
  exact ⟨g2, g3, g4, g5, g7, g8⟩

theorem ks192_regs_lt (rc : Mem) :
    ∀ (k : Nat) (t1 : Int) (r : Nat × Nat × Nat × Nat × Nat × Nat),
      (r.1 < 2 ^ 32 ∧ r.2.1 < 2 ^ 32 ∧ r.2.2.1 < 2 ^ 32 ∧ r.2.2.2.1 < 2 ^ 32 ∧
        r.2.2.2.2.1 < 2 ^ 32 ∧ r.2.2.2.2.2 < 2 ^ 32) →
      (ks192_regs rc t1 r k).2.2.2.2.2 < 2 ^ 32 := by
  intro k
  induction k with
  | zero => intro t1 r h; exact h.2.2.2.2.2
  | succ k ih =>
    intro t1 r h
    exact ih _ _ (ks192_step_lt _ (lbu_lt _ _) r h)

theorem ks192_step_words (t4 : Nat) (ht : t4 < 256) (r : Nat × Nat × Nat × Nat × Nat × Nat)
    (h5 : r.2.2.2.2.2 < 2 ^ 32) :
    wordBytes (ks192_step t4 r).1
      = xorBytes (wordBytes r.1)
          (xorBytes (SubWord (RotWord (wordBytes r.2.2.2.2.2))) [t4, 0, 0, 0]) ∧
    wordBytes (ks192_step t4 r).2.1
      = xorBytes (wordBytes r.2.1) (wordBytes (ks192_step t4 r).1) ∧
    wordBytes (ks192_step t4 r).2.2.1
      = xorBytes (wordBytes r.2.2.1) (wordBytes (ks192_step t4 r).2.1) ∧
    wordBytes (ks192_step t4 r).2.2.2.1
      = xorBytes (wordBytes r.2.2.2.1) (wordBytes (ks192_step t4 r).2.2.1) ∧
    wordBytes (ks192_step t4 r).2.2.2.2.1
      = xorBytes (wordBytes r.2.2.2.2.1) (wordBytes (ks192_step t4 r).2.2.2.1) ∧
    wordBytes (ks192_step t4 r).2.2.2.2.2
      = xorBytes (wordBytes r.2.2.2.2.2) (wordBytes (ks192_step t4 r).2.2.2.2.1) :=
  ⟨wordBytes_rot_sub _ _ _ ht h5, wordBytes_xor _ _, wordBytes_xor _ _, wordBytes_xor _ _,
    wordBytes_xor _ _, wordBytes_xor _ _⟩

theorem setkey192_spec (fuel : Nat) (hf : 9 ≤ fuel) (rk key rc : Mem) :
    ∃ rk', mbedtls_aeszkn_setkey_enc fuel rk key rc 192 = some (0, rk') ∧
      (∀ j : Int, j < 0 ∨ 208 ≤ j → rk' j = rk j) ∧
      (∀ k : Nat, k ≤ 8 →
        bytes4 rk' (24 * (k : Int)) = wordBytes (ks192_regs rc 0
          (lw key 0, lw key 4, lw key 8, lw key 12, lw key 16, lw key 20) k).1 ∧
        bytes4 rk' (24 * (k : Int) + 4) = wordBytes (ks192_regs rc 0
          (lw key 0, lw key 4, lw key 8, lw key 12, lw key 16, lw key 20) k).2.1 ∧
        bytes4 rk' (24 * (k : Int) + 8) = wordBytes (ks192_regs rc 0
          (lw key 0, lw key 4, lw key 8, lw key 12, lw key 16, lw key 20) k).2.2.1 ∧
        bytes4 rk' (24 * (k : Int) + 12) = wordBytes (ks192_regs rc 0
          (lw key 0, lw key 4, lw key 8, lw key 12, lw key 16, lw key 20) k).2.2.2.1) ∧
      (∀ k : Nat, k < 8 →
        bytes4 rk' (24 * (k : Int) + 16) = wordBytes (ks192_regs rc 0
          (lw key 0, lw key 4, lw key 8, lw key 12, lw key 16, lw key 20) k).2.2.2.2.1 ∧
        bytes4 rk' (24 * (k : Int) + 20) = wordBytes (ks192_regs rc 0
          (lw key 0, lw key 4, lw key 8, lw key 12, lw key 16, lw key 20) k).2.2.2.2.2) := by
  obtain ⟨rk', hrun, hfr, hw, hw2⟩ := aes_192_enc_ks_l0_spec rc 8 fuel rk
    (lw key 0, lw key 4, lw key 8, lw key 12, lw key 16, lw key 20) 0 0 (by omega)
  refine ⟨rk', ?_, ?_, ?_, ?_⟩
  · simp only [mbedtls_aeszkn_setkey_enc, aes_192_enc_ks, if_true]
    simp only [Int.zero_add, Nat.cast_ofNat] at hrun ⊢
    rw [show (24 : Int) * 8 = 48 * 4 from rfl] at hrun
    rw [if_neg (by decide), hrun]
    rfl
  · intro j hj
    exact hfr j (by push_cast; omega)
  · intro k hk
    have h := hw k hk
    simp only [Int.zero_add] at h
    exact h
  · intro k hk
    have h := hw2 k hk
    simp only [Int.zero_add] at h
    exact h

theorem setkey192_recurrence (fuel : Nat) (hf : 9 ≤ fuel) (rk key rc : Mem) (hrc : IsStdRc rc) :
    ∃ rk', mbedtls_aeszkn_setkey_enc fuel rk key rc 192 = some (0, rk') ∧
      (∀ i, i < 6 → wordAt rk' i = wordAt key i) ∧
      (∀ i, 6 ≤ i → i < 52 →
        wordAt rk' i = xorBytes (wordAt rk' (i - 6)) (keyExpTemp 6 i (wordAt rk' (i - 1)))) := by
  obtain ⟨rk', hrun, -, hw, hw2⟩ := setkey192_spec fuel hf rk key rc
  refine ⟨rk', hrun, ?_, ?_⟩
  · intro i hi
    have h := hw 0 (by omega)
    have h' := hw2 0 (by omega)
    simp only [ks192_regs, Nat.cast_zero, Int.mul_zero, Int.zero_add, bytes4_lw] at h h'
    obtain ⟨h0, h1, h2, h3⟩ := h
    obtain ⟨h4, h5⟩ := h'
    simp only [wordAt_eq_bytes4]
    interval_cases i
    · exact h0
    · exact h1
    · exact h2
    · exact h3
    · exact h4
    · exact h5
  · intro i h6 h52
    obtain ⟨k, j, hj, rfl, hk⟩ : ∃ k j, j < 6 ∧ i = 6 * (k + 1) + j ∧ k < 8 :=
      ⟨i / 6 - 1, i % 6, by omega, by omega, by omega⟩
    obtain ⟨p0, p1, p2, p3⟩ := hw k (by omega)
    obtain ⟨p4, p5⟩ := hw2 k (by omega)
    obtain ⟨q0, q1, q2, q3⟩ := hw (k + 1) (by omega)
    rw [ks192_regs_succ, Int.zero_add] at q0 q1 q2 q3
    have hlt := ks192_regs_lt rc k 0 (lw key 0, lw key 4, lw key 8, lw key 12, lw key 16, lw key 20)
      ⟨lw_lt _ _, lw_lt _ _, lw_lt _ _, lw_lt _ _, lw_lt _ _, lw_lt _ _⟩
    obtain ⟨s0, s1, s2, s3, s4, s5⟩ := ks192_step_words (lbu rc (4 * (k : Int))) (lbu_lt _ _)
      (ks192_regs rc 0 (lw key 0, lw key 4, lw key 8, lw key 12, lw key 16, lw key 20) k) hlt
    have hR := (lbu_of_isStdRc rc hrc k (by omega)).2
    rw [← p0, ← p5, hR, ← q0] at s0
    rw [← p1, ← q0, ← q1] at s1
    rw [← p2, ← q1, ← q2] at s2
    rw [← p3, ← q2, ← q3] at s3
    rw [← p4, ← q3] at s4
    rw [← p5] at s5
    simp only [wordAt_eq_bytes4, keyExpTemp]
    interval_cases j
    · have e1 : (4 : Int) * ((6 * (k + 1) + 0 : Nat) : Int) = 24 * ((k + 1 : Nat) : Int) := by
        omega
      have e2 : (4 : Int) * ((6 * (k + 1) + 0 - 6 : Nat) : Int) = 24 * (k : Int) := by
        omega
      have e3 : (4 : Int) * ((6 * (k + 1) + 0 - 1 : Nat) : Int) = 24 * (k : Int) + 20 := by
        omega
      have e4 : (6 * (k + 1) + 0) % 6 = 0 := by omega
      have e5 : (6 * (k + 1) + 0) / 6 = k + 1 := by omega
      rw [e1, e2, e3, e4, e5, if_pos rfl]
      exact s0
    · have e1 : (4 : Int) * ((6 * (k + 1) + 1 : Nat) : Int) = 24 * ((k + 1 : Nat) : Int) + 4 := by
        omega
      have e2 : (4 : Int) * ((6 * (k + 1) + 1 - 6 : Nat) : Int) = 24 * (k : Int) + 4 := by
        omega
      have e3 : (4 : Int) * ((6 * (k + 1) + 1 - 1 : Nat) : Int) = 24 * ((k + 1 : Nat) : Int) := by
        omega
      have e4 : (6 * (k + 1) + 1) % 6 = 1 := by omega
      rw [e1, e2, e3, e4, if_neg (by decide), if_neg (by decide)]
      exact s1
    · have e1 : (4 : Int) * ((6 * (k + 1) + 2 : Nat) : Int) = 24 * ((k + 1 : Nat) : Int) + 8 := by
        omega
      have e2 : (4 : Int) * ((6 * (k + 1) + 2 - 6 : Nat) : Int) = 24 * (k : Int) + 8 := by
        omega
      have e3 : (4 : Int) * ((6 * (k + 1) + 2 - 1 : Nat) : Int) = 24 * ((k + 1 : Nat) : Int) + 4 := by
        omega
      have e4 : (6 * (k + 1) + 2) % 6 = 2 := by omega
      rw [e1, e2, e3, e4, if_neg (by decide), if_neg (by decide)]
      exact s2
    · have e1 : (4 : Int) * ((6 * (k + 1) + 3 : Nat) : Int) = 24 * ((k + 1 : Nat) : Int) + 12 := by
        omega
      have e2 : (4 : Int) * ((6 * (k + 1) + 3 - 6 : Nat) : Int) = 24 * (k : Int) + 12 := by
        omega
      have e3 : (4 : Int) * ((6 * (k + 1) + 3 - 1 : Nat) : Int) = 24 * ((k + 1 : Nat) : Int) + 8 := by
        omega
      have e4 : (6 * (k + 1) + 3) % 6 = 3 := by omega
      rw [e1, e2, e3, e4, if_neg (by decide), if_neg (by decide)]
      exact s3
    · have e1 : (4 : Int) * ((6 * (k + 1) + 4 : Nat) : Int) = 24 * ((k + 1 : Nat) : Int) + 16 := by
        omega
      have e2 : (4 : Int) * ((6 * (k + 1) + 4 - 6 : Nat) : Int) = 24 * (k : Int) + 16 := by
        omega
      have e3 : (4 : Int) * ((6 * (k + 1) + 4 - 1 : Nat) : Int) = 24 * ((k + 1 : Nat) : Int) + 12 := by
        omega
      have e4 : (6 * (k + 1) + 4) % 6 = 4 := by omega
      rw [e1, e2, e3, e4, if_neg (by decide), if_neg (by decide)]
      obtain ⟨q4, q5⟩ := hw2 (k + 1) (by omega)
      rw [ks192_regs_succ, Int.zero_add] at q4 q5
      rw [← q4] at s4
      exact s4
    · have e1 : (4 : Int) * ((6 * (k + 1) + 5 : Nat) : Int) = 24 * ((k + 1 : Nat) : Int) + 20 := by
        omega
      have e2 : (4 : Int) * ((6 * (k + 1) + 5 - 6 : Nat) : Int) = 24 * (k : Int) + 20 := by
        omega
      have e3 : (4 : Int) * ((6 * (k + 1) + 5 - 1 : Nat) : Int) = 24 * ((k + 1 : Nat) : Int) + 16 := by
        omega
      have e4 : (6 * (k + 1) + 5) % 6 = 5 := by omega
      rw [e1, e2, e3, e4, if_neg (by decide), if_neg (by decide)]
      obtain ⟨q4, q5⟩ := hw2 (k + 1) (by omega)
      rw [ks192_regs_succ, Int.zero_add] at q4 q5
      rw [← q4, ← q5] at s5
      exact s5

theorem aes_256_enc_ks_l0_spec (rc : Mem) :
    ∀ (n fuel : Nat) (rk : Mem) (r : (Nat × Nat × Nat × Nat) × (Nat × Nat × Nat × Nat))
      (a6 t1 : Int), n + 1 ≤ fuel →
      ∃ rk', aes_256_enc_ks_l0 fuel rk rc r.1.1 r.1.2.1 r.1.2.2.1 r.1.2.2.2
            r.2.1 r.2.2.1 r.2.2.2.1 r.2.2.2.2 a6 (a6 + 32 * ((n + 1 : Nat) : Int)) t1 = some rk' ∧
        (∀ j : Int, j < a6 + 16 ∨ a6 + 32 * ((n + 1 : Nat) : Int) + 16 ≤ j → rk' j = rk j) ∧
        (∀ k, k ≤ n →
          bytes4 rk' (a6 + 32 * (k : Int) + 16) = wordBytes (ks256_regs rc t1 r k).2.1 ∧
          bytes4 rk' (a6 + 32 * (k : Int) + 20) = wordBytes (ks256_regs rc t1 r k).2.2.1 ∧
          bytes4 rk' (a6 + 32 * (k : Int) + 24) = wordBytes (ks256_regs rc t1 r k).2.2.2.1 ∧
          bytes4 rk' (a6 + 32 * (k : Int) + 28) = wordBytes (ks256_regs rc t1 r k).2.2.2.2) ∧
        (∀ k, k ≤ n →
          bytes4 rk' (a6 + 32 * ((k + 1 : Nat) : Int))
            = wordBytes (ks256_regs rc t1 r (k + 1)).1.1 ∧
          bytes4 rk' (a6 + 32 * ((k + 1 : Nat) : Int) + 4)
            = wordBytes (ks256_regs rc t1 r (k + 1)).1.2.1 ∧
          bytes4 rk' (a6 + 32 * ((k + 1 : Nat) : Int) + 8)
            = wordBytes (ks256_regs rc t1 r (k + 1)).1.2.2.1 ∧
          bytes4 rk' (a6 + 32 * ((k + 1 : Nat) : Int) + 12)
            = wordBytes (ks256_regs rc t1 r (k + 1)).1.2.2.2) := by
  intro n
  induction n with
  | zero =>
    intro fuel rk r a6 t1 hf
    obtain ⟨f, rfl⟩ : ∃ f, fuel = f + 1 := ⟨fuel - 1, by omega⟩
    simp only [aes_256_enc_ks_l0]
    rw [if_pos (by push_cast; omega)]
    refine ⟨_, rfl, ?_, ?_, ?_⟩
    · intro j hj
      rw [sw_frame _ _ _ _ (by push_cast at hj; omega), sw_frame _ _ _ _ (by push_cast at hj; omega),
        sw_frame _ _ _ _ (by push_cast at hj; omega), sw_frame _ _ _ _ (by push_cast at hj; omega),
        sw_frame _ _ _ _ (by push_cast at hj; omega), sw_frame _ _ _ _ (by push_cast at hj; omega),
        sw_frame _ _ _ _ (by push_cast at hj; omega), sw_frame _ _ _ _ (by push_cast at hj; omega)]
    · intro k hk
      obtain rfl : k = 0 := by omega
      have e16 : a6 + 32 * ((0 : Nat) : Int) + 16 = a6 + 16 := by omega
      have e20 : a6 + 32 * ((0 : Nat) : Int) + 20 = a6 + 20 := by omega
      have e24 : a6 + 32 * ((0 : Nat) : Int) + 24 = a6 + 24 := by omega
      have e28 : a6 + 32 * ((0 : Nat) : Int) + 28 = a6 + 28 := by omega
      rw [e16, e20, e24, e28]
      simp only [ks256_regs]
      refine ⟨?_, ?_, ?_, ?_⟩
      · rw [bytes4_sw_frame _ _ _ _ (by omega), bytes4_sw_frame _ _ _ _ (by omega),
          bytes4_sw_frame _ _ _ _ (by omega), bytes4_sw_frame _ _ _ _ (by omega),
          bytes4_sw_frame _ _ _ _ (by omega), bytes4_sw_frame _ _ _ _ (by omega),
          bytes4_sw_frame _ _ _ _ (by omega), bytes4_sw_at]
      · rw [bytes4_sw_frame _ _ _ _ (by omega), bytes4_sw_frame _ _ _ _ (by omega),
          bytes4_sw_frame _ _ _ _ (by omega), bytes4_sw_frame _ _ _ _ (by omega),
          bytes4_sw_frame _ _ _ _ (by omega), bytes4_sw_frame _ _ _ _ (by omega),
          bytes4_sw_at]
      · rw [bytes4_sw_frame _ _ _ _ (by omega), bytes4_sw_frame _ _ _ _ (by omega),
          bytes4_sw_frame _ _ _ _ (by omega), bytes4_sw_frame _ _ _ _ (by omega),
          bytes4_sw_frame _ _ _ _ (by omega), bytes4_sw_at]
      · rw [bytes4_sw_frame _ _ _ _ (by omega), bytes4_sw_frame _ _ _ _ (by omega),
          bytes4_sw_frame _ _ _ _ (by omega), bytes4_sw_frame _ _ _ _ (by omega),
          bytes4_sw_at]
    · intro k hk
      obtain rfl : k = 0 := by omega
      have e0 : a6 + 32 * ((0 + 1 : Nat) : Int) = a6 + 32 + 0 := by push_cast; omega
      have e4 : a6 + 32 * ((0 + 1 : Nat) : Int) + 4 = a6 + 32 + 4 := by push_cast; omega
      have e8 : a6 + 32 * ((0 + 1 : Nat) : Int) + 8 = a6 + 32 + 8 := by push_cast; omega
      have e12 : a6 + 32 * ((0 + 1 : Nat) : Int) + 12 = a6 + 32 + 12 := by push_cast; omega
      rw [e4, e8, e12, e0]
      simp only [ks256_regs]
      refine ⟨?_, ?_, ?_, ?_⟩
      · rw [bytes4_sw_frame _ _ _ _ (by omega), bytes4_sw_frame _ _ _ _ (by omega),
          bytes4_sw_frame _ _ _ _ (by omega), bytes4_sw_at]
        rfl
      · rw [bytes4_sw_frame _ _ _ _ (by omega), bytes4_sw_frame _ _ _ _ (by omega),
          bytes4_sw_at]
        rfl
      · rw [bytes4_sw_frame _ _ _ _ (by omega), bytes4_sw_at]
        rfl
      · rw [bytes4_sw_at]
        rfl
  | succ n ih =>
    intro fuel rk r a6 t1 hf
    obtain ⟨f, rfl⟩ : ∃ f, fuel = f + 1 := ⟨fuel - 1, by omega⟩
    simp only [aes_256_enc_ks_l0]
    rw [if_neg (by push_cast; omega)]
    have ht0 : a6 + 32 * ((n + 1 + 1 : Nat) : Int) = a6 + 32 + 32 * ((n + 1 : Nat) : Int) := by
      push_cast; omega
    rw [ht0]
    obtain ⟨rk', hrun, hfr, hw, hw2⟩ := ih f
      (sw (sw (sw (sw (sw (sw (sw (sw rk (a6 + 16) r.2.1) (a6 + 20) r.2.2.1) (a6 + 24) r.2.2.2.1)
        (a6 + 28) r.2.2.2.2)
        (a6 + 32 + 0) (ks256_stepA (lbu rc (t1 + 0)) r.1 r.2.2.2.2).1)
        (a6 + 32 + 4) (ks256_stepA (lbu rc (t1 + 0)) r.1 r.2.2.2.2).2.1)
        (a6 + 32 + 8) (ks256_stepA (lbu rc (t1 + 0)) r.1 r.2.2.2.2).2.2.1)
        (a6 + 32 + 12) (ks256_stepA (lbu rc (t1 + 0)) r.1 r.2.2.2.2).2.2.2)
      (ks256_stepA (lbu rc (t1 + 0)) r.1 r.2.2.2.2,
       ks256_stepB (ks256_stepA (lbu rc (t1 + 0)) r.1 r.2.2.2.2).2.2.2 r.2)
      (a6 + 32) (t1 + 4) (by omega)
    refine ⟨rk', hrun, ?_, ?_, ?_⟩
    · intro j hj
      rw [hfr j (by push_cast at hj ⊢; omega)]
      rw [sw_frame _ _ _ _ (by push_cast at hj; omega), sw_frame _ _ _ _ (by push_cast at hj; omega),
        sw_frame _ _ _ _ (by push_cast at hj; omega), sw_frame _ _ _ _ (by push_cast at hj; omega),
        sw_frame _ _ _ _ (by push_cast at hj; omega), sw_frame _ _ _ _ (by push_cast at hj; omega),
        sw_frame _ _ _ _ (by push_cast at hj; omega), sw_frame _ _ _ _ (by push_cast at hj; omega)]
    · intro k hk
      by_cases h0 : k = 0
      · subst h0
        have e16 : a6 + 32 * ((0 : Nat) : Int) + 16 = a6 + 16 := by omega
        have e20 : a6 + 32 * ((0 : Nat) : Int) + 20 = a6 + 20 := by omega
        have e24 : a6 + 32 * ((0 : Nat) : Int) + 24 = a6 + 24 := by omega
        have e28 : a6 + 32 * ((0 : Nat) : Int) + 28 = a6 + 28 := by omega
        rw [e16, e20, e24, e28]
        simp only [ks256_regs]
        refine ⟨?_, ?_, ?_, ?_⟩
        · rw [bytes4_congr rk' _ _ (fun j h1 h2 => hfr j (by omega)),
            bytes4_sw_frame _ _ _ _ (by omega), bytes4_sw_frame _ _ _ _ (by omega),
            bytes4_sw_frame _ _ _ _ (by omega), bytes4_sw_frame _ _ _ _ (by omega),
            bytes4_sw_frame _ _ _ _ (by omega), bytes4_sw_frame _ _ _ _ (by omega),
            bytes4_sw_frame _ _ _ _ (by omega), bytes4_sw_at]
        · rw [bytes4_congr rk' _ _ (fun j h1 h2 => hfr j (by omega)),
            bytes4_sw_frame _ _ _ _ (by omega), bytes4_sw_frame _ _ _ _ (by omega),
            bytes4_sw_frame _ _ _ _ (by omega), bytes4_sw_frame _ _ _ _ (by omega),
            bytes4_sw_frame _ _ _ _ (by omega), bytes4_sw_frame _ _ _ _ (by omega),
            bytes4_sw_at]
        · rw [bytes4_congr rk' _ _ (fun j h1 h2 => hfr j (by omega)),
            bytes4_sw_frame _ _ _ _ (by omega), bytes4_sw_frame _ _ _ _ (by omega),
            bytes4_sw_frame _ _ _ _ (by omega), bytes4_sw_frame _ _ _ _ (by omega),
            bytes4_sw_frame _ _ _ _ (by omega), bytes4_sw_at]
        · rw [bytes4_congr rk' _ _ (fun j h1 h2 => hfr j (by omega)),
            bytes4_sw_frame _ _ _ _ (by omega), bytes4_sw_frame _ _ _ _ (by omega),
            bytes4_sw_frame _ _ _ _ (by omega), bytes4_sw_frame _ _ _ _ (by omega),
            bytes4_sw_at]
      · obtain ⟨k', rfl⟩ : ∃ k', k = k' + 1 := ⟨k - 1, by omega⟩
        have h := hw k' (by omega)
        have e : a6 + 32 * ((k' + 1 : Nat) : Int) = a6 + 32 + 32 * (k' : Int) := by
          push_cast; omega
        rw [e]
        exact h
    · intro k hk
      by_cases h0 : k = 0
      · subst h0
        have e0 : a6 + 32 * ((0 + 1 : Nat) : Int) = a6 + 32 + 0 := by push_cast; omega
        have e4 : a6 + 32 * ((0 + 1 : Nat) : Int) + 4 = a6 + 32 + 4 := by push_cast; omega
        have e8 : a6 + 32 * ((0 + 1 : Nat) : Int) + 8 = a6 + 32 + 8 := by push_cast; omega
        have e12 : a6 + 32 * ((0 + 1 : Nat) : Int) + 12 = a6 + 32 + 12 := by push_cast; omega
        rw [e4, e8, e12, e0]
        simp only [ks256_regs]
        refine ⟨?_, ?_, ?_, ?_⟩
        · rw [bytes4_congr rk' _ _ (fun j h1 h2 => hfr j (by omega)),
            bytes4_sw_frame _ _ _ _ (by omega), bytes4_sw_frame _ _ _ _ (by omega),
            bytes4_sw_frame _ _ _ _ (by omega), bytes4_sw_at]
        · rw [bytes4_congr rk' _ _ (fun j h1 h2 => hfr j (by omega)),
            bytes4_sw_frame _ _ _ _ (by omega), bytes4_sw_frame _ _ _ _ (by omega),
            bytes4_sw_at]
        · rw [bytes4_congr rk' _ _ (fun j h1 h2 => hfr j (by omega)),
            bytes4_sw_frame _ _ _ _ (by omega), bytes4_sw_at]
        · rw [bytes4_congr rk' _ _ (fun j h1 h2 => hfr j (by omega)), bytes4_sw_at]
      · obtain ⟨k', rfl⟩ : ∃ k', k = k' + 1 := ⟨k - 1, by omega⟩
        have h := hw2 k' (by omega)
        have e : a6 + 32 * ((k' + 1 + 1 : Nat) : Int) = a6 + 32 + 32 * ((k' + 1 : Nat) : Int) := by
          push_cast; omega
        rw [e]
        exact h

theorem ks256_regs_succ (rc : Mem) :
    ∀ (k : Nat) (t1 : Int) (r : (Nat × Nat × Nat × Nat) × (Nat × Nat × Nat × Nat)),
      ks256_regs rc t1 r (k + 1)
        = (ks256_stepA (lbu rc (t1 + 4 * (k : Int))) (ks256_regs rc t1 r k).1
            (ks256_regs rc t1 r k).2.2.2.2,
           ks256_stepB (ks256_stepA (lbu rc (t1 + 4 * (k : Int))) (ks256_regs rc t1 r k).1
            (ks256_regs rc t1 r k).2.2.2.2).2.2.2 (ks256_regs rc t1 r k).2) := by
  intro k
  induction k with
  | zero =>
    intro t1 r
    simp [ks256_regs]
  | succ k ih =>
    intro t1 r
    have e := ih (t1 + 4) (ks256_stepA (lbu rc (t1 + 0)) r.1 r.2.2.2.2,
       ks256_stepB (ks256_stepA (lbu rc (t1 + 0)) r.1 r.2.2.2.2).2.2.2 r.2)
    have ea : t1 + 4 + 4 * (k : Int) = t1 + 4 * ((k + 1 : Nat) : Int) := by push_cast; omega
    rw [ea] at e
    exact e

theorem ks256_stepB_lt (a5 : Nat) (r : Nat × Nat × Nat × Nat)
    (h : r.1 < 2 ^ 32 ∧ r.2.1 < 2 ^ 32 ∧ r.2.2.1 < 2 ^ 32 ∧ r.2.2.2 < 2 ^ 32) :
    (ks256_stepB a5 r).1 < 2 ^ 32 ∧ (ks256_stepB a5 r).2.1 < 2 ^ 32 ∧
      (ks256_stepB a5 r).2.2.1 < 2 ^ 32 ∧ (ks256_stepB a5 r).2.2.2 < 2 ^ 32 := by
  obtain ⟨h2, h3, h4, h5⟩ := h
  have g2 : (ks256_stepB a5 r).1 < 2 ^ 32 :=
    aes32esi_lt _ _ _ (aes32esi_lt _ _ _ (aes32esi_lt _ _ _ (aes32esi_lt _ _ _ h2)))
  have g3 : (ks256_stepB a5 r).2.1 < 2 ^ 32 := xor_lt_32 h3 g2
  have g4 : (ks256_stepB a5 r).2.2.1 < 2 ^ 32 := xor_lt_32 h4 g3
  have g5 : (ks256_stepB a5 r).2.2.2 < 2 ^ 32 := xor_lt_32 h5 g4
  exact ⟨g2, g3, g4, g5⟩

theorem ks256_regs_lt (rc : Mem) :
    ∀ (k : Nat) (t1 : Int) (r : (Nat × Nat × Nat × Nat) × (Nat × Nat × Nat × Nat)),
      (r.2.1 < 2 ^ 32 ∧ r.2.2.1 < 2 ^ 32 ∧ r.2.2.2.1 < 2 ^ 32 ∧ r.2.2.2.2 < 2 ^ 32) →
      (ks256_regs rc t1 r k).2.2.2.2 < 2 ^ 32 := by
  intro k
  induction k with
  | zero => intro t1 r h; exact h.2.2.2
  | succ k ih =>
    intro t1 r h
    exact ih _ _ (ks256_stepB_lt _ r.2 h)

theorem ks256_stepA_words (t4 : Nat) (ht : t4 < 256) (r : Nat × Nat × Nat × Nat) (t2 : Nat)
    (h2 : t2 < 2 ^ 32) :
    wordBytes (ks256_stepA t4 r t2).1
      = xorBytes (wordBytes r.1) (xorBytes (SubWord (RotWord (wordBytes t2))) [t4, 0, 0, 0]) ∧
    wordBytes (ks256_stepA t4 r t2).2.1
      = xorBytes (wordBytes r.2.1) (wordBytes (ks256_stepA t4 r t2).1) ∧
    wordBytes (ks256_stepA t4 r t2).2.2.1
      = xorBytes (wordBytes r.2.2.1) (wordBytes (ks256_stepA t4 r t2).2.1) ∧
    wordBytes (ks256_stepA t4 r t2).2.2.2
      = xorBytes (wordBytes r.2.2.2) (wordBytes (ks256_stepA t4 r t2).2.2.1) :=
  ⟨wordBytes_rot_sub _ _ _ ht h2, wordBytes_xor _ _, wordBytes_xor _ _, wordBytes_xor _ _⟩

theorem ks256_stepB_words (a5 : Nat) (r : Nat × Nat × Nat × Nat) :
    wordBytes (ks256_stepB a5 r).1 = xorBytes (wordBytes r.1) (SubWord (wordBytes a5)) ∧
    wordBytes (ks256_stepB a5 r).2.1
      = xorBytes (wordBytes r.2.1) (wordBytes (ks256_stepB a5 r).1) ∧
    wordBytes (ks256_stepB a5 r).2.2.1
      = xorBytes (wordBytes r.2.2.1) (wordBytes (ks256_stepB a5 r).2.1) ∧
    wordBytes (ks256_stepB a5 r).2.2.2
      = xorBytes (wordBytes r.2.2.2) (wordBytes (ks256_stepB a5 r).2.2.1) :=
  ⟨wordBytes_sub _ _, wordBytes_xor _ _, wordBytes_xor _ _, wordBytes_xor _ _⟩

theorem setkey256_spec (fuel : Nat) (hf : 7 ≤ fuel) (rk key rc : Mem) :
    ∃ rk', mbedtls_aeszkn_setkey_enc fuel rk key rc 256 = some (0, rk') ∧
      (∀ j : Int, j < 0 ∨ 240 ≤ j → rk' j = rk j) ∧
      (∀ k : Nat, k ≤ 7 →
        bytes4 rk' (32 * (k : Int)) = wordBytes (ks256_regs rc 0
          ((lw key 0, lw key 4, lw key 8, lw key 12),
           (lw key 16, lw key 20, lw key 24, lw key 28)) k).1.1 ∧
        bytes4 rk' (32 * (k : Int) + 4) = wordBytes (ks256_regs rc 0
          ((lw key 0, lw key 4, lw key 8, lw key 12),
           (lw key 16, lw key 20, lw key 24, lw key 28)) k).1.2.1 ∧
        bytes4 rk' (32 * (k : Int) + 8) = wordBytes (ks256_regs rc 0
          ((lw key 0, lw key 4, lw key 8, lw key 12),
           (lw key 16, lw key 20, lw key 24, lw key 28)) k).1.2.2.1 ∧
        bytes4 rk' (32 * (k : Int) + 12) = wordBytes (ks256_regs rc 0
          ((lw key 0, lw key 4, lw key 8, lw key 12),
           (lw key 16, lw key 20, lw key 24, lw key 28)) k).1.2.2.2) ∧
      (∀ k : Nat, k ≤ 6 →
        bytes4 rk' (32 * (k : Int) + 16) = wordBytes (ks256_regs rc 0
          ((lw key 0, lw key 4, lw key 8, lw key 12),
           (lw key 16, lw key 20, lw key 24, lw key 28)) k).2.1 ∧
        bytes4 rk' (32 * (k : Int) + 20) = wordBytes (ks256_regs rc 0
          ((lw key 0, lw key 4, lw key 8, lw key 12),
           (lw key 16, lw key 20, lw key 24, lw key 28)) k).2.2.1 ∧
        bytes4 rk' (32 * (k : Int) + 24) = wordBytes (ks256_regs rc 0
          ((lw key 0, lw key 4, lw key 8, lw key 12),
           (lw key 16, lw key 20, lw key 24, lw key 28)) k).2.2.2.1 ∧
        bytes4 rk' (32 * (k : Int) + 28) = wordBytes (ks256_regs rc 0
          ((lw key 0, lw key 4, lw key 8, lw key 12),
           (lw key 16, lw key 20, lw key 24, lw key 28)) k).2.2.2.2) := by
  obtain ⟨rk', hrun, hfr, hw, hw2⟩ := aes_256_enc_ks_l0_spec rc 6 fuel
    (sw (sw (sw (sw rk (0 + 0) (lw key (0 + 0))) (0 + 4) (lw key (0 + 4))) (0 + 8)
      (lw key (0 + 8))) (0 + 12) (lw key (0 + 12)))
    ((lw key 0, lw key 4, lw key 8, lw key 12), (lw key 16, lw key 20, lw key 24, lw key 28))
    0 0 (by omega)
  refine ⟨rk', ?_, ?_, ?_, ?_⟩
  · simp only [mbedtls_aeszkn_setkey_enc, aes_256_enc_ks, if_true]
    rw [if_neg (by decide), if_neg (by decide)]
    have e : (0 : Int) + 32 * ((6 + 1 : Nat) : Int) = 0 + 56 * 4 := by decide
    rw [e] at hrun
    simp only [Int.zero_add] at hrun ⊢
    rw [hrun]
    rfl
  · intro j hj
    rw [hfr j (by push_cast; omega), sw_frame _ _ _ _ (by omega), sw_frame _ _ _ _ (by omega),
      sw_frame _ _ _ _ (by omega), sw_frame _ _ _ _ (by omega)]
  · intro k hk
    by_cases h0 : k = 0
    · subst h0
      simp only [ks256_regs, Nat.cast_zero, Int.mul_zero, Int.zero_add]
      have e0 : (0 : Int) = 0 + 0 := rfl
      refine ⟨?_, ?_, ?_, ?_⟩
      · rw [bytes4_congr rk' _ _ (fun j h1 h2 => hfr j (by omega)),
          bytes4_sw_frame _ _ _ _ (by omega), bytes4_sw_frame _ _ _ _ (by omega),
          bytes4_sw_frame _ _ _ _ (by omega)]
        exact bytes4_sw_at _ _ _
      · rw [bytes4_congr rk' _ _ (fun j h1 h2 => hfr j (by omega)),
          bytes4_sw_frame _ _ _ _ (by omega), bytes4_sw_frame _ _ _ _ (by omega)]
        exact bytes4_sw_at _ _ _
      · rw [bytes4_congr rk' _ _ (fun j h1 h2 => hfr j (by omega)),
          bytes4_sw_frame _ _ _ _ (by omega)]
        exact bytes4_sw_at _ _ _
      · rw [bytes4_congr rk' _ _ (fun j h1 h2 => hfr j (by omega))]
        exact bytes4_sw_at _ _ _
    · obtain ⟨k', rfl⟩ : ∃ k', k = k' + 1 := ⟨k - 1, by omega⟩
      have h := hw2 k' (by omega)
      simp only [Int.zero_add] at h
      exact h
  · intro k hk
    have h := hw k hk
    simp only [Int.zero_add] at h
    exact h

theorem setkey256_recurrence (fuel : Nat) (hf : 7 ≤ fuel) (rk key rc : Mem) (hrc : IsStdRc rc) :
    ∃ rk', mbedtls_aeszkn_setkey_enc fuel rk key rc 256 = some (0, rk') ∧
      (∀ i, i < 8 → wordAt rk' i = wordAt key i) ∧
      (∀ i, 8 ≤ i → i < 60 →
        wordAt rk' i = xorBytes (wordAt rk' (i - 8)) (keyExpTemp 8 i (wordAt rk' (i - 1)))) := by
  obtain ⟨rk', hrun, -, hw, hw2⟩ := setkey256_spec fuel hf rk key rc
  refine ⟨rk', hrun, ?_, ?_⟩
  · intro i hi
    have h := hw 0 (by omega)
    have h' := hw2 0 (by omega)
    simp only [ks256_regs, Nat.cast_zero, Int.mul_zero, Int.zero_add, bytes4_lw] at h h'
    obtain ⟨h0, h1, h2, h3⟩ := h
    obtain ⟨h4, h5, h6, h7⟩ := h'
    simp only [wordAt_eq_bytes4]
    interval_cases i
    · exact h0
    · exact h1
    · exact h2
    · exact h3
    · exact h4
    · exact h5
    · exact h6
    · exact h7
  · intro i h8 h60
    obtain ⟨k, j, hj, rfl, hk⟩ : ∃ k j, j < 8 ∧ i = 8 * (k + 1) + j ∧ k < 7 :=
      ⟨i / 8 - 1, i % 8, by omega, by omega, by omega⟩
    obtain ⟨p0, p1, p2, p3⟩ := hw k (by omega)
    obtain ⟨p4, p5, p6, p7⟩ := hw2 k (by omega)
    obtain ⟨q0, q1, q2, q3⟩ := hw (k + 1) (by omega)
    rw [ks256_regs_succ, Int.zero_add] at q0 q1 q2 q3
    have hlt := ks256_regs_lt rc k 0 ((lw key 0, lw key 4, lw key 8, lw key 12), (lw key 16, lw key 20, lw key 24, lw key 28))
      ⟨lw_lt _ _, lw_lt _ _, lw_lt _ _, lw_lt _ _⟩
    obtain ⟨s0, s1, s2, s3⟩ := ks256_stepA_words (lbu rc (4 * (k : Int))) (lbu_lt _ _)
      (ks256_regs rc 0 ((lw key 0, lw key 4, lw key 8, lw key 12), (lw key 16, lw key 20, lw key 24, lw key 28)) k).1 (ks256_regs rc 0 ((lw key 0, lw key 4, lw key 8, lw key 12), (lw key 16, lw key 20, lw key 24, lw key 28)) k).2.2.2.2 hlt
    obtain ⟨s4, s5, s6, s7⟩ := ks256_stepB_words
      (ks256_stepA (lbu rc (4 * (k : Int))) (ks256_regs rc 0 ((lw key 0, lw key 4, lw key 8, lw key 12), (lw key 16, lw key 20, lw key 24, lw key 28)) k).1
        (ks256_regs rc 0 ((lw key 0, lw key 4, lw key 8, lw key 12), (lw key 16, lw key 20, lw key 24, lw key 28)) k).2.2.2.2).2.2.2 (ks256_regs rc 0 ((lw key 0, lw key 4, lw key 8, lw key 12), (lw key 16, lw key 20, lw key 24, lw key 28)) k).2
    have hR := (lbu_of_isStdRc rc hrc k (by omega)).2
    rw [← p0, ← p7, hR] at s0
    rw [← p1] at s1
    rw [← p2] at s2
    rw [← p3] at s3
    rw [← p4] at s4
    rw [← p5] at s5
    rw [← p6] at s6
    rw [← p7] at s7
    simp only [wordAt_eq_bytes4, keyExpTemp]
    interval_cases j
    · have e1 : (4 : Int) * ((8 * (k + 1) + 0 : Nat) : Int) = 32 * ((k + 1 : Nat) : Int) := by omega
      have e2 : (4 : Int) * ((8 * (k + 1) + 0 - 8 : Nat) : Int) = 32 * (k : Int) := by omega
      have e3 : (4 : Int) * ((8 * (k + 1) + 0 - 1 : Nat) : Int) = 32 * (k : Int) + 28 := by omega
      have e4 : (8 * (k + 1) + 0) % 8 = 0 := by omega
      have e5 : (8 * (k + 1) + 0) / 8 = k + 1 := by omega
      rw [e1, e2, e3, e4, e5, if_pos rfl, q0]
      exact s0
    · have e1 : (4 : Int) * ((8 * (k + 1) + 1 : Nat) : Int) = 32 * ((k + 1 : Nat) : Int) + 4 := by omega
      have e2 : (4 : Int) * ((8 * (k + 1) + 1 - 8 : Nat) : Int) = 32 * (k : Int) + 4 := by omega
      have e3 : (4 : Int) * ((8 * (k + 1) + 1 - 1 : Nat) : Int) = 32 * ((k + 1 : Nat) : Int) := by omega
      have e4 : (8 * (k + 1) + 1) % 8 = 1 := by omega
      rw [e1, e2, e3, e4, if_neg (by decide), if_neg (by decide), q1, q0]
      exact s1
    · have e1 : (4 : Int) * ((8 * (k + 1) + 2 : Nat) : Int) = 32 * ((k + 1 : Nat) : Int) + 8 := by omega
      have e2 : (4 : Int) * ((8 * (k + 1) + 2 - 8 : Nat) : Int) = 32 * (k : Int) + 8 := by omega
      have e3 : (4 : Int) * ((8 * (k + 1) + 2 - 1 : Nat) : Int) = 32 * ((k + 1 : Nat) : Int) + 4 := by omega
      have e4 : (8 * (k + 1) + 2) % 8 = 2 := by omega
      rw [e1, e2, e3, e4, if_neg (by decide), if_neg (by decide), q2, q1]
      exact s2
    · have e1 : (4 : Int) * ((8 * (k + 1) + 3 : Nat) : Int) = 32 * ((k + 1 : Nat) : Int) + 12 := by omega
      have e2 : (4 : Int) * ((8 * (k + 1) + 3 - 8 : Nat) : Int) = 32 * (k : Int) + 12 := by omega
      have e3 : (4 : Int) * ((8 * (k + 1) + 3 - 1 : Nat) : Int) = 32 * ((k + 1 : Nat) : Int) + 8 := by omega
      have e4 : (8 * (k + 1) + 3) % 8 = 3 := by omega
      rw [e1, e2, e3, e4, if_neg (by decide), if_neg (by decide), q3, q2]
      exact s3
    · have e1 : (4 : Int) * ((8 * (k + 1) + 4 : Nat) : Int) = 32 * ((k + 1 : Nat) : Int) + 16 := by omega
      have e2 : (4 : Int) * ((8 * (k + 1) + 4 - 8 : Nat) : Int) = 32 * (k : Int) + 16 := by omega
      have e3 : (4 : Int) * ((8 * (k + 1) + 4 - 1 : Nat) : Int) = 32 * ((k + 1 : Nat) : Int) + 12 := by omega
      have e4 : (8 * (k + 1) + 4) % 8 = 4 := by omega
      obtain ⟨q4, q5, q6, q7⟩ := hw2 (k + 1) (by omega)
      rw [ks256_regs_succ, Int.zero_add] at q4 q5 q6 q7
      rw [e1, e2, e3, e4, if_neg (by decide), if_pos (by simp), q4, q3]
      exact s4
    · have e1 : (4 : Int) * ((8 * (k + 1) + 5 : Nat) : Int) = 32 * ((k + 1 : Nat) : Int) + 20 := by omega
      have e2 : (4 : Int) * ((8 * (k + 1) + 5 - 8 : Nat) : Int) = 32 * (k : Int) + 20 := by omega
      have e3 : (4 : Int) * ((8 * (k + 1) + 5 - 1 : Nat) : Int) = 32 * ((k + 1 : Nat) : Int) + 16 := by omega
      have e4 : (8 * (k + 1) + 5) % 8 = 5 := by omega
      obtain ⟨q4, q5, q6, q7⟩ := hw2 (k + 1) (by omega)
      rw [ks256_regs_succ, Int.zero_add] at q4 q5 q6 q7
      rw [e1, e2, e3, e4, if_neg (by decide), if_neg (by decide), q5, q4]
      exact s5
    · have e1 : (4 : Int) * ((8 * (k + 1) + 6 : Nat) : Int) = 32 * ((k + 1 : Nat) : Int) + 24 := by omega
      have e2 : (4 : Int) * ((8 * (k + 1) + 6 - 8 : Nat) : Int) = 32 * (k : Int) + 24 := by omega
      have e3 : (4 : Int) * ((8 * (k + 1) + 6 - 1 : Nat) : Int) = 32 * ((k + 1 : Nat) : Int) + 20 := by omega
      have e4 : (8 * (k + 1) + 6) % 8 = 6 := by omega
      obtain ⟨q4, q5, q6, q7⟩ := hw2 (k + 1) (by omega)
      rw [ks256_regs_succ, Int.zero_add] at q4 q5 q6 q7
      rw [e1, e2, e3, e4, if_neg (by decide), if_neg (by decide), q6, q5]
      exact s6
    · have e1 : (4 : Int) * ((8 * (k + 1) + 7 : Nat) : Int) = 32 * ((k + 1 : Nat) : Int) + 28 := by omega
      have e2 : (4 : Int) * ((8 * (k + 1) + 7 - 8 : Nat) : Int) = 32 * (k : Int) + 28 := by omega
      have e3 : (4 : Int) * ((8 * (k + 1) + 7 - 1 : Nat) : Int) = 32 * ((k + 1 : Nat) : Int) + 24 := by omega
      have e4 : (8 * (k + 1) + 7) % 8 = 7 := by omega
      obtain ⟨q4, q5, q6, q7⟩ := hw2 (k + 1) (by omega)
      rw [ks256_regs_succ, Int.zero_add] at q4 q5 q6 q7
      rw [e1, e2, e3, e4, if_neg (by decide), if_neg (by decide), q7, q6]
      exact s7

/-! ## Wrappers and determinacy of the written schedule -/

theorem cipherRounds_congr (w w' : Nat → List Nat) (s : List Nat) :
    ∀ n, (∀ r, r ≤ n → w r = w' r) → cipherRounds w n s = cipherRounds w' n s := by
  intro n
  induction n with
  | zero => intro _; rfl
  | succ n ih =>
    intro h
    simp only [cipherRounds]
    rw [ih (fun r hr => h r (by omega)), h (n + 1) (by omega)]

theorem Cipher_congr (nr : Nat) (w w' : Nat → List Nat) (s : List Nat)
    (h : ∀ r, r ≤ nr → w r = w' r) : Cipher nr w s = Cipher nr w' s := by
  unfold Cipher
  rw [cipherRounds_congr w w' _ (nr - 1) (fun r hr => h r (by omega)), h 0 (by omega),
    h nr (by omega)]

theorem roundKey_eq_words (m : Mem) (r : Nat) :
    roundKey m 0 r = wordAt m (4 * r) ++ wordAt m (4 * r + 1) ++ wordAt m (4 * r + 2)
      ++ wordAt m (4 * r + 3) := by
  simp only [roundKey, wordAt, List.range, List.range.loop, List.map, List.cons_append,
    List.nil_append, List.cons.injEq, and_true]
  refine ⟨?_, ?_, ?_, ?_, ?_, ?_, ?_, ?_, ?_, ?_, ?_, ?_, ?_, ?_, ?_, ?_⟩ <;>
    (congr 1; push_cast; omega)

theorem lbu_eq_of_wordAt_eq (A B : Mem) (i : Nat) (h : wordAt A i = wordAt B i) (j : Int)
    (hj : 4 * (i : Int) ≤ j ∧ j < 4 * (i : Int) + 4) : lbu A j = lbu B j := by
  simp only [wordAt, List.cons.injEq, and_true] at h
  obtain ⟨h0, h1, h2, h3⟩ := h
  obtain ⟨r, hr, rfl⟩ : ∃ r : Nat, r < 4 ∧ j = 4 * (i : Int) + (r : Int) :=
    ⟨(j - 4 * (i : Int)).toNat, by omega, by omega⟩
  interval_cases r
  · simpa using h0
  · simpa using h1
  · simpa using h2
  · simpa using h3

theorem mbedtls_aeszkn_crypt_ecb_encrypt_spec (m fuel : Nat) (ctx : mbedtls_aes_context)
    (hnr : ctx.nr = ((2 * (m + 1) : Nat) : Int)) (mode : Int) (hmode : mode ≠ MBEDTLS_AES_DECRYPT)
    (input output : Mem) (hf : m + 1 ≤ fuel) :
    ∃ out, mbedtls_aeszkn_crypt_ecb fuel ctx mode input output = some (0, out) ∧
      bytesOf out 16
        = Cipher (2 * (m + 1)) (roundKey ctx.buf (4 * (ctx.rk_offset : Int))) (bytesOf input 16) ∧
      ∀ j : Int, j < 0 ∨ 16 ≤ j → out j = output j := by
  obtain ⟨out, h1, h2, h3⟩ :=
    aes_encrypt_spec m fuel output input ctx.buf (4 * (ctx.rk_offset : Int)) hf
  refine ⟨out, ?_, h2, h3⟩
  unfold mbedtls_aeszkn_crypt_ecb
  rw [if_neg hmode, hnr, h1]
  rfl

theorem mbedtls_aeszkn_crypt_ecb_decrypt_spec (m fuel : Nat) (ctx : mbedtls_aes_context)
    (hnr : ctx.nr = ((2 * (m + 1) : Nat) : Int)) (input output : Mem) (hf : m + 1 ≤ fuel) :
    ∃ out, mbedtls_aeszkn_crypt_ecb fuel ctx MBEDTLS_AES_DECRYPT input output = some (0, out) ∧
      bytesOf out 16
        = EqInvCipher (2 * (m + 1)) (roundKey ctx.buf (4 * (ctx.rk_offset : Int)))
            (bytesOf input 16) ∧
      ∀ j : Int, j < 0 ∨ 16 ≤ j → out j = output j := by
  obtain ⟨out, h1, h2, h3⟩ :=
    aes_decrypt_spec m fuel output input ctx.buf (4 * (ctx.rk_offset : Int)) hf
  refine ⟨out, ?_, h2, h3⟩
  unfold mbedtls_aeszkn_crypt_ecb
  rw [if_pos rfl, hnr, h1]
  rfl

/-- The words written by the 128-bit expansion do not depend on the fuel or on the initial
content of the destination buffer. -/
theorem setkey128_det (fA fB : Nat) (hA : 11 ≤ fA) (hB : 11 ≤ fB) (rkA rkB key rc : Mem) :
    ∃ A B, mbedtls_aeszkn_setkey_enc fA rkA key rc 128 = some (0, A) ∧
      mbedtls_aeszkn_setkey_enc fB rkB key rc 128 = some (0, B) ∧
      (∀ j : Int, j < 0 ∨ 176 ≤ j → A j = rkA j) ∧
      ∀ i, i < 44 → wordAt A i = wordAt B i := by
  obtain ⟨A, hrA, hfA, hwA⟩ := setkey128_spec fA hA rkA key rc
  obtain ⟨B, hrB, -, hwB⟩ := setkey128_spec fB hB rkB key rc
  refine ⟨A, B, hrA, hrB, hfA, ?_⟩
  intro i hi
  obtain ⟨k, j, hj, rfl, hk⟩ : ∃ k j, j < 4 ∧ i = 4 * k + j ∧ k ≤ 10 :=
    ⟨i / 4, i % 4, by omega, by omega, by omega⟩
  obtain ⟨a0, a1, a2, a3⟩ := hwA k hk
  obtain ⟨b0, b1, b2, b3⟩ := hwB k hk
  simp only [wordAt_eq_bytes4]
  interval_cases j
  · rw [show (4 : Int) * ((4 * k + 0 : Nat) : Int) = 16 * (k : Int) by omega, a0, b0]
  · rw [show (4 : Int) * ((4 * k + 1 : Nat) : Int) = 16 * (k : Int) + 4 by omega, a1, b1]
  · rw [show (4 : Int) * ((4 * k + 2 : Nat) : Int) = 16 * (k : Int) + 8 by omega, a2, b2]
  · rw [show (4 : Int) * ((4 * k + 3 : Nat) : Int) = 16 * (k : Int) + 12 by omega, a3, b3]

theorem setkey192_det (fA fB : Nat) (hA : 9 ≤ fA) (hB : 9 ≤ fB) (rkA rkB key rc : Mem) :
    ∃ A B, mbedtls_aeszkn_setkey_enc fA rkA key rc 192 = some (0, A) ∧
      mbedtls_aeszkn_setkey_enc fB rkB key rc 192 = some (0, B) ∧
      (∀ j : Int, j < 0 ∨ 208 ≤ j → A j = rkA j) ∧
      ∀ i, i < 52 → wordAt A i = wordAt B i := by
  obtain ⟨A, hrA, hfA, hwA, hwA2⟩ := setkey192_spec fA hA rkA key rc
  obtain ⟨B, hrB, -, hwB, hwB2⟩ := setkey192_spec fB hB rkB key rc
  refine ⟨A, B, hrA, hrB, hfA, ?_⟩
  intro i hi
  obtain ⟨k, j, hj, rfl, hk⟩ : ∃ k j, j < 6 ∧ i = 6 * k + j ∧ k ≤ 8 :=
    ⟨i / 6, i % 6, by omega, by omega, by omega⟩
  obtain ⟨a0, a1, a2, a3⟩ := hwA k hk
  obtain ⟨b0, b1, b2, b3⟩ := hwB k hk
  simp only [wordAt_eq_bytes4]
  interval_cases j
  · rw [show (4 : Int) * ((6 * k + 0 : Nat) : Int) = 24 * (k : Int) by omega, a0, b0]
  · rw [show (4 : Int) * ((6 * k + 1 : Nat) : Int) = 24 * (k : Int) + 4 by omega, a1, b1]
  · rw [show (4 : Int) * ((6 * k + 2 : Nat) : Int) = 24 * (k : Int) + 8 by omega, a2, b2]
  · rw [show (4 : Int) * ((6 * k + 3 : Nat) : Int) = 24 * (k : Int) + 12 by omega, a3, b3]
  · obtain ⟨a4, a5⟩ := hwA2 k (by omega)
    obtain ⟨b4, b5⟩ := hwB2 k (by omega)
    rw [show (4 : Int) * ((6 * k + 4 : Nat) : Int) = 24 * (k : Int) + 16 by omega, a4, b4]
  · obtain ⟨a4, a5⟩ := hwA2 k (by omega)
    obtain ⟨b4, b5⟩ := hwB2 k (by omega)
    rw [show (4 : Int) * ((6 * k + 5 : Nat) : Int) = 24 * (k : Int) + 20 by omega, a5, b5]

theorem setkey256_det (fA fB : Nat) (hA : 7 ≤ fA) (hB : 7 ≤ fB) (rkA rkB key rc : Mem) :
    ∃ A B, mbedtls_aeszkn_setkey_enc fA rkA key rc 256 = some (0, A) ∧
      mbedtls_aeszkn_setkey_enc fB rkB key rc 256 = some (0, B) ∧
      (∀ j : Int, j < 0 ∨ 240 ≤ j → A j = rkA j) ∧
      ∀ i, i < 60 → wordAt A i = wordAt B i := by
  obtain ⟨A, hrA, hfA, hwA, hwA2⟩ := setkey256_spec fA hA rkA key rc
  obtain ⟨B, hrB, -, hwB, hwB2⟩ := setkey256_spec fB hB rkB key rc
  refine ⟨A, B, hrA, hrB, hfA, ?_⟩
  intro i hi
  obtain ⟨k, j, hj, rfl, hk⟩ : ∃ k j, j < 8 ∧ i = 8 * k + j ∧ k ≤ 7 :=
    ⟨i / 8, i % 8, by omega, by omega, by omega⟩
  obtain ⟨a0, a1, a2, a3⟩ := hwA k hk
  obtain ⟨b0, b1, b2, b3⟩ := hwB k hk
  simp only [wordAt_eq_bytes4]
  interval_cases j
  · rw [show (4 : Int) * ((8 * k + 0 : Nat) : Int) = 32 * (k : Int) by omega, a0, b0]
  · rw [show (4 : Int) * ((8 * k + 1 : Nat) : Int) = 32 * (k : Int) + 4 by omega, a1, b1]
  · rw [show (4 : Int) * ((8 * k + 2 : Nat) : Int) = 32 * (k : Int) + 8 by omega, a2, b2]
  · rw [show (4 : Int) * ((8 * k + 3 : Nat) : Int) = 32 * (k : Int) + 12 by omega, a3, b3]
  · obtain ⟨a4, a5, a6, a7⟩ := hwA2 k (by omega)
    obtain ⟨b4, b5, b6, b7⟩ := hwB2 k (by omega)
    rw [show (4 : Int) * ((8 * k + 4 : Nat) : Int) = 32 * (k : Int) + 16 by omega, a4, b4]
  · obtain ⟨a4, a5, a6, a7⟩ := hwA2 k (by omega)
    obtain ⟨b4, b5, b6, b7⟩ := hwB2 k (by omega)
    rw [show (4 : Int) * ((8 * k + 5 : Nat) : Int) = 32 * (k : Int) + 20 by omega, a5, b5]
  · obtain ⟨a4, a5, a6, a7⟩ := hwA2 k (by omega)
    obtain ⟨b4, b5, b6, b7⟩ := hwB2 k (by omega)
    rw [show (4 : Int) * ((8 * k + 6 : Nat) : Int) = 32 * (k : Int) + 24 by omega, a6, b6]
  · obtain ⟨a4, a5, a6, a7⟩ := hwA2 k (by omega)
    obtain ⟨b4, b5, b6, b7⟩ := hwB2 k (by omega)
    rw [show (4 : Int) * ((8 * k + 7 : Nat) : Int) = 32 * (k : Int) + 28 by omega, a7, b7]

/-- All three key sizes at once. -/
theorem setkey_det (bits nr : Nat)
    (hb : (bits = 128 ∧ nr = 10) ∨ (bits = 192 ∧ nr = 12) ∨ (bits = 256 ∧ nr = 14))
    (fA fB : Nat) (hA : 11 ≤ fA) (hB : 11 ≤ fB) (rkA rkB key rc : Mem) :
    ∃ A B, mbedtls_aeszkn_setkey_enc fA rkA key rc bits = some (0, A) ∧
      mbedtls_aeszkn_setkey_enc fB rkB key rc bits = some (0, B) ∧
      (∀ j : Int, j < 0 ∨ 16 * ((nr + 1 : Nat) : Int) ≤ j → A j = rkA j) ∧
      ∀ i, i < 4 * (nr + 1) → wordAt A i = wordAt B i := by
  rcases hb with ⟨rfl, rfl⟩ | ⟨rfl, rfl⟩ | ⟨rfl, rfl⟩
  · exact setkey128_det fA fB hA hB rkA rkB key rc
  · exact setkey192_det fA fB (by omega) (by omega) rkA rkB key rc
  · exact setkey256_det fA fB (by omega) (by omega) rkA rkB key rc

theorem roundKey_congr_words (A B : Mem) (r : Nat)
    (h : ∀ i, 4 * r ≤ i → i < 4 * r + 4 → wordAt A i = wordAt B i) :
    roundKey A 0 r = roundKey B 0 r := by
  rw [roundKey_eq_words, roundKey_eq_words, h _ (by omega) (by omega),
    h _ (by omega) (by omega), h _ (by omega) (by omega), h _ (by omega) (by omega)]

/-! ## Round trip -/

theorem keySize_even {bits nr : Nat} (h : KeySize bits nr) :
    ∃ m, nr = 2 * (m + 1) ∧ m + 1 ≤ 4 * nr ∧ 11 ≤ 4 * nr ∧ 2 ≤ nr := by
  rcases h with ⟨_, rfl⟩ | ⟨_, rfl⟩ | ⟨_, rfl⟩
  · exact ⟨4, by omega, by omega, by omega, by omega⟩
  · exact ⟨5, by omega, by omega, by omega, by omega⟩
  · exact ⟨6, by omega, by omega, by omega, by omega⟩

/-- Round trip on the embedded driver, for all three key sizes. -/
theorem round_trip_all (bits nr fuel : Nat) (hb : KeySize bits nr) (hfuel : 4 * nr ≤ fuel)
    (key rc P rk0 inv0 out0 out1 : Mem) :
    ∃ fwd C inv fwd' P',
      mbedtls_aeszkn_setkey_enc fuel rk0 key rc bits = some (0, fwd) ∧
      mbedtls_aeszkn_crypt_ecb fuel ⟨(nr : Int), 0, fwd⟩ MBEDTLS_AES_ENCRYPT P out0
        = some (0, C) ∧
      mbedtls_aeszkn_inverse_key fuel inv0 fwd bits = some (inv, fwd') ∧
      mbedtls_aeszkn_crypt_ecb fuel ⟨(nr : Int), 0, inv⟩ MBEDTLS_AES_DECRYPT C out1
        = some (0, P') ∧
      bytesOf P' 16 = bytesOf P 16 := by
  obtain ⟨m, hm, hm1, h11, h2⟩ := keySize_even hb
  obtain ⟨fwd, -, hset, -, -, -⟩ :=
    setkey_det bits nr hb fuel fuel (by omega) (by omega) rk0 rk0 key rc
  obtain ⟨C, henc, hC, -⟩ := mbedtls_aeszkn_crypt_ecb_encrypt_spec m fuel ⟨(nr : Int), 0, fwd⟩
    (by simp only [hm]) MBEDTLS_AES_ENCRYPT (by decide) P out0 (by omega)
  obtain ⟨inv, fwd', hinv, hk0, hkn, hkk, -, -, -⟩ :=
    mbedtls_aeszkn_inverse_key_spec bits nr fuel hb (by omega) inv0 fwd
  obtain ⟨P', hdec, hP, -⟩ := mbedtls_aeszkn_crypt_ecb_decrypt_spec m fuel ⟨(nr : Int), 0, inv⟩
    (by simp only [hm]) C out1 (by omega)
  refine ⟨fwd, C, inv, fwd', P', hset, henc, hinv, hdec, ?_⟩
  simp only [Nat.cast_zero, Int.mul_zero] at hC hP
  rw [hP, hC, ← hm]
  exact EqInvCipher_Cipher nr (by omega) (roundKey fwd 0) (roundKey inv 0)
    (isBlock_roundKey fwd 0) hk0 hkn hkk _ (isBlock_bytesOf P)

/-! ## Known-answer runs -/

/-- Known-answer runs: a run on zeroed buffers that yields the expected block fixes the
output for every fuel above the bound and every initial buffer content. -/
theorem kat_general (bits nr : Nat) (hb : KeySize bits nr) (key pt : Mem) (expected : List Nat)
    (hclosed : (mbedtls_aeszkn_setkey_enc 11 zeroMem key round_constants bits).bind
      (fun r => (mbedtls_aeszkn_crypt_ecb 7 ⟨(nr : Int), 0, r.2⟩ MBEDTLS_AES_ENCRYPT pt
        zeroMem).map (fun o => bytesOf o.2 16)) = some expected)
    (fuel : Nat) (hf : 11 ≤ fuel) (rk0 out0 : Mem) :
    ∃ rk' out, mbedtls_aeszkn_setkey_enc fuel rk0 key round_constants bits = some (0, rk') ∧
      mbedtls_aeszkn_crypt_ecb fuel ⟨(nr : Int), 0, rk'⟩ MBEDTLS_AES_ENCRYPT pt out0
        = some (0, out) ∧
      bytesOf out 16 = expected := by
  obtain ⟨m, hm, -, -, -⟩ := keySize_even hb
  have hm7 : m + 1 ≤ 7 := by
    rcases hb with ⟨_, rfl⟩ | ⟨_, rfl⟩ | ⟨_, rfl⟩ <;> omega
  obtain ⟨A, Z, hA, hZ, -, hw⟩ :=
    setkey_det bits nr hb fuel 11 hf (by omega) rk0 zeroMem key round_constants
  obtain ⟨out, henc, hout, -⟩ := mbedtls_aeszkn_crypt_ecb_encrypt_spec m fuel ⟨(nr : Int), 0, A⟩
    (by simp only [hm]) MBEDTLS_AES_ENCRYPT (by decide) pt out0 (by omega)
  obtain ⟨outZ, hencZ, houtZ, -⟩ := mbedtls_aeszkn_crypt_ecb_encrypt_spec m 7 ⟨(nr : Int), 0, Z⟩
    (by simp only [hm]) MBEDTLS_AES_ENCRYPT (by decide) pt zeroMem hm7
  rw [hZ] at hclosed
  simp only [Option.some_bind, hencZ, Option.map_some', Option.some.injEq] at hclosed
  refine ⟨A, out, hA, henc, ?_⟩
  rw [hout, ← hclosed, houtZ]
  simp only [Nat.cast_zero, Int.mul_zero]
  apply Cipher_congr
  intro r hr
  exact roundKey_congr_words A Z r (fun i h1 h2 => hw i (by omega))

set_option maxRecDepth 1000000 in
theorem kat128_closed :
    (mbedtls_aeszkn_setkey_enc 11 zeroMem kat_key128 round_constants 128).bind
      (fun r => (mbedtls_aeszkn_crypt_ecb 7 ⟨((10 : Nat) : Int), 0, r.2⟩ MBEDTLS_AES_ENCRYPT
        kat_plaintext zeroMem).map (fun o => bytesOf o.2 16))
    = some [0x69, 0xc4, 0xe0, 0xd8, 0x6a, 0x7b, 0x04, 0x30, 0xd8, 0xcd, 0xb7, 0x80, 0x70, 0xb4,
        0xc5, 0x5a] := by
  decide!

set_option maxRecDepth 1000000 in
theorem kat192_closed :
    (mbedtls_aeszkn_setkey_enc 11 zeroMem kat_key192 round_constants 192).bind
      (fun r => (mbedtls_aeszkn_crypt_ecb 7 ⟨((12 : Nat) : Int), 0, r.2⟩ MBEDTLS_AES_ENCRYPT
        kat_plaintext zeroMem).map (fun o => bytesOf o.2 16))
    = some [0xdd, 0xa9, 0x7c, 0xa4, 0x86, 0x4c, 0xdf, 0xe0, 0x6e, 0xaf, 0x70, 0xa0, 0xec, 0x0d,
        0x71, 0x91] := by
  decide!

set_option maxRecDepth 1000000 in
theorem kat256_closed :
    (mbedtls_aeszkn_setkey_enc 11 zeroMem kat_key256 round_constants 256).bind
      (fun r => (mbedtls_aeszkn_crypt_ecb 7 ⟨((14 : Nat) : Int), 0, r.2⟩ MBEDTLS_AES_ENCRYPT
        kat_plaintext zeroMem).map (fun o => bytesOf o.2 16))
    = some [0x8e, 0xa2, 0xb7, 0xca, 0x51, 0x67, 0x45, 0xbf, 0xea, 0xfc, 0x49, 0x90, 0x4b, 0x49,
        0x60, 0x89] := by
  decide!

/-! ## A concrete forward schedule -/

set_option maxRecDepth 1000000 in
theorem kat_schedule128_run :
    mbedtls_aeszkn_setkey_enc 11 zeroMem kat_key128 round_constants 128
      = some (0, kat_schedule128) := by
  obtain ⟨rk', h, -⟩ := setkey128_spec 11 (by decide) zeroMem kat_key128 round_constants
  unfold kat_schedule128
  rw [h]

set_option maxRecDepth 1000000 in
theorem kat_schedule128_entries :
    roundKey kat_schedule128 0 0
      = [0x00, 0x01, 0x02, 0x03, 0x04, 0x05, 0x06, 0x07, 0x08, 0x09, 0x0a, 0x0b, 0x0c, 0x0d,
          0x0e, 0x0f] ∧
    roundKey kat_schedule128 0 1
      = [0xd6, 0xaa, 0x74, 0xfd, 0xd2, 0xaf, 0x72, 0xfa, 0xda, 0xa6, 0x78, 0xf1, 0xd6, 0xab,
          0x76, 0xfe] ∧
    roundKey kat_schedule128 0 10
      = [0x13, 0x11, 0x1d, 0x7f, 0xe3, 0x94, 0x4a, 0x17, 0xf3, 0x07, 0xa7, 0x8b, 0x4d, 0x2b,
          0x30, 0xc5] := by
  decide!

set_option maxRecDepth 1000000 in
theorem kat_schedule128_entry1_images :
    InvMixColumns (roundKey kat_schedule128 0 1)
      ≠ InvMixColumns (SubBytes (roundKey kat_schedule128 0 1)) ∧
    InvMixColumns (roundKey kat_schedule128 0 1) ≠ roundKey kat_schedule128 0 1 := by
  rw [kat_schedule128_entries.2.1]
  decide!

/-! ## Round-constant reads of the key expansion -/

theorem aes_128_enc_ks_l0_rc_congr (rc rc' : Mem) (t0 : Int) :
    ∀ (fuel : Nat) (rk : Mem) (a2 a3 a4 a5 : Nat) (a6 t1 : Int),
      (∀ a ∈ aes_128_enc_ks_l0_rc_reads fuel a6 t0 t1, lbu rc a = lbu rc' a) →
      aes_128_enc_ks_l0 fuel rk rc a2 a3 a4 a5 a6 t0 t1
        = aes_128_enc_ks_l0 fuel rk rc' a2 a3 a4 a5 a6 t0 t1 := by
  intro fuel
  induction fuel with
  | zero => intros; rfl
  | succ f ih =>
    intro rk a2 a3 a4 a5 a6 t1 h
    simp only [aes_128_enc_ks_l0]
    by_cases hx : t0 = a6
    · rw [if_pos hx, if_pos hx]
    · rw [if_neg hx, if_neg hx]
      simp only [aes_128_enc_ks_l0_rc_reads, if_neg hx, List.mem_cons, forall_eq_or_imp] at h
      rw [h.1]
      exact ih _ _ _ _ _ _ _ h.2

theorem aes_192_enc_ks_l0_rc_congr (rc rc' : Mem) (t0 : Int) :
    ∀ (fuel : Nat) (rk : Mem) (a2 a3 a4 a5 a7 t5 : Nat) (a6 t1 : Int),
      (∀ a ∈ aes_192_enc_ks_l0_rc_reads fuel a6 t0 t1, lbu rc a = lbu rc' a) →
      aes_192_enc_ks_l0 fuel rk rc a2 a3 a4 a5 a7 t5 a6 t0 t1
        = aes_192_enc_ks_l0 fuel rk rc' a2 a3 a4 a5 a7 t5 a6 t0 t1 := by
  intro fuel
  induction fuel with
  | zero => intros; rfl
  | succ f ih =>
    intro rk a2 a3 a4 a5 a7 t5 a6 t1 h
    simp only [aes_192_enc_ks_l0]
    by_cases hx : t0 = a6
    · rw [if_pos hx, if_pos hx]
    · rw [if_neg hx, if_neg hx]
      simp only [aes_192_enc_ks_l0_rc_reads, if_neg hx, List.mem_cons, forall_eq_or_imp] at h
      rw [h.1]
      exact ih _ _ _ _ _ _ _ _ _ h.2

theorem aes_256_enc_ks_l0_rc_congr (rc rc' : Mem) (t0 : Int) :
    ∀ (fuel : Nat) (rk : Mem) (a2 a3 a4 a5 a7 t5 t6 t2 : Nat) (a6 t1 : Int),
      (∀ a ∈ aes_256_enc_ks_l0_rc_reads fuel a6 t0 t1, lbu rc a = lbu rc' a) →
      aes_256_enc_ks_l0 fuel rk rc a2 a3 a4 a5 a7 t5 t6 t2 a6 t0 t1
        = aes_256_enc_ks_l0 fuel rk rc' a2 a3 a4 a5 a7 t5 t6 t2 a6 t0 t1 := by
  intro fuel
  induction fuel with
  | zero => intros; rfl
  | succ f ih =>
    intro rk a2 a3 a4 a5 a7 t5 t6 t2 a6 t1 h
    simp only [aes_256_enc_ks_l0]
    simp only [aes_256_enc_ks_l0_rc_reads, List.mem_cons, forall_eq_or_imp] at h
    rw [h.1]
    by_cases hx : t0 = a6 + 32
    · rw [if_pos hx, if_pos hx]
    · rw [if_neg hx, if_neg hx]
      rw [if_neg hx] at h
      exact ih _ _ _ _ _ _ _ _ _ _ _ h.2

theorem mbedtls_aeszkn_setkey_enc_rc_congr (fuel bits : Nat) (rk key rc rc' : Mem)
    (h : ∀ a ∈ mbedtls_aeszkn_setkey_enc_rc_reads fuel bits, lbu rc a = lbu rc' a) :
    mbedtls_aeszkn_setkey_enc fuel rk key rc bits
      = mbedtls_aeszkn_setkey_enc fuel rk key rc' bits := by
  unfold mbedtls_aeszkn_setkey_enc
  unfold mbedtls_aeszkn_setkey_enc_rc_reads at h
  by_cases h1 : bits = 128
  · rw [if_pos h1] at h ⊢
    rw [if_pos h1]
    simp only [aes_128_enc_ks]
    rw [aes_128_enc_ks_l0_rc_congr rc rc' _ fuel _ _ _ _ _ _ _ h]
  · rw [if_neg h1] at h ⊢
    rw [if_neg h1]
    by_cases h2 : bits = 192
    · rw [if_pos h2] at h ⊢
      rw [if_pos h2]
      simp only [aes_192_enc_ks]
      rw [aes_192_enc_ks_l0_rc_congr rc rc' _ fuel _ _ _ _ _ _ _ _ _ h]
    · rw [if_neg h2] at h ⊢
      rw [if_neg h2]
      by_cases h3 : bits = 256
      · rw [if_pos h3] at h ⊢
        rw [if_pos h3]
        simp only [aes_256_enc_ks]
        rw [aes_256_enc_ks_l0_rc_congr rc rc' _ fuel _ _ _ _ _ _ _ _ _ _ _ h]
      · rw [if_neg h3, if_neg h3]

theorem rc_reads_128 (f : Nat) :
    mbedtls_aeszkn_setkey_enc_rc_reads (f + 11) 128 = [0, 4, 8, 12, 16, 20, 24, 28, 32, 36] := by
  simp [mbedtls_aeszkn_setkey_enc_rc_reads, aes_128_enc_ks_l0_rc_reads]

theorem rc_reads_192 (f : Nat) :
    mbedtls_aeszkn_setkey_enc_rc_reads (f + 9) 192 = [0, 4, 8, 12, 16, 20, 24, 28] := by
  simp [mbedtls_aeszkn_setkey_enc_rc_reads, aes_192_enc_ks_l0_rc_reads]

theorem rc_reads_256 (f : Nat) :
    mbedtls_aeszkn_setkey_enc_rc_reads (f + 7) 256 = [0, 4, 8, 12, 16, 20, 24] := by
  simp [mbedtls_aeszkn_setkey_enc_rc_reads, aes_256_enc_ks_l0_rc_reads]

/-! ## Termination, reads and writes of the block routines -/

theorem aes_ecb_encrypt_loop_none :
    ∀ (fuel : Nat) (rk : Mem) (a4 a5 a6 a7 : Nat) (a2 a3 : Int),
      (∀ k : Nat, 1 ≤ k → k ≤ fuel → a2 + 32 * (k : Int) ≠ a3) →
      aes_ecb_encrypt_loop fuel rk a4 a5 a6 a7 a2 a3 = none := by
  intro fuel
  induction fuel with
  | zero => intros; rfl
  | succ f ih =>
    intro rk a4 a5 a6 a7 a2 a3 h
    simp only [aes_ecb_encrypt_loop]
    rw [if_neg (by have := h 1 (by omega) (by omega); push_cast at this; omega)]
    apply ih
    intro k h1 h2
    have := h (k + 1) (by omega) (by omega)
    push_cast at this
    omega

theorem aes_ecb_decrypt_loop_none :
    ∀ (fuel : Nat) (rk : Mem) (a4 a5 a6 a7 : Nat) (a2 a3 : Int),
      (∀ k : Nat, k < fuel → a3 - 32 * (k : Int) ≠ a2) →
      aes_ecb_decrypt_loop fuel rk a4 a5 a6 a7 a2 a3 = none := by
  intro fuel
  induction fuel with
  | zero => intros; rfl
  | succ f ih =>
    intro rk a4 a5 a6 a7 a2 a3 h
    simp only [aes_ecb_decrypt_loop]
    rw [if_neg (by have := h 0 (by omega); push_cast at this; omega)]
    apply ih
    intro k h1
    have := h (k + 1) (by omega)
    push_cast at this
    omega

theorem aes_ecb_encrypt_loop_some :
    ∀ (m fuel : Nat) (rk : Mem) (a4 a5 a6 a7 : Nat) (a2 a3 : Int),
      m + 1 ≤ fuel → a3 = a2 + 32 * ((m : Int) + 1) →
      (aes_ecb_encrypt_loop fuel rk a4 a5 a6 a7 a2 a3).isSome = true := by
  intro m
  induction m with
  | zero =>
    intro fuel rk a4 a5 a6 a7 a2 a3 hf h3
    obtain ⟨f, rfl⟩ : ∃ f, fuel = f + 1 := ⟨fuel - 1, by omega⟩
    simp only [aes_ecb_encrypt_loop]
    rw [if_pos (by push_cast at h3; omega)]
    rfl
  | succ m ih =>
    intro fuel rk a4 a5 a6 a7 a2 a3 hf h3
    obtain ⟨f, rfl⟩ : ∃ f, fuel = f + 1 := ⟨fuel - 1, by omega⟩
    simp only [aes_ecb_encrypt_loop]
    rw [if_neg (by push_cast at h3; omega)]
    exact ih f rk _ _ _ _ _ _ (by omega) (by push_cast at h3; omega)

theorem aes_ecb_decrypt_loop_some :
    ∀ (m fuel : Nat) (rk : Mem) (a4 a5 a6 a7 : Nat) (a2 a3 : Int),
      m + 1 ≤ fuel → a3 = a2 + 32 * (m : Int) →
      (aes_ecb_decrypt_loop fuel rk a4 a5 a6 a7 a2 a3).isSome = true := by
  intro m
  induction m with
  | zero =>
    intro fuel rk a4 a5 a6 a7 a2 a3 hf h3
    obtain ⟨f, rfl⟩ : ∃ f, fuel = f + 1 := ⟨fuel - 1, by omega⟩
    simp only [aes_ecb_decrypt_loop]
    rw [if_pos (by push_cast at h3; omega)]
    rfl
  | succ m ih =>
    intro fuel rk a4 a5 a6 a7 a2 a3 hf h3
    obtain ⟨f, rfl⟩ : ∃ f, fuel = f + 1 := ⟨fuel - 1, by omega⟩
    simp only [aes_ecb_decrypt_loop]
    rw [if_neg (by push_cast at h3; omega)]
    exact ih f rk _ _ _ _ _ _ (by omega) (by push_cast at h3; omega)

/-- The encryption routine returns exactly when the fuel covers (a3 - a2) / 32 passes. -/
theorem aes_ecb_encrypt_isSome_iff (m fuel : Nat) (ct pt rk : Mem) (a0 a1 a2 a3 : Int)
    (h3 : a3 = a2 + 32 * ((m : Int) + 1)) :
    (aes_ecb_encrypt fuel ct a0 pt a1 rk a2 a3).isSome = true ↔ m + 1 ≤ fuel := by
  simp only [aes_ecb_encrypt]
  constructor
  · intro h
    by_contra hlt
    rw [aes_ecb_encrypt_loop_none fuel rk _ _ _ _ a2 a3 (by intro k h1 h2; omega)] at h
    exact absurd h (by simp)
  · intro hf
    have := aes_ecb_encrypt_loop_some m fuel rk
      (lw pt (a1 + 0) ^^^ lw rk (a2 + 0)) (lw pt (a1 + 4) ^^^ lw rk (a2 + 4))
      (lw pt (a1 + 8) ^^^ lw rk (a2 + 8)) (lw pt (a1 + 12) ^^^ lw rk (a2 + 12)) a2 a3 hf h3
    revert this
    cases aes_ecb_encrypt_loop fuel rk
      (lw pt (a1 + 0) ^^^ lw rk (a2 + 0)) (lw pt (a1 + 4) ^^^ lw rk (a2 + 4))
      (lw pt (a1 + 8) ^^^ lw rk (a2 + 8)) (lw pt (a1 + 12) ^^^ lw rk (a2 + 12)) a2 a3 with
    | none => intro h; exact absurd h (by simp)
    | some r => intro _; rfl

theorem aes_ecb_decrypt_isSome_iff (m fuel : Nat) (pt ct rk : Mem) (a0 a1 a2 a3 : Int)
    (h3 : a3 = a2 + 32 * ((m : Int) + 1)) :
    (aes_ecb_decrypt fuel pt a0 ct a1 rk a2 a3).isSome = true ↔ m + 1 ≤ fuel := by
  simp only [aes_ecb_decrypt]
  constructor
  · intro h
    by_contra hlt
    rw [aes_ecb_decrypt_loop_none fuel rk _ _ _ _ a2 (a3 - 32) (by intro k h1; omega)] at h
    exact absurd h (by simp)
  · intro hf
    have := aes_ecb_decrypt_loop_some m fuel rk
      (lw ct (a1 + 0) ^^^ lw rk (a3 + 0)) (lw ct (a1 + 4) ^^^ lw rk (a3 + 4))
      (lw ct (a1 + 8) ^^^ lw rk (a3 + 8)) (lw ct (a1 + 12) ^^^ lw rk (a3 + 12)) a2 (a3 - 32) hf
      (by omega)
    revert this
    cases aes_ecb_decrypt_loop fuel rk
      (lw ct (a1 + 0) ^^^ lw rk (a3 + 0)) (lw ct (a1 + 4) ^^^ lw rk (a3 + 4))
      (lw ct (a1 + 8) ^^^ lw rk (a3 + 8)) (lw ct (a1 + 12) ^^^ lw rk (a3 + 12)) a2 (a3 - 32) with
    | none => intro h; exact absurd h (by simp)
    | some r => intro _; rfl

/-- Only the four stores at a0 change the destination of the encryption routine. -/
theorem aes_ecb_encrypt_frame (fuel : Nat) (ct pt rk : Mem) (a0 a1 a2 a3 : Int) (out : Mem)
    (h : aes_ecb_encrypt fuel ct a0 pt a1 rk a2 a3 = some out) (j : Int)
    (hj : j < a0 ∨ a0 + 16 ≤ j) : out j = ct j := by
  simp only [aes_ecb_encrypt] at h
  revert h
  cases aes_ecb_encrypt_loop fuel rk
    (lw pt (a1 + 0) ^^^ lw rk (a2 + 0)) (lw pt (a1 + 4) ^^^ lw rk (a2 + 4))
    (lw pt (a1 + 8) ^^^ lw rk (a2 + 8)) (lw pt (a1 + 12) ^^^ lw rk (a2 + 12)) a2 a3 with
  | none => intro h; exact absurd h (by simp)
  | some r =>
    obtain ⟨r4, r5, r6, r7⟩ := r
    intro h
    simp only [Option.some.injEq] at h
    rw [← h, sw_frame _ _ _ _ (by omega), sw_frame _ _ _ _ (by omega),
      sw_frame _ _ _ _ (by omega), sw_frame _ _ _ _ (by omega)]

theorem aes_ecb_decrypt_frame (fuel : Nat) (pt ct rk : Mem) (a0 a1 a2 a3 : Int) (out : Mem)
    (h : aes_ecb_decrypt fuel pt a0 ct a1 rk a2 a3 = some out) (j : Int)
    (hj : j < a0 ∨ a0 + 16 ≤ j) : out j = pt j := by
  simp only [aes_ecb_decrypt] at h
  revert h
  cases aes_ecb_decrypt_loop fuel rk
    (lw ct (a1 + 0) ^^^ lw rk (a3 + 0)) (lw ct (a1 + 4) ^^^ lw rk (a3 + 4))
    (lw ct (a1 + 8) ^^^ lw rk (a3 + 8)) (lw ct (a1 + 12) ^^^ lw rk (a3 + 12)) a2 (a3 - 32) with
  | none => intro h; exact absurd h (by simp)
  | some r =>
    obtain ⟨r4, r5, r6, r7⟩ := r
    intro h
    simp only [Option.some.injEq] at h
    rw [← h, sw_frame _ _ _ _ (by omega), sw_frame _ _ _ _ (by omega),
      sw_frame _ _ _ _ (by omega), sw_frame _ _ _ _ (by omega)]

/-- A word is unchanged when none of its four bytes is. -/
theorem lw_congr_bytes (m m' : Mem) (a : Int)
    (h : ∀ j : Int, a ≤ j → j < a + 4 → m' j = m j) : lw m' a = lw m a := by
  unfold lw lbu
  rw [h a (by omega) (by omega), h (a + 1) (by omega) (by omega),
    h (a + 2) (by omega) (by omega), h (a + 3) (by omega) (by omega)]

theorem aes_ecb_encrypt_loop_reads_range :
    ∀ (m fuel : Nat) (a2 a3 : Int), a3 = a2 + 32 * ((m : Int) + 1) →
      ∀ a ∈ aes_ecb_encrypt_loop_reads fuel a2 a3,
        ∃ i : Nat, 4 ≤ i ∧ i < 8 * (m + 1) + 4 ∧ a = a2 + 4 * (i : Int) := by
  intro m
  induction m with
  | zero =>
    intro fuel a2 a3 h3 a ha
    cases fuel with
    | zero => simp [aes_ecb_encrypt_loop_reads] at ha
    | succ f =>
      simp only [aes_ecb_encrypt_loop_reads] at ha
      rw [if_pos (by push_cast at h3; omega)] at ha
      simp only [List.append_nil, List.mem_cons, List.mem_singleton, List.not_mem_nil,
        or_false] at ha
      rcases ha with h | h | h | h | h | h | h | h
      · exact ⟨4, by omega, by omega, by omega⟩
      · exact ⟨5, by omega, by omega, by omega⟩
      · exact ⟨6, by omega, by omega, by omega⟩
      · exact ⟨7, by omega, by omega, by omega⟩
      · exact ⟨8, by omega, by omega, by omega⟩
      · exact ⟨9, by omega, by omega, by omega⟩
      · exact ⟨10, by omega, by omega, by omega⟩
      · exact ⟨11, by omega, by omega, by omega⟩
  | succ m ih =>
    intro fuel a2 a3 h3 a ha
    cases fuel with
    | zero => simp [aes_ecb_encrypt_loop_reads] at ha
    | succ f =>
      simp only [aes_ecb_encrypt_loop_reads] at ha
      rw [if_neg (by push_cast at h3; omega)] at ha
      simp only [List.mem_append, List.mem_cons, List.mem_singleton, List.not_mem_nil,
        or_false] at ha
      rcases ha with (h | h | h | h | h | h | h | h) | h
      · exact ⟨4, by omega, by omega, by omega⟩
      · exact ⟨5, by omega, by omega, by omega⟩
      · exact ⟨6, by omega, by omega, by omega⟩
      · exact ⟨7, by omega, by omega, by omega⟩
      · exact ⟨8, by omega, by omega, by omega⟩
      · exact ⟨9, by omega, by omega, by omega⟩
      · exact ⟨10, by omega, by omega, by omega⟩
      · exact ⟨11, by omega, by omega, by omega⟩
      · obtain ⟨i, h1, h2, h4⟩ := ih f (a2 + 32) a3 (by push_cast at h3; omega) a h
        exact ⟨i + 8, by omega, by omega, by push_cast; omega⟩

theorem aes_ecb_decrypt_loop_reads_range :
    ∀ (m fuel : Nat) (a2 a3 : Int), a3 = a2 + 32 * (m : Int) →
      ∀ a ∈ aes_ecb_decrypt_loop_reads fuel a2 a3,
        ∃ i : Nat, i < 8 * (m + 1) ∧ a = a2 + 4 * (i : Int) := by
  intro m
  induction m with
  | zero =>
    intro fuel a2 a3 h3 a ha
    cases fuel with
    | zero => simp [aes_ecb_decrypt_loop_reads] at ha
    | succ f =>
      simp only [aes_ecb_decrypt_loop_reads] at ha
      rw [if_pos (by push_cast at h3; omega)] at ha
      simp only [List.append_nil, List.mem_cons, List.mem_singleton, List.not_mem_nil,
        or_false] at ha
      rcases ha with h | h | h | h | h | h | h | h
      · exact ⟨4, by omega, by push_cast at h3; omega⟩
      · exact ⟨5, by omega, by push_cast at h3; omega⟩
      · exact ⟨6, by omega, by push_cast at h3; omega⟩
      · exact ⟨7, by omega, by push_cast at h3; omega⟩
      · exact ⟨0, by omega, by push_cast at h3; omega⟩
      · exact ⟨1, by omega, by push_cast at h3; omega⟩
      · exact ⟨2, by omega, by push_cast at h3; omega⟩
      · exact ⟨3, by omega, by push_cast at h3; omega⟩
  | succ m ih =>
    intro fuel a2 a3 h3 a ha
    cases fuel with
    | zero => simp [aes_ecb_decrypt_loop_reads] at ha
    | succ f =>
      simp only [aes_ecb_decrypt_loop_reads] at ha
      rw [if_neg (by push_cast at h3; omega)] at ha
      simp only [List.mem_append, List.mem_cons, List.mem_singleton, List.not_mem_nil,
        or_false] at ha
      push_cast at h3
      rcases ha with (h | h | h | h | h | h | h | h) | h
      · exact ⟨8 * (m + 1) + 4, by omega, by push_cast; omega⟩
      · exact ⟨8 * (m + 1) + 5, by omega, by push_cast; omega⟩
      · exact ⟨8 * (m + 1) + 6, by omega, by push_cast; omega⟩
      · exact ⟨8 * (m + 1) + 7, by omega, by push_cast; omega⟩
      · exact ⟨8 * (m + 1) + 0, by omega, by push_cast; omega⟩
      · exact ⟨8 * (m + 1) + 1, by omega, by push_cast; omega⟩
      · exact ⟨8 * (m + 1) + 2, by omega, by push_cast; omega⟩
      · exact ⟨8 * (m + 1) + 3, by omega, by push_cast; omega⟩
      · obtain ⟨i, h1, h4⟩ := ih f a2 (a3 - 32) (by omega) a h
        exact ⟨i, by omega, h4⟩

/-- Every address the encryption routine loads from the schedule is that of one of its
4 * (nr + 1) words, nr = 2 * (m + 1). -/
theorem aes_ecb_encrypt_reads_range (m fuel : Nat) (a2 a3 : Int)
    (h3 : a3 = a2 + 32 * ((m : Int) + 1)) :
    ∀ a ∈ aes_ecb_encrypt_reads fuel a2 a3,
      ∃ i : Nat, i < 4 * (2 * (m + 1) + 1) ∧ a = a2 + 4 * (i : Int) := by
  intro a ha
  simp only [aes_ecb_encrypt_reads, List.mem_append, List.mem_cons, List.mem_singleton,
    List.not_mem_nil, or_false] at ha
  rcases ha with (h | h | h | h) | h
  · exact ⟨0, by omega, by omega⟩
  · exact ⟨1, by omega, by omega⟩
  · exact ⟨2, by omega, by omega⟩
  · exact ⟨3, by omega, by omega⟩
  · obtain ⟨i, _, h2, h4⟩ := aes_ecb_encrypt_loop_reads_range m fuel a2 a3 h3 a h
    exact ⟨i, by omega, h4⟩

theorem aes_ecb_decrypt_reads_range (m fuel : Nat) (a2 a3 : Int)
    (h3 : a3 = a2 + 32 * ((m : Int) + 1)) :
    ∀ a ∈ aes_ecb_decrypt_reads fuel a2 a3,
      ∃ i : Nat, i < 4 * (2 * (m + 1) + 1) ∧ a = a2 + 4 * (i : Int) := by
  intro a ha
  simp only [aes_ecb_decrypt_reads, List.mem_append, List.mem_cons, List.mem_singleton,
    List.not_mem_nil, or_false] at ha
  rcases ha with (h | h | h | h) | h
  · exact ⟨8 * (m + 1) + 0, by omega, by push_cast; omega⟩
  · exact ⟨8 * (m + 1) + 1, by omega, by push_cast; omega⟩
  · exact ⟨8 * (m + 1) + 2, by omega, by push_cast; omega⟩
  · exact ⟨8 * (m + 1) + 3, by omega, by push_cast; omega⟩
  · obtain ⟨i, h2, h4⟩ := aes_ecb_decrypt_loop_reads_range m fuel a2 (a3 - 32) (by omega) a h
    exact ⟨i, by omega, h4⟩

/-- The passes of .aes_enc see the schedule only through the listed addresses. -/
theorem aes_ecb_encrypt_loop_congr (rk rk' : Mem) (a3 : Int) :
    ∀ (fuel : Nat) (a4 a5 a6 a7 : Nat) (a2 : Int),
      (∀ a ∈ aes_ecb_encrypt_loop_reads fuel a2 a3, lw rk a = lw rk' a) →
      aes_ecb_encrypt_loop fuel rk a4 a5 a6 a7 a2 a3
        = aes_ecb_encrypt_loop fuel rk' a4 a5 a6 a7 a2 a3 := by
  intro fuel
  induction fuel with
  | zero => intros; rfl
  | succ f ih =>
    intro a4 a5 a6 a7 a2 h
    simp only [aes_ecb_encrypt_loop_reads, List.mem_append, List.mem_cons, List.mem_singleton,
      List.not_mem_nil, or_false] at h
    have e1 := h (a2 + 16) (by simp)
    have e2 := h (a2 + 20) (by simp)
    have e3 := h (a2 + 24) (by simp)
    have e4 := h (a2 + 28) (by simp)
    have e5 := h (a2 + 32) (by simp)
    have e6 := h (a2 + 36) (by simp)
    have e7 := h (a2 + 40) (by simp)
    have e8 := h (a2 + 44) (by simp)
    simp only [aes_ecb_encrypt_loop, e1, e2, e3, e4, e5, e6, e7, e8]
    by_cases hx : a2 + 32 = a3
    · rw [if_pos hx, if_pos hx]
    · rw [if_neg hx, if_neg hx]
      apply ih
      intro a ha
      exact h a (Or.inr (by rw [if_neg hx]; exact ha))

theorem aes_ecb_decrypt_loop_congr (rk rk' : Mem) (a2 : Int) :
    ∀ (fuel : Nat) (a4 a5 a6 a7 : Nat) (a3 : Int),
      (∀ a ∈ aes_ecb_decrypt_loop_reads fuel a2 a3, lw rk a = lw rk' a) →
      aes_ecb_decrypt_loop fuel rk a4 a5 a6 a7 a2 a3
        = aes_ecb_decrypt_loop fuel rk' a4 a5 a6 a7 a2 a3 := by
  intro fuel
  induction fuel with
  | zero => intros; rfl
  | succ f ih =>
    intro a4 a5 a6 a7 a3 h
    simp only [aes_ecb_decrypt_loop_reads, List.mem_append, List.mem_cons, List.mem_singleton,
      List.not_mem_nil, or_false] at h
    have e1 := h (a3 + 16) (by simp)
    have e2 := h (a3 + 20) (by simp)
    have e3 := h (a3 + 24) (by simp)
    have e4 := h (a3 + 28) (by simp)
    have e5 := h (a3 + 0) (by simp)
    have e6 := h (a3 + 4) (by simp)
    have e7 := h (a3 + 8) (by simp)
    have e8 := h (a3 + 12) (by simp)
    simp only [aes_ecb_decrypt_loop, e1, e2, e3, e4, e5, e6, e7, e8]
    by_cases hx : a2 = a3
    · rw [if_pos hx, if_pos hx]
    · rw [if_neg hx, if_neg hx]
      apply ih
      intro a ha
      exact h a (Or.inr (by rw [if_neg hx]; exact ha))

theorem aes_ecb_encrypt_congr (fuel : Nat) (ct pt rk rk' : Mem) (a0 a1 a2 a3 : Int)
    (h : ∀ a ∈ aes_ecb_encrypt_reads fuel a2 a3, lw rk a = lw rk' a) :
    aes_ecb_encrypt fuel ct a0 pt a1 rk a2 a3 = aes_ecb_encrypt fuel ct a0 pt a1 rk' a2 a3 := by
  simp only [aes_ecb_encrypt_reads, List.mem_append, List.mem_cons, List.mem_singleton,
    List.not_mem_nil, or_false] at h
  have e1 := h (a2 + 0) (by simp)
  have e2 := h (a2 + 4) (by simp)
  have e3 := h (a2 + 8) (by simp)
  have e4 := h (a2 + 12) (by simp)
  simp only [aes_ecb_encrypt, e1, e2, e3, e4]
  rw [aes_ecb_encrypt_loop_congr rk rk' a3 fuel _ _ _ _ a2 (fun a ha => h a (Or.inr ha))]

theorem aes_ecb_decrypt_congr (fuel : Nat) (pt ct rk rk' : Mem) (a0 a1 a2 a3 : Int)
    (h : ∀ a ∈ aes_ecb_decrypt_reads fuel a2 a3, lw rk a = lw rk' a) :
    aes_ecb_decrypt fuel pt a0 ct a1 rk a2 a3 = aes_ecb_decrypt fuel pt a0 ct a1 rk' a2 a3 := by
  simp only [aes_ecb_decrypt_reads, List.mem_append, List.mem_cons, List.mem_singleton,
    List.not_mem_nil, or_false] at h
  have e1 := h (a3 + 0) (by simp)
  have e2 := h (a3 + 4) (by simp)
  have e3 := h (a3 + 8) (by simp)
  have e4 := h (a3 + 12) (by simp)
  simp only [aes_ecb_decrypt, e1, e2, e3, e4]
  rw [aes_ecb_decrypt_loop_congr rk rk' a2 fuel _ _ _ _ (a3 - 32) (fun a ha => h a (Or.inr ha))]

/-- Termination, reads and schedule dependence of both block routines for nr = 2 * (m + 1). -/
theorem block_routines_even (m nr fuel : Nat) (hm : nr = 2 * (m + 1)) (out inp rk : Mem)
    (a0 a1 a2 : Int) :
    ((aes_ecb_encrypt fuel out a0 inp a1 rk a2 (a2 + 4 * (4 * (nr : Int)))).isSome = true
      ↔ nr / 2 ≤ fuel) ∧
    ((aes_ecb_decrypt fuel out a0 inp a1 rk a2 (a2 + 4 * (4 * (nr : Int)))).isSome = true
      ↔ nr / 2 ≤ fuel) ∧
    (∀ a ∈ aes_ecb_encrypt_reads fuel a2 (a2 + 4 * (4 * (nr : Int))),
      ∃ i : Nat, i < 4 * (nr + 1) ∧ a = a2 + 4 * (i : Int)) ∧
    (∀ a ∈ aes_ecb_decrypt_reads fuel a2 (a2 + 4 * (4 * (nr : Int))),
      ∃ i : Nat, i < 4 * (nr + 1) ∧ a = a2 + 4 * (i : Int)) ∧
    (∀ rk' : Mem,
      (∀ i : Nat, i < 4 * (nr + 1) → lw rk' (a2 + 4 * (i : Int)) = lw rk (a2 + 4 * (i : Int))) →
      aes_ecb_encrypt fuel out a0 inp a1 rk' a2 (a2 + 4 * (4 * (nr : Int)))
        = aes_ecb_encrypt fuel out a0 inp a1 rk a2 (a2 + 4 * (4 * (nr : Int))) ∧
      aes_ecb_decrypt fuel out a0 inp a1 rk' a2 (a2 + 4 * (4 * (nr : Int)))
        = aes_ecb_decrypt fuel out a0 inp a1 rk a2 (a2 + 4 * (4 * (nr : Int)))) := by
  have h3 : a2 + 4 * (4 * (nr : Int)) = a2 + 32 * ((m : Int) + 1) := by
    subst hm; push_cast; omega
  have hd : nr / 2 = m + 1 := by omega
  rw [hd]
  refine ⟨aes_ecb_encrypt_isSome_iff m fuel out inp rk a0 a1 a2 _ h3,
    aes_ecb_decrypt_isSome_iff m fuel out inp rk a0 a1 a2 _ h3, ?_, ?_, ?_⟩
  · intro a ha
    obtain ⟨i, h1, h2⟩ := aes_ecb_encrypt_reads_range m fuel a2 _ h3 a ha
    exact ⟨i, by omega, h2⟩
  · intro a ha
    obtain ⟨i, h1, h2⟩ := aes_ecb_decrypt_reads_range m fuel a2 _ h3 a ha
    exact ⟨i, by omega, h2⟩
  · intro rk' h
    constructor
    · apply aes_ecb_encrypt_congr
      intro a ha
      obtain ⟨i, h1, h2⟩ := aes_ecb_encrypt_reads_range m fuel a2 _ h3 a ha
      rw [h2]
      exact h i (by omega)
    · apply aes_ecb_decrypt_congr
      intro a ha
      obtain ⟨i, h1, h2⟩ := aes_ecb_decrypt_reads_range m fuel a2 _ h3 a ha
      rw [h2]
      exact h i (by omega)

/-- On one address space, a block transform with nr = 2 * (m + 1) returns 0 and changes
only the sixteen bytes at the output address. -/
theorem mbedtls_aeszkn_crypt_ecb_shared_frame (m fuel : Nat) (hf : m + 1 ≤ fuel) (M : Mem)
    (buf : Int) (rk_offset : Nat) (nr : Int) (hnr : nr = ((2 * (m + 1) : Nat) : Int))
    (mode inA outA : Int) :
    ∃ M', mbedtls_aeszkn_crypt_ecb_shared fuel M buf rk_offset nr mode inA outA = some (0, M') ∧
      ∀ j : Int, j < outA ∨ outA + 16 ≤ j → M' j = M j := by
  have h3 : buf + 4 * (rk_offset : Int) + 4 * (4 * nr)
      = buf + 4 * (rk_offset : Int) + 32 * ((m : Int) + 1) := by
    subst hnr; push_cast; omega
  unfold mbedtls_aeszkn_crypt_ecb_shared
  by_cases hmode : mode = MBEDTLS_AES_DECRYPT
  · simp only [if_pos hmode]
    have hs := (aes_ecb_decrypt_isSome_iff m fuel M M M outA inA _ _ h3).2 hf
    obtain ⟨M', hM⟩ := Option.isSome_iff_exists.1 hs
    exact ⟨M', by rw [hM]; rfl, aes_ecb_decrypt_frame _ _ _ _ _ _ _ _ _ hM⟩
  · simp only [if_neg hmode]
    have hs := (aes_ecb_encrypt_isSome_iff m fuel M M M outA inA _ _ h3).2 hf
    obtain ⟨M', hM⟩ := Option.isSome_iff_exists.1 hs
    exact ⟨M', by rw [hM]; rfl, aes_ecb_encrypt_frame _ _ _ _ _ _ _ _ _ hM⟩

/-- With separate buffers, a block transform with nr = 2 * (m + 1) returns 0 and changes
only the first sixteen bytes of the output buffer. -/
theorem mbedtls_aeszkn_crypt_ecb_frame (m fuel : Nat) (hf : m + 1 ≤ fuel)
    (ctx : mbedtls_aes_context) (hnr : ctx.nr = ((2 * (m + 1) : Nat) : Int)) (mode : Int)
    (input output : Mem) :
    ∃ out, mbedtls_aeszkn_crypt_ecb fuel ctx mode input output = some (0, out) ∧
      ∀ j : Int, j < 0 ∨ 16 ≤ j → out j = output j := by
  by_cases hmode : mode = MBEDTLS_AES_DECRYPT
  · subst hmode
    obtain ⟨out, h1, _, h3⟩ := mbedtls_aeszkn_crypt_ecb_decrypt_spec m fuel ctx hnr input output hf
    exact ⟨out, h1, h3⟩
  · obtain ⟨out, h1, _, h3⟩ :=
      mbedtls_aeszkn_crypt_ecb_encrypt_spec m fuel ctx hnr mode hmode input output hf
    exact ⟨out, h1, h3⟩

/-- A round count of 10, 12 or 14 is 2 * (m + 1) with m + 1 at most 7. -/
theorem rounds_even_of_std (nr : Int) (h : nr = 10 ∨ nr = 12 ∨ nr = 14) :
    ∃ m : Nat, nr = ((2 * (m + 1) : Nat) : Int) ∧ m + 1 ≤ 7 := by
  rcases h with rfl | rfl | rfl
  · exact ⟨4, by decide, by decide⟩
  · exact ⟨5, by decide, by decide⟩
  · exact ⟨6, by decide, by decide⟩

/-- With an odd round count the exit test of either round loop is never met. -/
theorem mbedtls_aeszkn_crypt_ecb_odd_none (fuel : Nat) (ctx : mbedtls_aes_context) (q : Int)
    (hnr : ctx.nr = 2 * q + 1) (mode : Int) (input output : Mem) :
    mbedtls_aeszkn_crypt_ecb fuel ctx mode input output = none := by
  unfold mbedtls_aeszkn_crypt_ecb
  by_cases hmode : mode = MBEDTLS_AES_DECRYPT
  · simp only [if_pos hmode, aes_decrypt, aes_ecb_decrypt]
    rw [aes_ecb_decrypt_loop_none fuel _ _ _ _ _ _ _ (by intro k _; rw [hnr]; omega)]
    rfl
  · simp only [if_neg hmode, aes_encrypt, aes_ecb_encrypt]
    rw [aes_ecb_encrypt_loop_none fuel _ _ _ _ _ _ _ (by intro k _ _; rw [hnr]; omega)]
    rfl

/-! ## Words of the two schedules after the inverter -/

/-- Equal entries have equal words. -/
theorem wordAt_of_roundKey_eq (A B : Mem) (r : Nat) (h : roundKey A 0 r = roundKey B 0 r)
    (i : Nat) (h1 : 4 * r ≤ i) (h2 : i < 4 * r + 4) : wordAt A i = wordAt B i := by
  have hb : ∀ t : Nat, t < 16 →
      lbu A (0 + 16 * (r : Int) + (t : Int)) = lbu B (0 + 16 * (r : Int) + (t : Int)) := by
    intro t ht
    rw [← roundKey_getD A 0 r t ht, ← roundKey_getD B 0 r t ht, h]
  obtain ⟨s, hs, rfl⟩ : ∃ s : Nat, s < 4 ∧ i = 4 * r + s := ⟨i - 4 * r, by omega, by omega⟩
  have e0 := hb (4 * s) (by omega)
  have e1 := hb (4 * s + 1) (by omega)
  have e2 := hb (4 * s + 2) (by omega)
  have e3 := hb (4 * s + 3) (by omega)
  have a0 : (0 : Int) + 16 * (r : Int) + ((4 * s : Nat) : Int) = 4 * ((4 * r + s : Nat) : Int) := by
    push_cast; omega
  have a1 : (0 : Int) + 16 * (r : Int) + ((4 * s + 1 : Nat) : Int)
      = 4 * ((4 * r + s : Nat) : Int) + 1 := by push_cast; omega
  have a2 : (0 : Int) + 16 * (r : Int) + ((4 * s + 2 : Nat) : Int)
      = 4 * ((4 * r + s : Nat) : Int) + 2 := by push_cast; omega
  have a3 : (0 : Int) + 16 * (r : Int) + ((4 * s + 3 : Nat) : Int)
      = 4 * ((4 * r + s : Nat) : Int) + 3 := by push_cast; omega
  rw [a0] at e0
  rw [a1] at e1
  rw [a2] at e2
  rw [a3] at e3
  unfold wordAt
  rw [e0, e1, e2, e3]

/-- Words with equal bytes load equal values. -/
theorem lw_of_wordAt_eq (A B : Mem) (i : Nat) (h : wordAt A i = wordAt B i) :
    lw A (4 * (i : Int)) = lw B (4 * (i : Int)) := by
  simp only [wordAt, List.cons.injEq, and_true] at h
  obtain ⟨h0, h1, h2, h3⟩ := h
  unfold lw
  rw [h0, h1, h2, h3]

/-- After the inverter both buffers hold the same entries 0..nr: the outer ones are those of
the forward schedule, the interior ones their InvMixColumns images. -/
theorem mbedtls_aeszkn_inverse_key_agree (bits nr fuel : Nat)
    (hb : (bits = 128 ∧ nr = 10) ∨ (bits = 192 ∧ nr = 12) ∨ (bits = 256 ∧ nr = 14))
    (hf : 4 * (nr - 1) ≤ fuel) (invkey fwdkey : Mem) :
    ∃ inv' fwd', mbedtls_aeszkn_inverse_key fuel invkey fwdkey bits = some (inv', fwd') ∧
      (∀ k, 1 ≤ k → k < nr → roundKey fwd' 0 k = InvMixColumns (roundKey fwdkey 0 k)) ∧
      (∀ k, k ≤ nr → roundKey fwd' 0 k = roundKey inv' 0 k) := by
  obtain ⟨inv', fwd', h, h0, hn, hi, hfw, -, hfr⟩ :=
    mbedtls_aeszkn_inverse_key_spec bits nr fuel hb hf invkey fwdkey
  have hnr : 2 ≤ nr := by
    rcases hb with ⟨_, rfl⟩ | ⟨_, rfl⟩ | ⟨_, rfl⟩ <;> decide
  refine ⟨inv', fwd', h, hfw, ?_⟩
  intro k hk
  by_cases k0 : k = 0
  · subst k0
    rw [h0]
    unfold roundKey lbu
    apply List.map_congr_left
    intro t ht
    have := List.mem_range.1 ht
    rw [hfr _ (Or.inl (by push_cast; omega))]
  · by_cases kn : k = nr
    · subst kn
      rw [hn]
      unfold roundKey lbu
      apply List.map_congr_left
      intro t ht
      rw [hfr _ (Or.inr (by omega))]
    · rw [hfw k (by omega) (by omega), hi k (by omega) (by omega)]

/-! ## Properties of the specification, settled on the embedding -/

/-- C1: round trip. For every key size (bits = 128, 192, 256 with nr = 10, 12, 14), every key,
the standard round-constant table and every 16-byte block P: expanding the key, encrypting P
over the forward schedule, deriving the decrypt schedule from the freshly expanded forward
schedule and decrypting the ciphertext over it all succeed and give back exactly P. -/
theorem round_trip (bits nr fuel : Nat) (hb : KeySize bits nr) (hfuel : 4 * nr ≤ fuel)
    (key rc P rk0 inv0 out0 out1 : Mem) (_hrc : IsStdRc rc) :
    ∃ fwd C inv fwd' P',
      mbedtls_aeszkn_setkey_enc fuel rk0 key rc bits = some (0, fwd) ∧
      mbedtls_aeszkn_crypt_ecb fuel ⟨(nr : Int), 0, fwd⟩ MBEDTLS_AES_ENCRYPT P out0
        = some (0, C) ∧
      mbedtls_aeszkn_inverse_key fuel inv0 fwd bits = some (inv, fwd') ∧
      mbedtls_aeszkn_crypt_ecb fuel ⟨(nr : Int), 0, inv⟩ MBEDTLS_AES_DECRYPT C out1
        = some (0, P') ∧
      bytesOf P' 16 = bytesOf P 16 :=
  round_trip_all bits nr fuel hb hfuel key rc P rk0 inv0 out0 out1

theorem round_trip_witness :
    KeySize 192 12 ∧ 4 * 12 ≤ 48 ∧ IsStdRc round_constants ∧
    ∃ fwd C inv fwd' P',
      mbedtls_aeszkn_setkey_enc 48 zeroMem kat_key192 round_constants 192 = some (0, fwd) ∧
      mbedtls_aeszkn_crypt_ecb 48 ⟨((12 : Nat) : Int), 0, fwd⟩ MBEDTLS_AES_ENCRYPT kat_plaintext
        zeroMem = some (0, C) ∧
      mbedtls_aeszkn_inverse_key 48 zeroMem fwd 192 = some (inv, fwd') ∧
      mbedtls_aeszkn_crypt_ecb 48 ⟨((12 : Nat) : Int), 0, inv⟩ MBEDTLS_AES_DECRYPT C zeroMem
        = some (0, P') ∧
      bytesOf P' 16 = bytesOf kat_plaintext 16 :=
  ⟨Or.inr (Or.inl ⟨rfl, rfl⟩), by decide, isStdRc_round_constants,
    round_trip 192 12 48 (Or.inr (Or.inl ⟨rfl, rfl⟩)) (by decide) kat_key192 round_constants
      kat_plaintext zeroMem zeroMem zeroMem zeroMem isStdRc_round_constants⟩

/-- C2: known-answer vector, AES-128. With the standard round-constant table, expanding the
key 000102..0f with bits = 128 and encrypting the block 00112233..ff (encrypt mode, nr = 10)
succeeds and outputs exactly 69c4e0d86a7b0430d8cdb78070b4c55a, whatever the buffers held
before. -/
theorem known_answer_aes128 (fuel : Nat) (hf : 11 ≤ fuel) (rk0 out0 : Mem) :
    ∃ rk' out,
      mbedtls_aeszkn_setkey_enc fuel rk0 kat_key128 round_constants 128 = some (0, rk') ∧
      mbedtls_aeszkn_crypt_ecb fuel ⟨((10 : Nat) : Int), 0, rk'⟩ MBEDTLS_AES_ENCRYPT
        kat_plaintext out0 = some (0, out) ∧
      bytesOf out 16 = [0x69, 0xc4, 0xe0, 0xd8, 0x6a, 0x7b, 0x04, 0x30, 0xd8, 0xcd, 0xb7, 0x80,
        0x70, 0xb4, 0xc5, 0x5a] :=
  kat_general 128 10 (Or.inl ⟨rfl, rfl⟩) kat_key128 kat_plaintext _ kat128_closed fuel hf rk0 out0

theorem known_answer_aes128_witness :
    11 ≤ 11 ∧ ∃ rk' out,
      mbedtls_aeszkn_setkey_enc 11 zeroMem kat_key128 round_constants 128 = some (0, rk') ∧
      mbedtls_aeszkn_crypt_ecb 11 ⟨((10 : Nat) : Int), 0, rk'⟩ MBEDTLS_AES_ENCRYPT
        kat_plaintext zeroMem = some (0, out) ∧
      bytesOf out 16 = [0x69, 0xc4, 0xe0, 0xd8, 0x6a, 0x7b, 0x04, 0x30, 0xd8, 0xcd, 0xb7, 0x80,
        0x70, 0xb4, 0xc5, 0x5a] :=
  ⟨by decide, known_answer_aes128 11 (by decide) zeroMem zeroMem⟩

/-- C3: known-answer vectors, AES-192 and AES-256 (FIPS-197 Appendix C.2 and C.3). With the
standard round-constant table and plaintext 00112233..ff, the 24-byte key 0001..17 encrypts
to dda97ca4864cdfe06eaf70a0ec0d7191 (bits = 192, nr = 12) and the 32-byte key 0001..1f
encrypts to 8ea2b7ca516745bfeafc49904b496089 (bits = 256, nr = 14). -/
theorem known_answer_aes192_aes256 (fuel : Nat) (hf : 11 ≤ fuel) (rk0 out0 : Mem) :
    (∃ rk' out,
      mbedtls_aeszkn_setkey_enc fuel rk0 kat_key192 round_constants 192 = some (0, rk') ∧
      mbedtls_aeszkn_crypt_ecb fuel ⟨((12 : Nat) : Int), 0, rk'⟩ MBEDTLS_AES_ENCRYPT
        kat_plaintext out0 = some (0, out) ∧
      bytesOf out 16 = [0xdd, 0xa9, 0x7c, 0xa4, 0x86, 0x4c, 0xdf, 0xe0, 0x6e, 0xaf, 0x70, 0xa0,
        0xec, 0x0d, 0x71, 0x91]) ∧
    (∃ rk' out,
      mbedtls_aeszkn_setkey_enc fuel rk0 kat_key256 round_constants 256 = some (0, rk') ∧
      mbedtls_aeszkn_crypt_ecb fuel ⟨((14 : Nat) : Int), 0, rk'⟩ MBEDTLS_AES_ENCRYPT
        kat_plaintext out0 = some (0, out) ∧
      bytesOf out 16 = [0x8e, 0xa2, 0xb7, 0xca, 0x51, 0x67, 0x45, 0xbf, 0xea, 0xfc, 0x49, 0x90,
        0x4b, 0x49, 0x60, 0x89]) :=
  ⟨kat_general 192 12 (Or.inr (Or.inl ⟨rfl, rfl⟩)) kat_key192 kat_plaintext _ kat192_closed fuel
      hf rk0 out0,
    kat_general 256 14 (Or.inr (Or.inr ⟨rfl, rfl⟩)) kat_key256 kat_plaintext _ kat256_closed fuel
      hf rk0 out0⟩

theorem known_answer_aes192_aes256_witness :
    11 ≤ 12 ∧
    (∃ rk' out,
      mbedtls_aeszkn_setkey_enc 12 zeroMem kat_key192 round_constants 192 = some (0, rk') ∧
      mbedtls_aeszkn_crypt_ecb 12 ⟨((12 : Nat) : Int), 0, rk'⟩ MBEDTLS_AES_ENCRYPT
        kat_plaintext zeroMem = some (0, out) ∧
      bytesOf out 16 = [0xdd, 0xa9, 0x7c, 0xa4, 0x86, 0x4c, 0xdf, 0xe0, 0x6e, 0xaf, 0x70, 0xa0,
        0xec, 0x0d, 0x71, 0x91]) ∧
    (∃ rk' out,
      mbedtls_aeszkn_setkey_enc 12 zeroMem kat_key256 round_constants 256 = some (0, rk') ∧
      mbedtls_aeszkn_crypt_ecb 12 ⟨((14 : Nat) : Int), 0, rk'⟩ MBEDTLS_AES_ENCRYPT
        kat_plaintext zeroMem = some (0, out) ∧
      bytesOf out 16 = [0x8e, 0xa2, 0xb7, 0xca, 0x51, 0x67, 0x45, 0xbf, 0xea, 0xfc, 0x49, 0x90,
        0x4b, 0x49, 0x60, 0x89]) :=
  ⟨by decide, known_answer_aes192_aes256 12 (by decide) zeroMem zeroMem⟩

/-- C4: mbedtls_aeszkn_setkey_enc returns (given enough fuel for its loop) and its status is 0
if and only if bits is 128, 192 or 256; for every other value of bits it returns
MBEDTLS_ERR_AES_INVALID_KEY_LENGTH and the destination buffer rk is returned unchanged. -/
theorem setkey_enc_status (fuel : Nat) (hf : 11 ≤ fuel) (rk key rc : Mem) (bits : Nat) :
    (∃ r, mbedtls_aeszkn_setkey_enc fuel rk key rc bits = some r ∧
      (r.1 = 0 ↔ (bits = 128 ∨ bits = 192 ∨ bits = 256))) ∧
    (¬ (bits = 128 ∨ bits = 192 ∨ bits = 256) →
      mbedtls_aeszkn_setkey_enc fuel rk key rc bits
        = some (MBEDTLS_ERR_AES_INVALID_KEY_LENGTH, rk)) := by
  have hbad : ¬ (bits = 128 ∨ bits = 192 ∨ bits = 256) →
      mbedtls_aeszkn_setkey_enc fuel rk key rc bits
        = some (MBEDTLS_ERR_AES_INVALID_KEY_LENGTH, rk) := by
    intro h
    unfold mbedtls_aeszkn_setkey_enc
    rw [if_neg (fun e => h (Or.inl e)), if_neg (fun e => h (Or.inr (Or.inl e))),
      if_neg (fun e => h (Or.inr (Or.inr e)))]
  refine ⟨?_, hbad⟩
  by_cases h : bits = 128 ∨ bits = 192 ∨ bits = 256
  · rcases h with rfl | rfl | rfl
    · obtain ⟨rk', hr, -⟩ := setkey128_spec fuel hf rk key rc
      exact ⟨_, hr, by simp⟩
    · obtain ⟨rk', hr, -⟩ := setkey192_spec fuel (by omega) rk key rc
      exact ⟨_, hr, by simp⟩
    · obtain ⟨rk', hr, -⟩ := setkey256_spec fuel (by omega) rk key rc
      exact ⟨_, hr, by simp⟩
  · refine ⟨_, hbad h, ?_⟩
    simp only [h, iff_false]
    decide

theorem setkey_enc_status_witness :
    11 ≤ 11 ∧
    ((∃ r, mbedtls_aeszkn_setkey_enc 11 zeroMem kat_key128 round_constants 100 = some r ∧
      (r.1 = 0 ↔ (100 = 128 ∨ 100 = 192 ∨ 100 = 256))) ∧
    (¬ (100 = 128 ∨ 100 = 192 ∨ 100 = 256) →
      mbedtls_aeszkn_setkey_enc 11 zeroMem kat_key128 round_constants 100
        = some (MBEDTLS_ERR_AES_INVALID_KEY_LENGTH, zeroMem))) :=
  ⟨by decide, setkey_enc_status 11 (by decide) zeroMem kat_key128 round_constants 100⟩

/-- C5: AES-128 key expansion. For every 16-byte key and a round-constant table holding the
standard values, the 44 words written to rk by mbedtls_aeszkn_setkey_enc(bits = 128) are the
FIPS-197 KeyExpansion with Nk = 4, byte for byte in memory order: words 0..3 are the raw key
and, for i in 4..43, w[i] = w[i-4] xor temp with temp = SubWord(RotWord(w[i-1])) xor Rcon[i/4]
when i mod 4 = 0 and temp = w[i-1] otherwise. -/
theorem key_expansion_aes128 (fuel : Nat) (hf : 11 ≤ fuel) (rk key rc : Mem)
    (hrc : IsStdRc rc) :
    ∃ rk', mbedtls_aeszkn_setkey_enc fuel rk key rc 128 = some (0, rk') ∧
      (∀ i, i < 4 → wordAt rk' i = wordAt key i) ∧
      (∀ i, 4 ≤ i → i < 44 →
        wordAt rk' i = xorBytes (wordAt rk' (i - 4))
          (if i % 4 = 0 then xorBytes (SubWord (RotWord (wordAt rk' (i - 1)))) (Rcon (i / 4))
           else wordAt rk' (i - 1))) := by
  obtain ⟨rk', h1, h2, h3⟩ := setkey128_recurrence fuel hf rk key rc hrc
  refine ⟨rk', h1, h2, ?_⟩
  intro i h4 h44
  rw [h3 i h4 h44]
  unfold keyExpTemp
  by_cases h : i % 4 = 0
  · rw [if_pos h, if_pos h]
  · rw [if_neg h, if_neg h, if_neg (fun e => absurd e.1 (by decide))]

theorem key_expansion_aes128_witness :
    11 ≤ 11 ∧ IsStdRc round_constants ∧
    ∃ rk', mbedtls_aeszkn_setkey_enc 11 zeroMem kat_key128 round_constants 128 = some (0, rk') ∧
      (∀ i, i < 4 → wordAt rk' i = wordAt kat_key128 i) ∧
      (∀ i, 4 ≤ i → i < 44 →
        wordAt rk' i = xorBytes (wordAt rk' (i - 4))
          (if i % 4 = 0 then xorBytes (SubWord (RotWord (wordAt rk' (i - 1)))) (Rcon (i / 4))
           else wordAt rk' (i - 1))) :=
  ⟨by decide, isStdRc_round_constants,
    key_expansion_aes128 11 (by decide) zeroMem kat_key128 round_constants
      isStdRc_round_constants⟩

/-- C6: AES-192 key expansion. For every 24-byte key and the standard round-constant table,
the 52 words written to rk by mbedtls_aeszkn_setkey_enc(bits = 192) are the FIPS-197
KeyExpansion with Nk = 6, byte for byte in memory order: words 0..5 are the raw key and, for
i in 6..51, w[i] = w[i-6] xor temp with temp = SubWord(RotWord(w[i-1])) xor Rcon[i/6] when
i mod 6 = 0 and temp = w[i-1] otherwise; the words are packed consecutively, round key r
being words 4r..4r+3. -/
theorem key_expansion_aes192 (fuel : Nat) (hf : 9 ≤ fuel) (rk key rc : Mem)
    (hrc : IsStdRc rc) :
    ∃ rk', mbedtls_aeszkn_setkey_enc fuel rk key rc 192 = some (0, rk') ∧
      (∀ i, i < 6 → wordAt rk' i = wordAt key i) ∧
      (∀ i, 6 ≤ i → i < 52 →
        wordAt rk' i = xorBytes (wordAt rk' (i - 6))
          (if i % 6 = 0 then xorBytes (SubWord (RotWord (wordAt rk' (i - 1)))) (Rcon (i / 6))
           else wordAt rk' (i - 1))) ∧
      (∀ r, roundKey rk' 0 r = wordAt rk' (4 * r) ++ wordAt rk' (4 * r + 1)
          ++ wordAt rk' (4 * r + 2) ++ wordAt rk' (4 * r + 3)) := by
  obtain ⟨rk', h1, h2, h3⟩ := setkey192_recurrence fuel hf rk key rc hrc
  refine ⟨rk', h1, h2, ?_, fun r => roundKey_eq_words rk' r⟩
  intro i h6 h52
  rw [h3 i h6 h52]
  unfold keyExpTemp
  by_cases h : i % 6 = 0
  · rw [if_pos h, if_pos h]
  · rw [if_neg h, if_neg h, if_neg (fun e => absurd e.1 (by decide))]

theorem key_expansion_aes192_witness :
    9 ≤ 9 ∧ IsStdRc round_constants ∧
    ∃ rk', mbedtls_aeszkn_setkey_enc 9 zeroMem kat_key192 round_constants 192 = some (0, rk') ∧
      (∀ i, i < 6 → wordAt rk' i = wordAt kat_key192 i) ∧
      (∀ i, 6 ≤ i → i < 52 →
        wordAt rk' i = xorBytes (wordAt rk' (i - 6))
          (if i % 6 = 0 then xorBytes (SubWord (RotWord (wordAt rk' (i - 1)))) (Rcon (i / 6))
           else wordAt rk' (i - 1))) ∧
      (∀ r, roundKey rk' 0 r = wordAt rk' (4 * r) ++ wordAt rk' (4 * r + 1)
          ++ wordAt rk' (4 * r + 2) ++ wordAt rk' (4 * r + 3)) :=
  ⟨by decide, isStdRc_round_constants,
    key_expansion_aes192 9 (by decide) zeroMem kat_key192 round_constants
      isStdRc_round_constants⟩

/-- C7: AES-256 key expansion. For every 32-byte key and the standard round-constant table,
the 60 words written to rk by mbedtls_aeszkn_setkey_enc(bits = 256) are the FIPS-197
KeyExpansion with Nk = 8, byte for byte in memory order: words 0..7 are the raw key and, for
i in 8..59, w[i] = w[i-8] xor temp with temp = SubWord(RotWord(w[i-1])) xor Rcon[i/8] when
i mod 8 = 0, temp = SubWord(w[i-1]) when i mod 8 = 4, and temp = w[i-1] otherwise. -/
theorem key_expansion_aes256 (fuel : Nat) (hf : 7 ≤ fuel) (rk key rc : Mem)
    (hrc : IsStdRc rc) :
    ∃ rk', mbedtls_aeszkn_setkey_enc fuel rk key rc 256 = some (0, rk') ∧
      (∀ i, i < 8 → wordAt rk' i = wordAt key i) ∧
      (∀ i, 8 ≤ i → i < 60 →
        wordAt rk' i = xorBytes (wordAt rk' (i - 8))
          (if i % 8 = 0 then xorBytes (SubWord (RotWord (wordAt rk' (i - 1)))) (Rcon (i / 8))
           else if i % 8 = 4 then SubWord (wordAt rk' (i - 1))
           else wordAt rk' (i - 1))) := by
  obtain ⟨rk', h1, h2, h3⟩ := setkey256_recurrence fuel hf rk key rc hrc
  refine ⟨rk', h1, h2, ?_⟩
  intro i h8 h60
  rw [h3 i h8 h60]
  unfold keyExpTemp
  by_cases h : i % 8 = 0
  · rw [if_pos h, if_pos h]
  · rw [if_neg h, if_neg h]
    by_cases h' : i % 8 = 4
    · rw [if_pos h', if_pos ⟨rfl, h'⟩]
    · rw [if_neg h', if_neg (fun e => h' e.2)]

theorem key_expansion_aes256_witness :
    7 ≤ 7 ∧ IsStdRc round_constants ∧
    ∃ rk', mbedtls_aeszkn_setkey_enc 7 zeroMem kat_key256 round_constants 256 = some (0, rk') ∧
      (∀ i, i < 8 → wordAt rk' i = wordAt kat_key256 i) ∧
      (∀ i, 8 ≤ i → i < 60 →
        wordAt rk' i = xorBytes (wordAt rk' (i - 8))
          (if i % 8 = 0 then xorBytes (SubWord (RotWord (wordAt rk' (i - 1)))) (Rcon (i / 8))
           else if i % 8 = 4 then SubWord (wordAt rk' (i - 1))
           else wordAt rk' (i - 1))) :=
  ⟨by decide, isStdRc_round_constants,
    key_expansion_aes256 7 (by decide) zeroMem kat_key256 round_constants
      isStdRc_round_constants⟩

/-- C8: schedule length. For bits = 128, 192, 256 with NumRounds = 10, 12, 14,
mbedtls_aeszkn_setkey_enc writes exactly the words rk[0 .. 4*(NumRounds+1)-1]: no byte of rk
outside them changes, and each of them gets a content that does not depend on what rk held
before. Likewise mbedtls_aeszkn_inverse_key writes exactly the NumRounds+1 entries
invkey[0 .. 4*(NumRounds+1)-1], so the decrypt schedule has the length of the forward one. -/
theorem schedule_length (bits nr fuel : Nat) (hb : KeySize bits nr) (hfuel : 4 * nr ≤ fuel)
    (key rc fwd : Mem) :
    (∀ rkA rkB : Mem, ∃ A B,
      mbedtls_aeszkn_setkey_enc fuel rkA key rc bits = some (0, A) ∧
      mbedtls_aeszkn_setkey_enc fuel rkB key rc bits = some (0, B) ∧
      (∀ j : Int, j < 0 ∨ 16 * ((nr + 1 : Nat) : Int) ≤ j → A j = rkA j) ∧
      (∀ i, i < 4 * (nr + 1) → wordAt A i = wordAt B i)) ∧
    (∀ invA invB : Mem, ∃ A B fA fB,
      mbedtls_aeszkn_inverse_key fuel invA fwd bits = some (A, fA) ∧
      mbedtls_aeszkn_inverse_key fuel invB fwd bits = some (B, fB) ∧
      (∀ j : Int, j < 0 ∨ 16 * ((nr + 1 : Nat) : Int) ≤ j → A j = invA j) ∧
      (∀ r, r < nr + 1 → roundKey A 0 r = roundKey B 0 r)) := by
  obtain ⟨m, hm, -, h11, h2⟩ := keySize_even hb
  constructor
  · intro rkA rkB
    exact setkey_det bits nr hb fuel fuel (by omega) (by omega) rkA rkB key rc
  · intro invA invB
    obtain ⟨A, fA, hA, a0, an, ak, -, afr, -⟩ :=
      mbedtls_aeszkn_inverse_key_spec bits nr fuel hb (by omega) invA fwd
    obtain ⟨B, fB, hB, b0, bn, bk, -, -, -⟩ :=
      mbedtls_aeszkn_inverse_key_spec bits nr fuel hb (by omega) invB fwd
    refine ⟨A, B, fA, fB, hA, hB, afr, ?_⟩
    intro r hr
    by_cases h0 : r = 0
    · subst h0; rw [a0, b0]
    · by_cases hn : r = nr
      · subst hn; rw [an, bn]
      · rw [ak r (by omega) (by omega), bk r (by omega) (by omega)]

theorem schedule_length_witness :
    KeySize 256 14 ∧ 4 * 14 ≤ 56 ∧
    ((∀ rkA rkB : Mem, ∃ A B,
      mbedtls_aeszkn_setkey_enc 56 rkA kat_key256 round_constants 256 = some (0, A) ∧
      mbedtls_aeszkn_setkey_enc 56 rkB kat_key256 round_constants 256 = some (0, B) ∧
      (∀ j : Int, j < 0 ∨ 16 * ((14 + 1 : Nat) : Int) ≤ j → A j = rkA j) ∧
      (∀ i, i < 4 * (14 + 1) → wordAt A i = wordAt B i)) ∧
    (∀ invA invB : Mem, ∃ A B fA fB,
      mbedtls_aeszkn_inverse_key 56 invA zeroMem 256 = some (A, fA) ∧
      mbedtls_aeszkn_inverse_key 56 invB zeroMem 256 = some (B, fB) ∧
      (∀ j : Int, j < 0 ∨ 16 * ((14 + 1 : Nat) : Int) ≤ j → A j = invA j) ∧
      (∀ r, r < 14 + 1 → roundKey A 0 r = roundKey B 0 r))) :=
  ⟨Or.inr (Or.inr ⟨rfl, rfl⟩), by decide,
    schedule_length 256 14 56 (Or.inr (Or.inr ⟨rfl, rfl⟩)) (by decide) kat_key256
      round_constants zeroMem⟩

/-- C9: the encrypt block transform is the FIPS-197 cipher. For nr in {10, 12, 14}, every
schedule and every 16-byte block, aes_encrypt (reached through mbedtls_aeszkn_crypt_ecb in
encrypt mode) returns, and its output is the byte-level reference: AddRoundKey with round
key 0; SubBytes, ShiftRows, MixColumns, AddRoundKey with round key r for r = 1 .. nr-1; then
SubBytes, ShiftRows, AddRoundKey with round key nr and no MixColumns. -/
theorem encrypt_block_is_cipher (nr fuel : Nat) (hnr : nr = 10 ∨ nr = 12 ∨ nr = 14)
    (hf : nr / 2 ≤ fuel) (ctx : mbedtls_aes_context) (hctx : ctx.nr = (nr : Int))
    (input output : Mem) :
    ∃ out,
      aes_encrypt fuel output input ctx.buf (4 * (ctx.rk_offset : Int)) ctx.nr = some out ∧
      mbedtls_aeszkn_crypt_ecb fuel ctx MBEDTLS_AES_ENCRYPT input output = some (0, out) ∧
      bytesOf out 16
        = Cipher nr (roundKey ctx.buf (4 * (ctx.rk_offset : Int))) (bytesOf input 16) := by
  obtain ⟨m, hm⟩ : ∃ m, nr = 2 * (m + 1) := ⟨nr / 2 - 1, by omega⟩
  obtain ⟨out, h1, h2, -⟩ :=
    aes_encrypt_spec m fuel output input ctx.buf (4 * (ctx.rk_offset : Int)) (by omega)
  rw [← hm, ← hctx] at h1
  rw [← hm] at h2
  refine ⟨out, h1, ?_, h2⟩
  unfold mbedtls_aeszkn_crypt_ecb
  rw [if_neg (by decide), h1]
  rfl

theorem encrypt_block_is_cipher_witness :
    (10 = 10 ∨ 10 = 12 ∨ 10 = 14) ∧ 10 / 2 ≤ 5 ∧
    (mbedtls_aes_context.mk 10 0 zeroMem).nr = ((10 : Nat) : Int) ∧
    ∃ out,
      aes_encrypt 5 zeroMem kat_plaintext (mbedtls_aes_context.mk 10 0 zeroMem).buf
        (4 * ((mbedtls_aes_context.mk 10 0 zeroMem).rk_offset : Int))
        (mbedtls_aes_context.mk 10 0 zeroMem).nr = some out ∧
      mbedtls_aeszkn_crypt_ecb 5 (mbedtls_aes_context.mk 10 0 zeroMem) MBEDTLS_AES_ENCRYPT
        kat_plaintext zeroMem = some (0, out) ∧
      bytesOf out 16
        = Cipher 10 (roundKey (mbedtls_aes_context.mk 10 0 zeroMem).buf
            (4 * ((mbedtls_aes_context.mk 10 0 zeroMem).rk_offset : Int)))
            (bytesOf kat_plaintext 16) :=
  ⟨Or.inl rfl, by decide, rfl,
    encrypt_block_is_cipher 10 5 (Or.inl rfl) (by decide) (mbedtls_aes_context.mk 10 0 zeroMem)
      rfl kat_plaintext zeroMem⟩

/-- C10: the decrypt block transform is the FIPS-197 equivalent inverse cipher with reversed
key consumption. For nr in {10, 12, 14}, every schedule dk and every 16-byte block,
aes_decrypt (reached through mbedtls_aeszkn_crypt_ecb in decrypt mode) returns, and its
output is the byte-level reference: AddRoundKey with entry nr of dk; InvSubBytes,
InvShiftRows, InvMixColumns, AddRoundKey with entry nr-j for j = 1 .. nr-1; then InvSubBytes,
InvShiftRows, AddRoundKey with entry 0 and no mix step. -/
theorem decrypt_block_is_eq_inv_cipher (nr fuel : Nat) (hnr : nr = 10 ∨ nr = 12 ∨ nr = 14)
    (hf : nr / 2 ≤ fuel) (ctx : mbedtls_aes_context) (hctx : ctx.nr = (nr : Int))
    (input output : Mem) :
    ∃ out,
      aes_decrypt fuel output input ctx.buf (4 * (ctx.rk_offset : Int)) ctx.nr = some out ∧
      mbedtls_aeszkn_crypt_ecb fuel ctx MBEDTLS_AES_DECRYPT input output = some (0, out) ∧
      bytesOf out 16
        = EqInvCipher nr (roundKey ctx.buf (4 * (ctx.rk_offset : Int))) (bytesOf input 16) := by
  obtain ⟨m, hm⟩ : ∃ m, nr = 2 * (m + 1) := ⟨nr / 2 - 1, by omega⟩
  obtain ⟨out, h1, h2, -⟩ :=
    aes_decrypt_spec m fuel output input ctx.buf (4 * (ctx.rk_offset : Int)) (by omega)
  rw [← hm, ← hctx] at h1
  rw [← hm] at h2
  refine ⟨out, h1, ?_, h2⟩
  unfold mbedtls_aeszkn_crypt_ecb
  rw [if_pos rfl, h1]
  rfl

theorem decrypt_block_is_eq_inv_cipher_witness :
    (14 = 10 ∨ 14 = 12 ∨ 14 = 14) ∧ 14 / 2 ≤ 7 ∧
    (mbedtls_aes_context.mk 14 0 zeroMem).nr = ((14 : Nat) : Int) ∧
    ∃ out,
      aes_decrypt 7 zeroMem kat_plaintext (mbedtls_aes_context.mk 14 0 zeroMem).buf
        (4 * ((mbedtls_aes_context.mk 14 0 zeroMem).rk_offset : Int))
        (mbedtls_aes_context.mk 14 0 zeroMem).nr = some out ∧
      mbedtls_aeszkn_crypt_ecb 7 (mbedtls_aes_context.mk 14 0 zeroMem) MBEDTLS_AES_DECRYPT
        kat_plaintext zeroMem = some (0, out) ∧
      bytesOf out 16
        = EqInvCipher 14 (roundKey (mbedtls_aes_context.mk 14 0 zeroMem).buf
            (4 * ((mbedtls_aes_context.mk 14 0 zeroMem).rk_offset : Int)))
            (bytesOf kat_plaintext 16) :=
  ⟨Or.inr (Or.inr rfl), by decide, rfl,
    decrypt_block_is_eq_inv_cipher 14 7 (Or.inr (Or.inr rfl)) (by decide)
      (mbedtls_aes_context.mk 14 0 zeroMem) rfl kat_plaintext zeroMem⟩

/-- C11: the inverter copies the outer round keys unchanged. For bits in {128, 192, 256} with
NumRounds = 10, 12, 14 and every forward schedule fwd (as it was before the call),
mbedtls_aeszkn_inverse_key returns and the schedule inv it produces has entry 0 equal to
entry 0 of fwd and entry NumRounds equal to entry NumRounds of fwd. -/
theorem inverter_copies_outer_keys (bits nr fuel : Nat) (hb : KeySize bits nr)
    (hf : 4 * (nr - 1) ≤ fuel) (invkey fwd : Mem) :
    ∃ inv fwd', mbedtls_aeszkn_inverse_key fuel invkey fwd bits = some (inv, fwd') ∧
      roundKey inv 0 0 = roundKey fwd 0 0 ∧
      roundKey inv 0 nr = roundKey fwd 0 nr := by
  obtain ⟨inv, fwd', h, h0, hn, -⟩ :=
    mbedtls_aeszkn_inverse_key_spec bits nr fuel hb hf invkey fwd
  exact ⟨inv, fwd', h, h0, hn⟩

theorem inverter_copies_outer_keys_witness :
    KeySize 128 10 ∧ 4 * (10 - 1) ≤ 36 ∧
    ∃ inv fwd', mbedtls_aeszkn_inverse_key 36 zeroMem kat_schedule128 128 = some (inv, fwd') ∧
      roundKey inv 0 0 = roundKey kat_schedule128 0 0 ∧
      roundKey inv 0 10 = roundKey kat_schedule128 0 10 :=
  ⟨Or.inl ⟨rfl, rfl⟩, by decide,
    inverter_copies_outer_keys 128 10 36 (Or.inl ⟨rfl, rfl⟩) (by decide) zeroMem
      kat_schedule128⟩

/-- C12, as stated, fails: on the forward schedule of the key 000102..0f (bits = 128) the
produced entry 0 is not forward entry 10 and the produced entry 10 is not forward entry 0. -/
theorem outer_keys_not_swapped :
    ∃ inv fwd', mbedtls_aeszkn_inverse_key 36 zeroMem kat_schedule128 128 = some (inv, fwd') ∧
      roundKey inv 0 0 ≠ roundKey kat_schedule128 0 10 ∧
      roundKey inv 0 10 ≠ roundKey kat_schedule128 0 0 := by
  obtain ⟨inv, fwd', h, h0, hn, -⟩ := mbedtls_aeszkn_inverse_key_spec 128 10 36
    (Or.inl ⟨rfl, rfl⟩) (by decide) zeroMem kat_schedule128
  refine ⟨inv, fwd', h, ?_, ?_⟩
  · rw [h0, kat_schedule128_entries.1, kat_schedule128_entries.2.2]; decide
  · rw [hn, kat_schedule128_entries.1, kat_schedule128_entries.2.2]; decide

/-- C12, amended: the outer entries of the produced schedule are not swapped, they stay at
their forward index. For every key size and every forward schedule fwd the produced entry 0
is forward entry 0 and the produced entry NumRounds is forward entry NumRounds, so the
produced entry 0 equals forward entry NumRounds (and the produced entry NumRounds equals
forward entry 0) only when forward entries 0 and NumRounds coincide. -/
theorem outer_keys_keep_forward_index (bits nr fuel : Nat) (hb : KeySize bits nr)
    (hf : 4 * (nr - 1) ≤ fuel) (invkey fwd : Mem) :
    ∃ inv fwd', mbedtls_aeszkn_inverse_key fuel invkey fwd bits = some (inv, fwd') ∧
      roundKey inv 0 0 = roundKey fwd 0 0 ∧
      roundKey inv 0 nr = roundKey fwd 0 nr ∧
      (roundKey inv 0 0 = roundKey fwd 0 nr ↔ roundKey fwd 0 0 = roundKey fwd 0 nr) ∧
      (roundKey inv 0 nr = roundKey fwd 0 0 ↔ roundKey fwd 0 0 = roundKey fwd 0 nr) := by
  obtain ⟨inv, fwd', h, h0, hn, -⟩ :=
    mbedtls_aeszkn_inverse_key_spec bits nr fuel hb hf invkey fwd
  refine ⟨inv, fwd', h, h0, hn, ?_, ?_⟩
  · rw [h0]
  · rw [hn]; exact eq_comm

theorem outer_keys_keep_forward_index_witness :
    KeySize 128 10 ∧ 4 * (10 - 1) ≤ 36 ∧
    ∃ inv fwd', mbedtls_aeszkn_inverse_key 36 zeroMem kat_schedule128 128 = some (inv, fwd') ∧
      roundKey inv 0 0 = roundKey kat_schedule128 0 0 ∧
      roundKey inv 0 10 = roundKey kat_schedule128 0 10 ∧
      (roundKey inv 0 0 = roundKey kat_schedule128 0 10
        ↔ roundKey kat_schedule128 0 0 = roundKey kat_schedule128 0 10) ∧
      (roundKey inv 0 10 = roundKey kat_schedule128 0 0
        ↔ roundKey kat_schedule128 0 0 = roundKey kat_schedule128 0 10) :=
  ⟨Or.inl ⟨rfl, rfl⟩, by decide,
    outer_keys_keep_forward_index 128 10 36 (Or.inl ⟨rfl, rfl⟩) (by decide) zeroMem
      kat_schedule128⟩

/-- C13, as stated, fails: on the forward schedule of the key 000102..0f (bits = 128), entry 1
of the produced schedule is not InvMixColumns of the S-box substitution of forward entry 1. -/
theorem interior_not_substituted :
    ∃ inv fwd', mbedtls_aeszkn_inverse_key 36 zeroMem kat_schedule128 128 = some (inv, fwd') ∧
      roundKey inv 0 1 ≠ InvMixColumns (SubBytes (roundKey kat_schedule128 0 1)) := by
  obtain ⟨inv, fwd', h, -, -, hk, -⟩ := mbedtls_aeszkn_inverse_key_spec 128 10 36
    (Or.inl ⟨rfl, rfl⟩) (by decide) zeroMem kat_schedule128
  refine ⟨inv, fwd', h, ?_⟩
  rw [hk 1 (by decide) (by decide)]
  exact kat_schedule128_entry1_images.1

/-- C13, amended: for bits in {128, 192, 256} and every interior entry k with
1 <= k <= NumRounds-1, each word of entry k produced by mbedtls_aeszkn_inverse_key is
InvMixColumns applied to the inverse S-box substitution of the forward S-box substitution
(SubWord) of the corresponding word of forward entry k: aes32dsmi undoes the substitution of
aes32esi before it mixes. -/
theorem interior_substituted_and_unsubstituted (bits nr fuel : Nat) (hb : KeySize bits nr)
    (hf : 4 * (nr - 1) ≤ fuel) (invkey fwd : Mem) :
    ∃ inv fwd', mbedtls_aeszkn_inverse_key fuel invkey fwd bits = some (inv, fwd') ∧
      ∀ k, 1 ≤ k → k ≤ nr - 1 →
        roundKey inv 0 k = InvMixColumns (InvSubBytes (SubBytes (roundKey fwd 0 k))) := by
  obtain ⟨inv, fwd', h, -, -, hk, -⟩ :=
    mbedtls_aeszkn_inverse_key_spec bits nr fuel hb hf invkey fwd
  refine ⟨inv, fwd', h, ?_⟩
  intro k h1 h2
  have hnr : 2 ≤ nr := by
    rcases hb with ⟨_, rfl⟩ | ⟨_, rfl⟩ | ⟨_, rfl⟩ <;> decide
  rw [hk k h1 (by omega), InvSubBytes_SubBytes (isBlock_roundKey fwd 0 k)]

theorem interior_substituted_and_unsubstituted_witness :
    KeySize 128 10 ∧ 4 * (10 - 1) ≤ 36 ∧
    ∃ inv fwd', mbedtls_aeszkn_inverse_key 36 zeroMem kat_schedule128 128 = some (inv, fwd') ∧
      ∀ k, 1 ≤ k → k ≤ 10 - 1 →
        roundKey inv 0 k
          = InvMixColumns (InvSubBytes (SubBytes (roundKey kat_schedule128 0 k))) :=
  ⟨Or.inl ⟨rfl, rfl⟩, by decide,
    interior_substituted_and_unsubstituted 128 10 36 (Or.inl ⟨rfl, rfl⟩) (by decide) zeroMem
      kat_schedule128⟩

/-- C14: the decrypt schedule is the FIPS-197 equivalent-inverse-cipher key material. For
bits in {128, 192, 256} and every interior entry k with 1 <= k <= NumRounds-1, entry k of the
schedule produced by mbedtls_aeszkn_inverse_key is InvMixColumns of forward entry k at the
same index k, column by column: byte r of each of its words 4k .. 4k+3 is the InvMixColumns
combination of the four bytes of the forward word at the same place, with no substitution
left. -/
theorem interior_is_inv_mix_columns (bits nr fuel : Nat) (hb : KeySize bits nr)
    (hf : 4 * (nr - 1) ≤ fuel) (invkey fwd : Mem) :
    ∃ inv fwd', mbedtls_aeszkn_inverse_key fuel invkey fwd bits = some (inv, fwd') ∧
      (∀ k, 1 ≤ k → k ≤ nr - 1 → roundKey inv 0 k = InvMixColumns (roundKey fwd 0 k)) ∧
      (∀ i r : Nat, 4 ≤ i → i < 4 * nr → r < 4 →
        lbu inv (4 * (i : Int) + (r : Int)) = invMixByte fwd (4 * (i : Int)) r) := by
  obtain ⟨inv, fwd', h, -, -, hk, -⟩ :=
    mbedtls_aeszkn_inverse_key_spec bits nr fuel hb hf invkey fwd
  have hnr : 2 ≤ nr := by
    rcases hb with ⟨_, rfl⟩ | ⟨_, rfl⟩ | ⟨_, rfl⟩ <;> decide
  refine ⟨inv, fwd', h, fun k h1 h2 => hk k h1 (by omega), ?_⟩
  intro i r h4 hi hr
  have e := hk (i / 4) (by omega) (by omega)
  rw [InvMixColumns_roundKey] at e
  have e1 := congrArg (fun l => l.getD (4 * (i % 4) + r) 0) e
  simp only [] at e1
  rw [roundKey_getD _ _ _ _ (by omega)] at e1
  rw [List.getD_eq_getElem _ _ (by simp; omega)] at e1
  simp only [List.getElem_map, List.getElem_range] at e1
  have a1 : (0 : Int) + 16 * ((i / 4 : Nat) : Int) + ((4 * (i % 4) + r : Nat) : Int)
      = 4 * (i : Int) + (r : Int) := by omega
  have a2 : (0 : Int) + 16 * ((i / 4 : Nat) : Int) + 4 * (((4 * (i % 4) + r) / 4 : Nat) : Int)
      = 4 * (i : Int) := by omega
  have a3 : (4 * (i % 4) + r) % 4 = r := by omega
  rw [a1, a2, a3] at e1
  exact e1

theorem interior_is_inv_mix_columns_witness :
    KeySize 128 10 ∧ 4 * (10 - 1) ≤ 36 ∧
    ∃ inv fwd', mbedtls_aeszkn_inverse_key 36 zeroMem kat_schedule128 128 = some (inv, fwd') ∧
      (∀ k, 1 ≤ k → k ≤ 10 - 1 →
        roundKey inv 0 k = InvMixColumns (roundKey kat_schedule128 0 k)) ∧
      (∀ i r : Nat, 4 ≤ i → i < 4 * 10 → r < 4 →
        lbu inv (4 * (i : Int) + (r : Int)) = invMixByte kat_schedule128 (4 * (i : Int)) r) :=
  ⟨Or.inl ⟨rfl, rfl⟩, by decide,
    interior_is_inv_mix_columns 128 10 36 (Or.inl ⟨rfl, rfl⟩) (by decide) zeroMem
      kat_schedule128⟩

/-- C15, the code at a failing input: deriving the decrypt schedule for bits = 128 from the
forward schedule of the key 000102..0f overwrites entry 1 of the forward schedule (it then
holds InvMixColumns of the former entry 1), although fwdkey is declared const. -/
theorem inverse_key_overwrites_fwdkey :
    ∃ inv fwd', mbedtls_aeszkn_inverse_key 36 zeroMem kat_schedule128 128 = some (inv, fwd') ∧
      roundKey fwd' 0 1 = InvMixColumns (roundKey kat_schedule128 0 1) ∧
      roundKey fwd' 0 1 ≠ roundKey kat_schedule128 0 1 := by
  obtain ⟨inv, fwd', h, -, -, -, hk, -⟩ := mbedtls_aeszkn_inverse_key_spec 128 10 36
    (Or.inl ⟨rfl, rfl⟩) (by decide) zeroMem kat_schedule128
  refine ⟨inv, fwd', h, hk 1 (by decide) (by decide), ?_⟩
  rw [hk 1 (by decide) (by decide)]
  exact kat_schedule128_entry1_images.2

/-- C16: the key expansion loads the round-constant table rc only at entries 0..9 for
bits = 128, 0..7 for bits = 192 and 0..6 for bits = 256 (entry k is the load at byte offset
4 * k), each once and in increasing order, never at an entry of index 10 or more; and two
tables that agree on the loaded entries give the same status and the same schedule. -/
theorem rc_consumption_bounded (fuel : Nat) (hf : 11 ≤ fuel) :
    mbedtls_aeszkn_setkey_enc_rc_reads fuel 128
      = (List.range 10).map (fun (k : Nat) => 4 * (k : Int)) ∧
    mbedtls_aeszkn_setkey_enc_rc_reads fuel 192
      = (List.range 8).map (fun (k : Nat) => 4 * (k : Int)) ∧
    mbedtls_aeszkn_setkey_enc_rc_reads fuel 256
      = (List.range 7).map (fun (k : Nat) => 4 * (k : Int)) ∧
    (∀ (bits : Nat), ∀ a ∈ mbedtls_aeszkn_setkey_enc_rc_reads fuel bits,
      ∃ k : Nat, k < 10 ∧ a = 4 * (k : Int)) ∧
    (∀ (bits : Nat) (rk key rc rc' : Mem),
      (∀ a ∈ mbedtls_aeszkn_setkey_enc_rc_reads fuel bits, lbu rc a = lbu rc' a) →
      mbedtls_aeszkn_setkey_enc fuel rk key rc bits
        = mbedtls_aeszkn_setkey_enc fuel rk key rc' bits) := by
  have h128 : mbedtls_aeszkn_setkey_enc_rc_reads fuel 128
      = (List.range 10).map (fun (k : Nat) => 4 * (k : Int)) := by
    obtain ⟨f, rfl⟩ : ∃ f, fuel = f + 11 := ⟨fuel - 11, by omega⟩
    rw [rc_reads_128]
    rfl
  have h192 : mbedtls_aeszkn_setkey_enc_rc_reads fuel 192
      = (List.range 8).map (fun (k : Nat) => 4 * (k : Int)) := by
    obtain ⟨f, rfl⟩ : ∃ f, fuel = f + 9 := ⟨fuel - 9, by omega⟩
    rw [rc_reads_192]
    rfl
  have h256 : mbedtls_aeszkn_setkey_enc_rc_reads fuel 256
      = (List.range 7).map (fun (k : Nat) => 4 * (k : Int)) := by
    obtain ⟨f, rfl⟩ : ∃ f, fuel = f + 7 := ⟨fuel - 7, by omega⟩
    rw [rc_reads_256]
    rfl
  refine ⟨h128, h192, h256, ?_, ?_⟩
  · intro bits a ha
    by_cases h1 : bits = 128
    · subst h1
      rw [h128] at ha
      obtain ⟨k, hk, rfl⟩ := List.mem_map.1 ha
      exact ⟨k, by have := List.mem_range.1 hk; omega, rfl⟩
    · by_cases h2 : bits = 192
      · subst h2
        rw [h192] at ha
        obtain ⟨k, hk, rfl⟩ := List.mem_map.1 ha
        exact ⟨k, by have := List.mem_range.1 hk; omega, rfl⟩
      · by_cases h3 : bits = 256
        · subst h3
          rw [h256] at ha
          obtain ⟨k, hk, rfl⟩ := List.mem_map.1 ha
          exact ⟨k, by have := List.mem_range.1 hk; omega, rfl⟩
        · simp [mbedtls_aeszkn_setkey_enc_rc_reads, h1, h2, h3] at ha
  · intro bits rk key rc rc' h
    exact mbedtls_aeszkn_setkey_enc_rc_congr fuel bits rk key rc rc' h

theorem rc_consumption_bounded_witness :
    11 ≤ 11 ∧
    (mbedtls_aeszkn_setkey_enc_rc_reads 11 128
      = (List.range 10).map (fun (k : Nat) => 4 * (k : Int)) ∧
    mbedtls_aeszkn_setkey_enc_rc_reads 11 192
      = (List.range 8).map (fun (k : Nat) => 4 * (k : Int)) ∧
    mbedtls_aeszkn_setkey_enc_rc_reads 11 256
      = (List.range 7).map (fun (k : Nat) => 4 * (k : Int)) ∧
    (∀ (bits : Nat), ∀ a ∈ mbedtls_aeszkn_setkey_enc_rc_reads 11 bits,
      ∃ k : Nat, k < 10 ∧ a = 4 * (k : Int)) ∧
    (∀ (bits : Nat) (rk key rc rc' : Mem),
      (∀ a ∈ mbedtls_aeszkn_setkey_enc_rc_reads 11 bits, lbu rc a = lbu rc' a) →
      mbedtls_aeszkn_setkey_enc 11 rk key rc bits
        = mbedtls_aeszkn_setkey_enc 11 rk key rc' bits)) :=
  ⟨by decide, rc_consumption_bounded 11 (by decide)⟩

/-- C17: for nr in {10, 12, 14}, every schedule and every block, the round loops of
aes_ecb_encrypt and aes_ecb_decrypt return after exactly nr / 2 passes (a result exists
exactly when the fuel allows nr / 2 passes), every address they load from the schedule is
that of a word with index in 0 .. 4 * (nr + 1) - 1, and the outcome depends on the schedule
through those words only. -/
theorem block_loops_terminate (nr : Nat) (hnr : nr = 10 ∨ nr = 12 ∨ nr = 14) (fuel : Nat)
    (out inp rk : Mem) (a0 a1 a2 : Int) :
    ((aes_ecb_encrypt fuel out a0 inp a1 rk a2 (a2 + 4 * (4 * (nr : Int)))).isSome = true
      ↔ nr / 2 ≤ fuel) ∧
    ((aes_ecb_decrypt fuel out a0 inp a1 rk a2 (a2 + 4 * (4 * (nr : Int)))).isSome = true
      ↔ nr / 2 ≤ fuel) ∧
    (∀ a ∈ aes_ecb_encrypt_reads fuel a2 (a2 + 4 * (4 * (nr : Int))),
      ∃ i : Nat, i < 4 * (nr + 1) ∧ a = a2 + 4 * (i : Int)) ∧
    (∀ a ∈ aes_ecb_decrypt_reads fuel a2 (a2 + 4 * (4 * (nr : Int))),
      ∃ i : Nat, i < 4 * (nr + 1) ∧ a = a2 + 4 * (i : Int)) ∧
    (∀ rk' : Mem,
      (∀ i : Nat, i < 4 * (nr + 1) → lw rk' (a2 + 4 * (i : Int)) = lw rk (a2 + 4 * (i : Int))) →
      aes_ecb_encrypt fuel out a0 inp a1 rk' a2 (a2 + 4 * (4 * (nr : Int)))
        = aes_ecb_encrypt fuel out a0 inp a1 rk a2 (a2 + 4 * (4 * (nr : Int))) ∧
      aes_ecb_decrypt fuel out a0 inp a1 rk' a2 (a2 + 4 * (4 * (nr : Int)))
        = aes_ecb_decrypt fuel out a0 inp a1 rk a2 (a2 + 4 * (4 * (nr : Int)))) := by
  rcases hnr with h | h | h
  · exact block_routines_even 4 nr fuel (by omega) out inp rk a0 a1 a2
  · exact block_routines_even 5 nr fuel (by omega) out inp rk a0 a1 a2
  · exact block_routines_even 6 nr fuel (by omega) out inp rk a0 a1 a2

theorem block_loops_terminate_witness :
    (10 = 10 ∨ 10 = 12 ∨ 10 = 14) ∧
    (((aes_ecb_encrypt 5 zeroMem 0 kat_plaintext 0 kat_schedule128 0
        (0 + 4 * (4 * ((10 : Nat) : Int)))).isSome = true ↔ 10 / 2 ≤ 5) ∧
    ((aes_ecb_decrypt 5 zeroMem 0 kat_plaintext 0 kat_schedule128 0
        (0 + 4 * (4 * ((10 : Nat) : Int)))).isSome = true ↔ 10 / 2 ≤ 5) ∧
    (∀ a ∈ aes_ecb_encrypt_reads 5 0 (0 + 4 * (4 * ((10 : Nat) : Int))),
      ∃ i : Nat, i < 4 * (10 + 1) ∧ a = 0 + 4 * (i : Int)) ∧
    (∀ a ∈ aes_ecb_decrypt_reads 5 0 (0 + 4 * (4 * ((10 : Nat) : Int))),
      ∃ i : Nat, i < 4 * (10 + 1) ∧ a = 0 + 4 * (i : Int)) ∧
    (∀ rk' : Mem,
      (∀ i : Nat, i < 4 * (10 + 1) →
        lw rk' (0 + 4 * (i : Int)) = lw kat_schedule128 (0 + 4 * (i : Int))) →
      aes_ecb_encrypt 5 zeroMem 0 kat_plaintext 0 rk' 0 (0 + 4 * (4 * ((10 : Nat) : Int)))
        = aes_ecb_encrypt 5 zeroMem 0 kat_plaintext 0 kat_schedule128 0
            (0 + 4 * (4 * ((10 : Nat) : Int))) ∧
      aes_ecb_decrypt 5 zeroMem 0 kat_plaintext 0 rk' 0 (0 + 4 * (4 * ((10 : Nat) : Int)))
        = aes_ecb_decrypt 5 zeroMem 0 kat_plaintext 0 kat_schedule128 0
            (0 + 4 * (4 * ((10 : Nat) : Int))))) :=
  ⟨Or.inl rfl, block_loops_terminate 10 (Or.inl rfl) 5 zeroMem kat_plaintext kat_schedule128
    0 0 0⟩

/-- C18: for a context with nr in {10, 12, 14}, every mode and every input block,
mbedtls_aeszkn_crypt_ecb returns 0 and writes only the sixteen bytes of output: with
separate buffers the output buffer changes at offsets 0..15 only, and with the context, the
input and the output in one address space every byte outside the output block keeps its
value, so every word of a schedule that the output block does not overlap is unchanged. -/
theorem crypt_ecb_writes_only_output (fuel : Nat) (hf : 7 ≤ fuel) (ctx : mbedtls_aes_context)
    (hnr : ctx.nr = 10 ∨ ctx.nr = 12 ∨ ctx.nr = 14) (mode : Int) (input output : Mem)
    (M : Mem) (buf inA outA : Int) :
    (∃ out, mbedtls_aeszkn_crypt_ecb fuel ctx mode input output = some (0, out) ∧
      ∀ j : Int, j < 0 ∨ 16 ≤ j → out j = output j) ∧
    (∃ M', mbedtls_aeszkn_crypt_ecb_shared fuel M buf ctx.rk_offset ctx.nr mode inA outA
        = some (0, M') ∧
      (∀ j : Int, j < outA ∨ outA + 16 ≤ j → M' j = M j) ∧
      (outA + 16 ≤ buf + 4 * (ctx.rk_offset : Int) ∨
          buf + 4 * (ctx.rk_offset : Int) + 16 * (ctx.nr + 1) ≤ outA →
        ∀ i : Nat, (i : Int) < 4 * (ctx.nr + 1) →
          lw M' (buf + 4 * (ctx.rk_offset : Int) + 4 * (i : Int))
            = lw M (buf + 4 * (ctx.rk_offset : Int) + 4 * (i : Int)))) := by
  obtain ⟨m, hm, hm7⟩ := rounds_even_of_std ctx.nr hnr
  refine ⟨mbedtls_aeszkn_crypt_ecb_frame m fuel (by omega) ctx hm mode input output, ?_⟩
  obtain ⟨M', h1, h2⟩ := mbedtls_aeszkn_crypt_ecb_shared_frame m fuel (by omega) M buf
    ctx.rk_offset ctx.nr hm mode inA outA
  refine ⟨M', h1, h2, ?_⟩
  intro hd i hi
  apply lw_congr_bytes
  intro j hj1 hj2
  exact h2 j (by omega)

theorem crypt_ecb_writes_only_output_witness :
    7 ≤ 7 ∧
    ((⟨10, 0, kat_schedule128⟩ : mbedtls_aes_context).nr = 10 ∨
      (⟨10, 0, kat_schedule128⟩ : mbedtls_aes_context).nr = 12 ∨
      (⟨10, 0, kat_schedule128⟩ : mbedtls_aes_context).nr = 14) ∧
    ((∃ out, mbedtls_aeszkn_crypt_ecb 7 ⟨10, 0, kat_schedule128⟩ MBEDTLS_AES_ENCRYPT
          kat_plaintext zeroMem = some (0, out) ∧
      ∀ j : Int, j < 0 ∨ 16 ≤ j → out j = zeroMem j) ∧
    (∃ M', mbedtls_aeszkn_crypt_ecb_shared 7 kat_schedule128 0
          (⟨10, 0, kat_schedule128⟩ : mbedtls_aes_context).rk_offset
          (⟨10, 0, kat_schedule128⟩ : mbedtls_aes_context).nr MBEDTLS_AES_ENCRYPT 176 192
        = some (0, M') ∧
      (∀ j : Int, j < 192 ∨ 192 + 16 ≤ j → M' j = kat_schedule128 j) ∧
      (192 + 16 ≤ 0 + 4 * ((⟨10, 0, kat_schedule128⟩ : mbedtls_aes_context).rk_offset : Int) ∨
          0 + 4 * ((⟨10, 0, kat_schedule128⟩ : mbedtls_aes_context).rk_offset : Int)
            + 16 * ((⟨10, 0, kat_schedule128⟩ : mbedtls_aes_context).nr + 1) ≤ 192 →
        ∀ i : Nat, (i : Int) < 4 * ((⟨10, 0, kat_schedule128⟩ : mbedtls_aes_context).nr + 1) →
          lw M' (0 + 4 * ((⟨10, 0, kat_schedule128⟩ : mbedtls_aes_context).rk_offset : Int)
              + 4 * (i : Int))
            = lw kat_schedule128
                (0 + 4 * ((⟨10, 0, kat_schedule128⟩ : mbedtls_aes_context).rk_offset : Int)
                  + 4 * (i : Int))))) :=
  ⟨by decide, Or.inl rfl,
    crypt_ecb_writes_only_output 7 (by decide) ⟨10, 0, kat_schedule128⟩ (Or.inl rfl)
      MBEDTLS_AES_ENCRYPT kat_plaintext zeroMem kat_schedule128 0 176 192⟩

/-- C19, as stated, fails for a context outside the well-formed ones: with nr = 11 the exit
test of the round loop is never met (the loop pointer advances by 32 bytes and the end pointer
lies 176 bytes above the start), so for no amount of fuel does mbedtls_aeszkn_crypt_ecb
return a status. -/
theorem crypt_ecb_odd_rounds_never_returns :
    ¬ ∃ (fuel : Nat) (r : Int × Mem),
      mbedtls_aeszkn_crypt_ecb fuel ⟨11, 0, kat_schedule128⟩ MBEDTLS_AES_ENCRYPT kat_plaintext
        zeroMem = some r := by
  rintro ⟨fuel, r, h⟩
  rw [mbedtls_aeszkn_crypt_ecb_odd_none fuel ⟨11, 0, kat_schedule128⟩ 5 (by decide)] at h
  exact absurd h (by simp)

/-- C19, amended: for every context whose nr is a positive even number (10, 12 and 14
included), every value of mode and every input block, mbedtls_aeszkn_crypt_ecb returns 0; the
result is that of aes_decrypt, the equivalent inverse cipher, exactly when mode equals
MBEDTLS_AES_DECRYPT, and that of aes_encrypt, the cipher, for every other value of mode,
MBEDTLS_AES_ENCRYPT included. -/
theorem crypt_ecb_returns_zero_on_even_rounds (m fuel : Nat) (ctx : mbedtls_aes_context)
    (hnr : ctx.nr = ((2 * (m + 1) : Nat) : Int)) (hf : m + 1 ≤ fuel) (mode : Int)
    (input output : Mem) :
    MBEDTLS_AES_ENCRYPT ≠ MBEDTLS_AES_DECRYPT ∧
    ∃ out, mbedtls_aeszkn_crypt_ecb fuel ctx mode input output = some (0, out) ∧
      (mode = MBEDTLS_AES_DECRYPT →
        aes_decrypt fuel output input ctx.buf (4 * (ctx.rk_offset : Int)) ctx.nr = some out ∧
        bytesOf out 16
          = EqInvCipher (2 * (m + 1)) (roundKey ctx.buf (4 * (ctx.rk_offset : Int)))
              (bytesOf input 16)) ∧
      (mode ≠ MBEDTLS_AES_DECRYPT →
        aes_encrypt fuel output input ctx.buf (4 * (ctx.rk_offset : Int)) ctx.nr = some out ∧
        bytesOf out 16
          = Cipher (2 * (m + 1)) (roundKey ctx.buf (4 * (ctx.rk_offset : Int)))
              (bytesOf input 16)) := by
  refine ⟨by decide, ?_⟩
  by_cases hmode : mode = MBEDTLS_AES_DECRYPT
  · obtain ⟨out, h1, h2, _⟩ :=
      aes_decrypt_spec m fuel output input ctx.buf (4 * (ctx.rk_offset : Int)) hf
    rw [← hnr] at h1
    refine ⟨out, ?_, fun _ => ⟨h1, h2⟩, fun h => absurd hmode h⟩
    unfold mbedtls_aeszkn_crypt_ecb
    rw [if_pos hmode, h1]
    rfl
  · obtain ⟨out, h1, h2, _⟩ :=
      aes_encrypt_spec m fuel output input ctx.buf (4 * (ctx.rk_offset : Int)) hf
    rw [← hnr] at h1
    refine ⟨out, ?_, fun h => absurd h hmode, fun _ => ⟨h1, h2⟩⟩
    unfold mbedtls_aeszkn_crypt_ecb
    rw [if_neg hmode, h1]
    rfl

theorem crypt_ecb_returns_zero_on_even_rounds_witness :
    (⟨10, 0, kat_schedule128⟩ : mbedtls_aes_context).nr = ((2 * (4 + 1) : Nat) : Int) ∧
    4 + 1 ≤ 5 ∧
    (MBEDTLS_AES_ENCRYPT ≠ MBEDTLS_AES_DECRYPT ∧
    ∃ out, mbedtls_aeszkn_crypt_ecb 5 ⟨10, 0, kat_schedule128⟩ MBEDTLS_AES_ENCRYPT
        kat_plaintext zeroMem = some (0, out) ∧
      (MBEDTLS_AES_ENCRYPT = MBEDTLS_AES_DECRYPT →
        aes_decrypt 5 zeroMem kat_plaintext
            (⟨10, 0, kat_schedule128⟩ : mbedtls_aes_context).buf
            (4 * ((⟨10, 0, kat_schedule128⟩ : mbedtls_aes_context).rk_offset : Int))
            (⟨10, 0, kat_schedule128⟩ : mbedtls_aes_context).nr = some out ∧
        bytesOf out 16
          = EqInvCipher (2 * (4 + 1))
              (roundKey (⟨10, 0, kat_schedule128⟩ : mbedtls_aes_context).buf
                (4 * ((⟨10, 0, kat_schedule128⟩ : mbedtls_aes_context).rk_offset : Int)))
              (bytesOf kat_plaintext 16)) ∧
      (MBEDTLS_AES_ENCRYPT ≠ MBEDTLS_AES_DECRYPT →
        aes_encrypt 5 zeroMem kat_plaintext
            (⟨10, 0, kat_schedule128⟩ : mbedtls_aes_context).buf
            (4 * ((⟨10, 0, kat_schedule128⟩ : mbedtls_aes_context).rk_offset : Int))
            (⟨10, 0, kat_schedule128⟩ : mbedtls_aes_context).nr = some out ∧
        bytesOf out 16
          = Cipher (2 * (4 + 1))
              (roundKey (⟨10, 0, kat_schedule128⟩ : mbedtls_aes_context).buf
                (4 * ((⟨10, 0, kat_schedule128⟩ : mbedtls_aes_context).rk_offset : Int)))
              (bytesOf kat_plaintext 16))) :=
  ⟨by decide, by decide,
    crypt_ecb_returns_zero_on_even_rounds 4 5 ⟨10, 0, kat_schedule128⟩ (by decide) (by decide)
      MBEDTLS_AES_ENCRYPT kat_plaintext zeroMem⟩

/-- C20: the capability detector is a total, deterministic function of the capability word.
For every value w of the capability indicator, mbedtls_aeszkn_has_support returns 1 when bit
0x00000400 of w is set and 0 otherwise, and never any other value. -/
theorem has_support_is_bit_k (w : Nat) :
    mbedtls_aeszkn_has_support w = (if w.testBit 10 then 1 else 0) ∧
    (mbedtls_aeszkn_has_support w = 1 ↔ w &&& 0x00000400 = 0x00000400) ∧
    (mbedtls_aeszkn_has_support w = 0 ∨ mbedtls_aeszkn_has_support w = 1) := by
  have hand : w &&& 0x400 = if w.testBit 10 then 0x400 else 0 := by
    have h := Nat.and_two_pow w 10
    simp only [Nat.reducePow] at h
    rw [h]
    cases w.testBit 10 <;> rfl
  unfold mbedtls_aeszkn_has_support RISCV_ISA_K
  rw [hand]
  cases w.testBit 10 <;> simp

/-- C21: the inverter overwrites its input in place. For bits in {128, 192, 256}
(NumRounds = 10, 12, 14) and disjoint buffers, mbedtls_aeszkn_inverse_key returns, the words
4 .. 4*NumRounds-1 of the fwdkey buffer then hold the transformed values (InvMixColumns of
their former content, the same values as in invkey), and fwdkey and invkey agree on all
4*(NumRounds+1) words. -/
theorem inverse_key_overwrites_in_place (bits nr fuel : Nat) (hb : KeySize bits nr)
    (hf : 4 * (nr - 1) ≤ fuel) (invkey fwdkey : Mem) :
    ∃ inv fwd', mbedtls_aeszkn_inverse_key fuel invkey fwdkey bits = some (inv, fwd') ∧
      (∀ k, 1 ≤ k → k ≤ nr - 1 → roundKey fwd' 0 k = InvMixColumns (roundKey fwdkey 0 k)) ∧
      (∀ i : Nat, 4 ≤ i → i ≤ 4 * nr - 1 →
        wordAt fwd' i = wordAt inv i ∧ lw fwd' (4 * (i : Int)) = lw inv (4 * (i : Int))) ∧
      (∀ i : Nat, i < 4 * (nr + 1) →
        wordAt fwd' i = wordAt inv i ∧ lw fwd' (4 * (i : Int)) = lw inv (4 * (i : Int))) := by
  obtain ⟨inv, fwd', h, hfw, hag⟩ :=
    mbedtls_aeszkn_inverse_key_agree bits nr fuel hb hf invkey fwdkey
  have hnr : 2 ≤ nr := by
    rcases hb with ⟨_, rfl⟩ | ⟨_, rfl⟩ | ⟨_, rfl⟩ <;> decide
  have hall : ∀ i : Nat, i < 4 * (nr + 1) →
      wordAt fwd' i = wordAt inv i ∧ lw fwd' (4 * (i : Int)) = lw inv (4 * (i : Int)) := by
    intro i hi
    have hw := wordAt_of_roundKey_eq fwd' inv (i / 4) (hag (i / 4) (by omega)) i (by omega)
      (by omega)
    exact ⟨hw, lw_of_wordAt_eq fwd' inv i hw⟩
  exact ⟨inv, fwd', h, fun k h1 h2 => hfw k h1 (by omega), fun i _ h2 => hall i (by omega),
    hall⟩

theorem inverse_key_overwrites_in_place_witness :
    KeySize 128 10 ∧ 4 * (10 - 1) ≤ 36 ∧
    ∃ inv fwd', mbedtls_aeszkn_inverse_key 36 zeroMem kat_schedule128 128 = some (inv, fwd') ∧
      (∀ k, 1 ≤ k → k ≤ 10 - 1 →
        roundKey fwd' 0 k = InvMixColumns (roundKey kat_schedule128 0 k)) ∧
      (∀ i : Nat, 4 ≤ i → i ≤ 4 * 10 - 1 →
        wordAt fwd' i = wordAt inv i ∧ lw fwd' (4 * (i : Int)) = lw inv (4 * (i : Int))) ∧
      (∀ i : Nat, i < 4 * (10 + 1) →
        wordAt fwd' i = wordAt inv i ∧ lw fwd' (4 * (i : Int)) = lw inv (4 * (i : Int))) :=
  ⟨Or.inl ⟨rfl, rfl⟩, by decide,
    inverse_key_overwrites_in_place 128 10 36 (Or.inl ⟨rfl, rfl⟩) (by decide) zeroMem
      kat_schedule128⟩

/-- C22: the inverter has no error path for an unsupported key size. For every bits outside
{128, 192, 256} mbedtls_aeszkn_inverse_key returns (whatever the fuel) after the memcpy alone:
the first four words of invkey are those of fwdkey, every other byte of invkey and the whole
of fwdkey are unchanged, and the result carries the two buffers only, no status. -/
theorem inverse_key_unsupported_bits (fuel bits : Nat)
    (hb : bits ≠ 128 ∧ bits ≠ 192 ∧ bits ≠ 256) (invkey fwdkey : Mem) :
    ∃ inv, mbedtls_aeszkn_inverse_key fuel invkey fwdkey bits = some (inv, fwdkey) ∧
      (∀ i : Nat, i < 4 →
        wordAt inv i = wordAt fwdkey i ∧ lw inv (4 * (i : Int)) = lw fwdkey (4 * (i : Int))) ∧
      (∀ j : Int, j < 0 ∨ 16 ≤ j → inv j = invkey j) := by
  refine ⟨memcpy invkey fwdkey 16, ?_, ?_, ?_⟩
  · unfold mbedtls_aeszkn_inverse_key
    simp only [if_neg hb.1, if_neg hb.2.1, if_neg hb.2.2]
  · intro i hi
    have hw : wordAt (memcpy invkey fwdkey 16) i = wordAt fwdkey i := by
      unfold wordAt
      rw [lbu_memcpy, lbu_memcpy, lbu_memcpy, lbu_memcpy, if_pos (by push_cast; omega),
        if_pos (by push_cast; omega), if_pos (by push_cast; omega),
        if_pos (by push_cast; omega)]
    exact ⟨hw, lw_of_wordAt_eq _ _ i hw⟩
  · intro j hj
    unfold memcpy
    rw [if_neg (by push_cast; omega)]

theorem inverse_key_unsupported_bits_witness :
    (64 ≠ 128 ∧ 64 ≠ 192 ∧ 64 ≠ 256) ∧
    ∃ inv, mbedtls_aeszkn_inverse_key 0 zeroMem kat_schedule128 64
        = some (inv, kat_schedule128) ∧
      (∀ i : Nat, i < 4 →
        wordAt inv i = wordAt kat_schedule128 i ∧
        lw inv (4 * (i : Int)) = lw kat_schedule128 (4 * (i : Int))) ∧
      (∀ j : Int, j < 0 ∨ 16 ≤ j → inv j = zeroMem j) :=
  ⟨by decide, inverse_key_unsupported_bits 0 64 (by decide) zeroMem kat_schedule128⟩

end AesZkn
